import Mathlib

/-!
# HPDDM `Subdomain`: buffers, halo exchange, numbering and distributed assembly

A verification development for `src/subdomain.hpp` (class `HPDDM::Subdomain<K>`).

Modelling conventions.

* A scalar pointer `K*` into the single block allocated by `initialize` is its offset from the
  head of that block; the block itself is a memory `Nat → K`.  A pointer read from a
  `std::vector<K*>` is an `Option Nat`: `none` when the index is past the size of the vector.
  Such a pointer faults when it is dereferenced; handing it to a transfer of zero elements
  touches no memory.
* A raw pointer handed in by the caller (`K* in`, `unsigned int* num`, the arrays of a
  `MatrixCSR`) is a function on offsets: it carries no extent.
* Containers of known extent (`std::vector`, a block allocated inside the modelled call) are
  lists or carry their extent; an access past it makes the operation return `none`.
* Counters are natural numbers.  Widths are written out where the code narrows, subtracts or
  can wrap: `unsigned short` run lengths, `unsigned int` differences, the `unsigned int`
  counters of `initialize`, `globalMapping` and `distributedCSR` (reduced modulo 2^32), the
  `int` arrays filled by `distributedCSR`.  A loop whose `unsigned short` index cannot reach
  its bound does not return (`none`).  The loops over the neighbours count in
  `unsigned short`: what is stated about them is stated for fewer than 65536 neighbours.
* The general statements about transfers are made for pointer vectors that hold a pointer
  for every neighbour (`Arranged`), so that none of them rests on a read past the end of a
  vector.
* A weight `d[i]` is the exact value of a `double`, a rational number; `float` addition
  rounds the exact sum to 24 significant bits.
* The transport is reliable and non-overtaking: a receive posted for source `q` obtains the
  first message `q` posted for this process on that tag.
-/

namespace HPDDM

/-- Modelled from the spec: the type `vectorNeighbor` (declared outside this file of the
repository), an ordered sequence of (rank, shared local indices) pairs. -/
abbrev vectorNeighbor := List (Nat × List Nat)

/-- Modelled from the spec: the type `MatrixCSR<K>` (declared outside this file of the
repository): row pointers, column indices and values (raw pointers `int*`, `int*`, `K*`),
dimensions, number of stored entries and the symmetry flag. -/
structure MatrixCSR (K : Type) where
  _ia : Nat → Nat
  _ja : Nat → Nat
  _a : Nat → K
  _n : Nat
  _m : Nat
  _nnz : Nat
  _sym : Bool

/-- The data members of `Subdomain<K>` that the modelled operations read.  `arena` is the
number of scalars of the block whose head is `_rbuff[0]` (0 when nothing was allocated). -/
structure Subdomain (K : Type) where
  _rbuff : List Nat
  _sbuff : List Nat
  _dof : Nat
  _map : vectorNeighbor
  _a : MatrixCSR K
  arena : Nat

/-- First loop of `initialize` (lines 128-134): `_map[j] = (o[j], r[j])`; `r[j]` must exist. -/
def buildMap : List Nat → List (List Nat) → Option vectorNeighbor
  | [], _ => some []
  | _ :: _, [] => none
  | i :: o, rj :: r => (buildMap o r).map fun rest => (i, rj) :: rest

/-- The sum of the counts of the neighbours, before reduction to `unsigned int`. -/
def sharedCount (m : vectorNeighbor) : Nat := (m.map fun i => i.2.length).sum

/-- Second loop of `initialize` (lines 142-146): hands out `rbuff + size` and `sbuff + size`
for each neighbour, advancing the `unsigned int size` by the neighbour's count. -/
def handOut (rbuff sbuff : Nat) : vectorNeighbor → Nat → List Nat × List Nat
  | [], _ => ([], [])
  | i :: rest, size =>
    let tl := handOut rbuff sbuff rest ((size + i.2.length) % 4294967296)
    ((rbuff + size) :: tl.1, (sbuff + size) :: tl.2)

/-- `Subdomain::initialize` (lines 118-148); the source name is a reserved word here.  The
running sum `size` of the first loop is an `unsigned int`, and so is `2 * size`, the number of
scalars allocated. -/
def initialise {K : Type} (a : MatrixCSR K) (o : List Nat) (r : List (List Nat)) :
    Option (Subdomain K) :=
  match buildMap o r with
  | none => none
  | some m =>
    let size := sharedCount m % 4294967296
    if size ≠ 0 then
      let rbuff := 0
      let sbuff := rbuff + size
      let bufs := handOut rbuff sbuff m 0
      some { _rbuff := bufs.1, _sbuff := bufs.2, _dof := a._n, _map := m, _a := a,
             arena := 2 * size % 4294967296 }
    else
      some { _rbuff := [], _sbuff := [], _dof := a._n, _map := m, _a := a, arena := 0 }

/-- Sum of the counts of the first `i` neighbours. -/
def countBefore (m : vectorNeighbor) (i : Nat) : Nat := sharedCount (m.take i)

/-- Count of neighbour `i` (0 past the end of the list). -/
def countAt (m : vectorNeighbor) (i : Nat) : Nat := (m.getD i (0, [])).2.length

/-! ### Halo exchange: memory, transport and the two loops -/

/-- Writes `vals` into the block at offsets `p, p + 1, ...`. -/
def store {K : Type} (mem : Nat → K) (p : Nat) (vals : List K) : Nat → K :=
  fun x => if p ≤ x then (vals[x - p]?).getD (mem x) else mem x

/-- Reads `n` scalars of the block from offset `p`. -/
def load {K : Type} (mem : Nat → K) (p n : Nat) : List K :=
  (List.range n).map fun j => mem (p + j)

/-- A transfer of `vals` to the location `buf`: nothing is dereferenced when `vals` is empty. -/
def storeAt {K : Type} (mem : Nat → K) (buf : Option Nat) (vals : List K) : Option (Nat → K) :=
  match vals, buf with
  | [], _ => some mem
  | _ :: _, none => none
  | v :: vs, some p => some (store mem p (v :: vs))

/-- A transfer of `n` scalars from the location `buf`: nothing is dereferenced when `n = 0`. -/
def loadAt {K : Type} (mem : Nat → K) (buf : Option Nat) (n : Nat) : Option (List K) :=
  match n, buf with
  | 0, _ => some []
  | _ + 1, none => none
  | k + 1, some p => some (load mem p (k + 1))

/-- Modelled from the spec: `Wrapper<K>::gthr(n, in, out, idx)` (declared outside this file of
the repository) gathers `out[j] = in[idx[j]]` for `j < n`; here `n` is the length of `idx`. -/
def gthr {K : Type} (inp : Nat → K) (mem : Nat → K) (out : Option Nat) (idx : List Nat) :
    Option (Nat → K) :=
  storeAt mem out (idx.map inp)

/-- First loop of `exchange` and of `recvBuffer` (lines 81-85, 101-105), from neighbour `i` on:
the receive into `_rbuff[i]` is posted, the vector is gathered into `_sbuff[i]`, and that slice
is posted as a message for `_map[i].first`.  Returns the block and the posted messages
(destination, payload) in posting order. -/
def postLoop {K : Type} (s : Subdomain K) (inp : Nat → K) :
    List (Nat × List Nat) → Nat → (Nat → K) → Option ((Nat → K) × List (Nat × List K))
  | [], _, mem => some (mem, [])
  | nb :: rest, i, mem =>
    match gthr inp mem (s._sbuff[i]?) nb.2 with
    | none => none
    | some mem1 =>
      match loadAt mem1 (s._sbuff[i]?) nb.2.length with
      | none => none
      | some msg =>
        match postLoop s inp rest (i + 1) mem1 with
        | none => none
        | some (mem2, out) => some (mem2, (nb.1, msg) :: out)

/-- Transport: the message that a receive posted by rank `me` obtains from the messages
`sends` posted by its source (the first one addressed to `me`). -/
def matchRecv {K : Type} (sends : List (Nat × List K)) (me : Nat) : Option (List K) :=
  (sends.find? fun m => m.1 == me).map fun m => m.2

/-- Completion of the receive `(buf, count)` with message `msg`: a message longer than `count`
is a fatal transport error, otherwise it is written at `buf`. -/
def complete {K : Type} (mem : Nat → K) (buf : Option Nat) (count : Nat) (msg : List K) :
    Option (Nat → K) :=
  if count < msg.length then none else storeAt mem buf msg

/-- Inner loop of `exchange` (lines 89-90): `in[idx[j]] += vals[j]`. -/
def accumulate {K : Type} [Add K] (inp : Nat → K) : List Nat → List K → Nat → K
  | x :: xs, v :: vs => accumulate (Function.update inp x (inp x + v)) xs vs
  | _, _ => inp

/-- Second loop of `exchange` (lines 86-91).  `order` lists the indices returned by the
successive `MPI_Waitany` calls; `recvMsg index` is the message obtained by receive `index`
(`none`: no matching message is ever posted, the wait does not return). -/
def reduceLoop {K : Type} [Add K] (s : Subdomain K) (recvMsg : Nat → Option (List K)) :
    List Nat → (Nat → K) → (Nat → K) → Option ((Nat → K) × (Nat → K))
  | [], mem, inp => some (mem, inp)
  | index :: rest, mem, inp =>
    match s._map[index]? with
    | none => none
    | some nb =>
      match recvMsg index with
      | none => none
      | some msg =>
        match complete mem (s._rbuff[index]?) nb.2.length msg with
        | none => none
        | some mem1 =>
          match loadAt mem1 (s._rbuff[index]?) nb.2.length with
          | none => none
          | some vals => reduceLoop s recvMsg rest mem1 (accumulate inp nb.2 vals)

/-- `Subdomain::exchange` (lines 80-93) on one process: returns the block and the vector. -/
def exchange {K : Type} [Add K] (s : Subdomain K) (recvMsg : Nat → Option (List K))
    (order : List Nat) (mem inp : Nat → K) : Option ((Nat → K) × (Nat → K)) :=
  match postLoop s inp s._map 0 mem with
  | none => none
  | some (mem1, _) => reduceLoop s recvMsg order mem1 inp

/-- The messages rank `q` posts in the first loop of `exchange` / `recvBuffer`. -/
def postedBy {K : Type} (subs : List (Subdomain K)) (mems ins : Nat → Nat → K) (q : Nat) :
    Option (List (Nat × List K)) :=
  match subs[q]? with
  | none => none
  | some s => (postLoop s (ins q) s._map 0 (mems q)).map fun r => r.2

/-- The message that receive `index` of rank `p` obtains: the one its source posted for `p`. -/
def incoming {K : Type} (subs : List (Subdomain K)) (mems ins : Nat → Nat → K) (p : Nat)
    (index : Nat) : Option (List K) :=
  match subs[p]? with
  | none => none
  | some s =>
    match s._map[index]? with
    | none => none
    | some nb =>
      match postedBy subs mems ins nb.1 with
      | none => none
      | some sends => matchRecv sends p

/-- All ranks call `exchange`; the outcome on rank `p` when its receives complete in the
order `order`. -/
def exchangeAt {K : Type} [Add K] (subs : List (Subdomain K)) (mems ins : Nat → Nat → K)
    (order : List Nat) (p : Nat) : Option ((Nat → K) × (Nat → K)) :=
  match subs[p]? with
  | none => none
  | some s => exchange s (incoming subs mems ins p) order (mems p) (ins p)

/-- The shared-index list that `m` holds for rank `q`. -/
def sharedWith (m : vectorNeighbor) (q : Nat) : Option (List Nat) :=
  (m.find? fun nb => nb.1 == q).map fun nb => nb.2

/-- Mutual consistency of the neighbour maps of all ranks: ranks are valid and not repeated,
`q` is a neighbour of `p` exactly when `p` is a neighbour of `q`, the two lists have the same
length, and no index repeats inside a list. -/
def Consistent (maps : List vectorNeighbor) : Prop :=
  ∀ p, p < maps.length →
    ((maps.getD p []).map Prod.fst).Nodup ∧
    ∀ nb ∈ maps.getD p [], nb.1 < maps.length ∧ nb.2.Nodup ∧
      ∃ l ∈ sharedWith (maps.getD nb.1 []) p, l.length = nb.2.length

/-- What neighbour entry `nb` of rank `p` contributes at index `x`: the sum, over the
positions `j` with `nb.second[j] = x`, of the neighbour's value at its own `j`-th index
shared with `p`. -/
def contribution {K : Type} [AddCommMonoid K] (maps : List vectorNeighbor) (ins : Nat → Nat → K)
    (p : Nat) (nb : Nat × List Nat) (x : Nat) : K :=
  (((nb.2.zip ((sharedWith (maps.getD nb.1 []) p).getD [])).filter fun pr => pr.1 = x).map
    fun pr => ins nb.1 pr.2).sum

/-- The sum of the contributions of all neighbours of rank `p` at index `x`. -/
def haloSum {K : Type} [AddCommMonoid K] (maps : List vectorNeighbor) (ins : Nat → Nat → K)
    (p x : Nat) : K :=
  ((maps.getD p []).map fun nb => contribution maps ins p nb x).sum

/-- The values that neighbour entry `nb` of rank `p` adds at index `x`, in position order: for
each position `j` with `nb.second[j] = x`, the neighbour's value at its own `j`-th index shared
with `p`. -/
def contributions {K : Type} (maps : List vectorNeighbor) (ins : Nat → Nat → K) (p : Nat)
    (nb : Nat × List Nat) (x : Nat) : List K :=
  ((nb.2.zip ((sharedWith (maps.getD nb.1 []) p).getD [])).filter fun pr => pr.1 = x).map
    fun pr => ins nb.1 pr.2

/-- The values added at index `x` of rank `p` when its receives complete in the order `order`
(indices into the neighbour list of `p`), one neighbour after the other. -/
def haloTerms {K : Type} (maps : List vectorNeighbor) (ins : Nat → Nat → K) (p : Nat)
    (order : List Nat) (x : Nat) : List K :=
  order.flatMap fun index => contributions maps ins p ((maps.getD p []).getD index (0, [])) x

/-- The `2n` slices handed out by `initialize`, as (first offset, length) pairs: the receive
slices in neighbour order, then the send slices in neighbour order. -/
def slices {K : Type} (s : Subdomain K) : List (Nat × Nat) :=
  (s._rbuff.zip (s._map.map fun nb => nb.2.length)) ++
    (s._sbuff.zip (s._map.map fun nb => nb.2.length))

/-- Two slices share an offset. -/
def Overlap (a b : Nat × Nat) : Prop :=
  ∃ x, (a.1 ≤ x ∧ x < a.1 + a.2) ∧ (b.1 ≤ x ∧ x < b.1 + b.2)

/-- The buffers of `s` exist wherever a transfer of at least one scalar uses them. -/
def Buffered {K : Type} (s : Subdomain K) : Prop :=
  ∀ (i : Nat) (nb : Nat × List Nat), s._map[i]? = some nb → nb.2 ≠ [] →
    (∃ q, s._rbuff[i]? = some q) ∧ (∃ q, s._sbuff[i]? = some q)

/-! ### The two-process scenario: 4 local unknowns each, index 3 of rank 0 shared with
index 0 of rank 1 -/

/-- An empty 4 x 4 matrix. -/
def scenarioMatrix : MatrixCSR Int :=
  { _ia := fun _ => 0, _ja := fun _ => 0, _a := fun _ => 0, _n := 4, _m := 4, _nnz := 0,
    _sym := false }

/-- Rank 0 after `initialize` with neighbour 1 sharing local index 3. -/
def scenarioA : Subdomain Int :=
  { _rbuff := [0], _sbuff := [1], _dof := 4, _map := [(1, [3])], _a := scenarioMatrix,
    arena := 2 }

/-- Rank 1 after `initialize` with neighbour 0 sharing local index 0. -/
def scenarioB : Subdomain Int :=
  { _rbuff := [0], _sbuff := [1], _dof := 4, _map := [(0, [0])], _a := scenarioMatrix,
    arena := 2 }

/-- Contributions 1 (rank 0) and 2 (rank 1) at the shared unknown, 0 elsewhere. -/
def scenarioIn : Nat → Nat → Int :=
  fun p x => if p = 0 then (if x = 3 then 1 else 0) else (if x = 0 then 2 else 0)

/-- The buffers of `s` are the ones handed out by `initialize`: wherever a transfer of at
least one scalar uses them, they sit at the prefix sums of the counts. -/
def Laid {K : Type} (s : Subdomain K) : Prop :=
  ∀ (i : Nat) (nb : Nat × List Nat), s._map[i]? = some nb → nb.2 ≠ [] →
    s._rbuff[i]? = some (countBefore s._map i) ∧
    s._sbuff[i]? = some (sharedCount s._map + countBefore s._map i)

/-- The pointer vectors of `s` as `initialize` leaves them when the counters did not wrap:
fewer than 65536 neighbours, one slice per neighbour, the receive slice of neighbour `i` at
the total of the counts before it and the send slice `S` further, in a block of `2 * S`
scalars, and at least one shared index when there is a neighbour.  For neighbours none of
which shares an index `initialize` hands out no slice and leaves the pointer vectors empty,
which is not of this form. -/
def Arranged {K : Type} (s : Subdomain K) : Prop :=
  s._map.length < 65536 ∧
  s._rbuff = (List.range s._map.length).map (fun i => countBefore s._map i) ∧
  s._sbuff =
    (List.range s._map.length).map (fun i => sharedCount s._map + countBefore s._map i) ∧
  s.arena = 2 * sharedCount s._map ∧
  (s._map ≠ [] → 0 < sharedCount s._map)

/-! ### Distributed assembly -/

/-- The test `num[i] >= first && num[i] < last`. -/
def inRange (v first last : Nat) : Bool := decide (first ≤ v) && decide (v < last)

/-- The counting loop of `distributedCSR` and `distributedVec` (lines 506-509, 555-558). -/
def ownedCount (num : Nat → Nat) (first last n : Nat) : Nat :=
  ((List.range n).filter fun i => inRange (num i) first last).length

/-- The stored entries of row `i` of `A`, columns renumbered by `num` (lines 517-518). -/
def rowPairs {K : Type} (num : Nat → Nat) (A : MatrixCSR K) (i : Nat) : List (Nat × K) :=
  (List.range' (A._ia i) (A._ia (i + 1) - A._ia i)).map fun j => (num (A._ja j), A._a j)

/-- The loop of lines 511-514: `tmp[num[i] - first].reserve(...)` only needs the row to exist. -/
def reserveLoop (num : Nat → Nat) (first last dof : Nat) : List Nat → Option Unit
  | [] => some ()
  | i :: rest =>
    if inRange (num i) first last then
      if num i - first < dof then reserveLoop num first last dof rest else none
    else reserveLoop num first last dof rest

/-- The loop of lines 515-520: every in-range row appends its renumbered entries to
`tmp[num[i] - first]`. -/
def fillLoop {K : Type} (num : Nat → Nat) (first last : Nat) (A : MatrixCSR K) :
    List Nat → List (List (Nat × K)) → Option (List (List (Nat × K)))
  | [], tmp => some tmp
  | i :: rest, tmp =>
    if inRange (num i) first last then
      match tmp[num i - first]? with
      | none => none
      | some row =>
        fillLoop num first last A rest (tmp.set (num i - first) (row ++ rowPairs num A i))
    else fillLoop num first last A rest tmp

/-- The order of `std::pair<unsigned int, K>`: by column, then by value. -/
def pairLe {K : Type} [LinearOrder K] (x y : Nat × K) : Prop :=
  x.1 < y.1 ∨ (x.1 = y.1 ∧ x.2 ≤ y.2)

instance pairLeDecidable {K : Type} [LinearOrder K] :
    DecidableRel (pairLe : Nat × K → Nat × K → Prop) :=
  fun x y => by unfold pairLe; infer_instance

/-- The order of pairs is total. -/
instance pairLe_total {K : Type} [LinearOrder K] : IsTotal (Nat × K) pairLe :=
  ⟨fun x y => by
    unfold pairLe
    rcases Nat.lt_trichotomy x.1 y.1 with h | h | h
    · exact Or.inl (Or.inl h)
    · rcases le_total x.2 y.2 with h2 | h2
      · exact Or.inl (Or.inr ⟨h, h2⟩)
      · exact Or.inr (Or.inr ⟨h.symm, h2⟩)
    · exact Or.inr (Or.inl h)⟩

/-- The order of pairs is transitive. -/
instance pairLe_trans {K : Type} [LinearOrder K] : IsTrans (Nat × K) pairLe :=
  ⟨fun x y z hxy hyz => by
    unfold pairLe at *
    rcases hxy with h | ⟨h, h2⟩ <;> rcases hyz with g | ⟨g, g2⟩
    · exact Or.inl (by omega)
    · exact Or.inl (by omega)
    · exact Or.inl (by omega)
    · exact Or.inr ⟨by omega, le_trans h2 g2⟩⟩

/-- The conversion of an `unsigned int` to `int` (lines 533 and 536, the arrays `ia` and `ja`
being `int*`): the values from 2^31 on come out negative. -/
def toInt (v : Nat) : Int :=
  if v % 4294967296 < 2147483648 then ((v % 4294967296 : Nat) : Int)
  else ((v % 4294967296 : Nat) : Int) - 4294967296

/-- The loop of lines 530-537: each row of `tmp` is sorted and appended to `ja` / `c`, the
column being converted to `int`, and the running count `nnz`, an `unsigned int`, is recorded
as the next row pointer, converted to `int`.  Returns the row pointers after `ia[0]`, the
columns and the values. -/
def emitLoop {K : Type} [LinearOrder K] :
    List (List (Nat × K)) → Nat → List Int × List Int × List K
  | [], _ => ([], [], [])
  | row :: rest, nnz =>
    let sorted := row.insertionSort pairLe
    let next := (nnz + sorted.length) % 4294967296
    let tl := emitLoop rest next
    (toInt next :: tl.1, sorted.map (fun p => toInt p.1) ++ tl.2.1,
      sorted.map Prod.snd ++ tl.2.2)

/-- What one of the pointers `ia`, `ja`, `c` designates on entry of `distributedCSR`: a block
of its own with the given content (supplied by the caller, or allocated by the call when the
pointer is null), or the array of `A` of the same role (`A->_ia`, `A->_ja`, `A->_a`), which
is what lines 541-543 leave in the pointer. -/
inductive Slot (α : Type) where
  | block (b : Nat → α)
  | matrix

/-- The array that a pointer designates, `mat` being the array of `A` of the same role. -/
def Slot.view {α : Type} (s : Slot α) (mat : Nat → α) : Nat → α :=
  match s with
  | Slot.block b => b
  | Slot.matrix => mat

/-- The writes of lines 528-537 through a pointer, from offset 0 on: the pointer and the
array of `A` of the same role afterwards. -/
def Slot.write {α : Type} (s : Slot α) (mat : Nat → α) (vals : List α) :
    Slot α × (Nat → α) :=
  match s with
  | Slot.block b => (Slot.block (store b 0 vals), mat)
  | Slot.matrix => (Slot.matrix, store mat 0 vals)

/-- What `distributedCSR` leaves: the returned flag, the three pointers, and the arrays of
`A` after the call (`_ia` and `_ja` as the `int` arrays they are). -/
structure Assembled (K : Type) where
  flag : Bool
  ia : Slot Int
  ja : Slot Int
  c : Slot K
  matIa : Nat → Int
  matJa : Nat → Int
  matA : Nat → K

/-- The array behind the pointer `ia` after the call. -/
def Assembled.rowPointers {K : Type} (r : Assembled K) : Nat → Int := r.ia.view r.matIa

/-- The array behind the pointer `ja` after the call. -/
def Assembled.columns {K : Type} (r : Assembled K) : Nat → Int := r.ja.view r.matJa

/-- The array behind the pointer `c` after the call. -/
def Assembled.values {K : Type} (r : Assembled K) : Nat → K := r.c.view r.matA

/-- `Subdomain::distributedCSR` (lines 502-546).  `ia0`, `ja0`, `c0` say what the pointers
`ia`, `ja`, `c` designate on entry.  The rows of `A` are read by lines 511-520 before
anything is written by lines 528-537.  The table `tmp` has `dof` rows: an index outside it
(lines 513, 518) leaves the call without a result. -/
def distributedCSR {K : Type} [LinearOrder K] (num : Nat → Nat) (first last : Nat)
    (ia0 ja0 : Slot Int) (c0 : Slot K) (A : MatrixCSR K) : Option (Assembled K) :=
  let aIa : Nat → Int := fun j => (A._ia j : Int)
  let aJa : Nat → Int := fun j => (A._ja j : Int)
  if first ≠ 0 ∨ last ≠ A._n then
    let dof := ownedCount num first last A._n
    match reserveLoop num first last dof (List.range A._n) with
    | none => none
    | some _ =>
      match fillLoop num first last A (List.range A._n) (List.replicate dof []) with
      | none => none
      | some tmp =>
        let out := emitLoop tmp 0
        let wia := ia0.write aIa (0 :: out.1)
        let wja := ja0.write aJa out.2.1
        let wc := c0.write A._a out.2.2
        some { flag := true, ia := wia.1, ja := wja.1, c := wc.1,
               matIa := wia.2, matJa := wja.2, matA := wc.2 }
  else
    some { flag := false, ia := Slot.matrix, ja := Slot.matrix, c := Slot.matrix,
           matIa := aIa, matJa := aJa, matA := A._a }

/-- The loop of lines 561-568.  `cap` is the extent of the buffer when it was allocated by
this call (`new K[dof]`), `none` when the caller supplied it. -/
def vecLoop {K : Type} (T : Bool) (num : Nat → Nat) (first last : Nat) (cap : Option Nat) :
    List Nat → (Nat → K) → (Nat → K) → Option ((Nat → K) × (Nat → K))
  | [], inp, out => some (inp, out)
  | i :: rest, inp, out =>
    if inRange (num i) first last then
      if cap.any (fun d => decide (d ≤ num i - first)) then none
      else if T then
        vecLoop T num first last cap rest (Function.update inp i (out (num i - first))) out
      else
        vecLoop T num first last cap rest inp (Function.update out (num i - first) (inp i))
    else vecLoop T num first last cap rest inp out

/-- `std::copy(src, src + n, dst)`. -/
def copyN {K : Type} (src dst : Nat → K) (n : Nat) : Nat → K :=
  fun j => if j < n then src j else dst j

/-- `Subdomain::distributedVec<T>` (lines 551-576).  `out` is the buffer behind the pointer
`out` (`none`: a null pointer), `fresh` the content of a newly allocated block.  Returns the
blocks behind `in` and `out` on exit. -/
def distributedVec {K : Type} (T : Bool) (num : Nat → Nat) (first last : Nat) (inp : Nat → K)
    (out : Option (Nat → K)) (n : Nat) (fresh : Nat → K) :
    Option ((Nat → K) × Option (Nat → K)) :=
  if first ≠ 0 ∨ last ≠ n then
    let dof := ownedCount num first last n
    match out with
    | none =>
      (vecLoop T num first last (some dof) (List.range n) inp fresh).map fun r => (r.1, some r.2)
    | some buf =>
      (vecLoop T num first last none (List.range n) inp buf).map fun r => (r.1, some r.2)
  else
    match out with
    | none => if n = 0 then some (inp, none) else none
    | some buf =>
      if T then some (copyN buf inp n, some buf) else some (inp, some (copyN inp buf n))


/-- Row `r` of the CSR arrays behind the pointers `ia`, `ja`, `c`, as (column, value) pairs. -/
def csrRow {K : Type} (ia ja : Nat → Int) (c : Nat → K) (r : Nat) : List (Int × K) :=
  (List.range' (ia r).toNat ((ia (r + 1)).toNat - (ia r).toNat)).map fun j => (ja j, c j)

/-- Number of stored entries in the rows of `A` whose id is in range. -/
def ownedEntries {K : Type} (num : Nat → Nat) (first last : Nat) (A : MatrixCSR K) : Nat :=
  (((List.range A._n).filter fun i => inRange (num i) first last).map
    fun i => A._ia (i + 1) - A._ia i).sum

/-- The ids of the in-range rows are pairwise distinct. -/
def OwnedDistinct (num : Nat → Nat) (first last n : Nat) : Prop :=
  ∀ i j, i < n → j < n → inRange (num i) first last = true → inRange (num j) first last = true →
    num i = num j → i = j

/-- The ids of the in-range rows fill `[first, first + count)`, `count` being their number. -/
def OwnedFill (num : Nat → Nat) (first last n : Nat) : Prop :=
  (∀ i, i < n → inRange (num i) first last = true → num i < first + ownedCount num first last n) ∧
  (∀ r, r < ownedCount num first last n →
    ∃ i, i < n ∧ inRange (num i) first last = true ∧ num i = first + r)

/-- The sorted rows of `tmp`, one after the other: what `emitLoop` appends to `ja` and `c`. -/
def emitted {K : Type} [LinearOrder K] : List (List (Nat × K)) → List (Nat × K)
  | [] => []
  | row :: rest => row.insertionSort pairLe ++ emitted rest

/-- Number of entries in the first `r` rows of `tmp`. -/
def entriesBefore {K : Type} (tmp : List (List (Nat × K))) (r : Nat) : Nat :=
  ((tmp.take r).map List.length).sum

/-- A 3 x 3 matrix with rows `[(0, 10), (2, 12)]`, `[(1, 21)]`, `[(2, 32), (0, 30)]`. -/
def sampleMatrix : MatrixCSR Int :=
  { _ia := fun i => [0, 2, 3, 5].getD i 5, _ja := fun j => [0, 2, 1, 2, 0].getD j 0,
    _a := fun j => [10, 12, 21, 32, 30].getD j 0, _n := 3, _m := 3, _nnz := 5, _sym := false }

/-- A numbering of the three rows of `sampleMatrix`: ids 7, 5, 4. -/
def sampleNum : Nat → Nat := fun i => [7, 5, 4].getD i 0

/-- A block of zeros of the caller. -/
def blankSlot : Slot Int := Slot.block fun _ => 0

/-- A 1 x 1 matrix with the single entry 1. -/
def dotMatrix : MatrixCSR Int :=
  { _ia := fun i => if i = 0 then 0 else 1, _ja := fun _ => 0, _a := fun _ => 1, _n := 1,
    _m := 1, _nnz := 1, _sym := false }

/-- A numbering that gives every row the id 2^31. -/
def wideNum : Nat → Nat := fun _ => 2147483648

/-- A local vector for the three unknowns of `sampleMatrix`. -/
def sampleVec : Nat → Int := fun i => 100 + i

/-! ### Global numbering -/

/-- The value of `std::numeric_limits<unsigned int>::max()`, written by `std::fill` (line 425). -/
def unassigned : Nat := 4294967295

/-- The value of `static_cast<unsigned int>(N == 'F')`: 1 for 1-based numbering, else 0. -/
def baseOf (isF : Bool) : Nat := if isF then 1 else 0

/-- Subtraction of two `unsigned int` values. -/
def usub (a b : Nat) : Nat := (a + 4294967296 - b % 4294967296) % 4294967296

/-- The value of the `double` literal `0.1`, the `double` nearest to one tenth:
3602879701896397 / 2^55. -/
def tenth : ℚ := 3602879701896397 / 36028797018963968

/-- The test `!d || d[i] > 0.1`: a weight is the exact value of the floating-point number
`d[i]`, compared in `double` with the literal `0.1`. -/
def eligible (d : Option (Nat → ℚ)) (i : Nat) : Bool :=
  match d with
  | none => true
  | some w => decide (tenth < w i)

/-- What `globalMapping` hands back: the numbering array and `start`, `end`, `global`
(`finish` stands for `end`, a reserved word here). -/
structure Mapping where
  num : List Nat
  start : Nat
  finish : Nat
  global : Nat

/-- The branch `sizeWorld == 1` of `globalMapping` (lines 491-496). -/
def globalMappingSingle (isF : Bool) (count : Nat) : Mapping :=
  let start := baseOf isF
  let finish := count
  { num := (List.range count).map fun i => baseOf isF + i,
    start := start, finish := finish, global := usub finish start }

/-- The loop of lines 400-401: number of leading neighbours of lower rank. -/
def betweenOf (m : vectorNeighbor) (rank : Nat) : Nat :=
  (m.takeWhile fun nb => decide (nb.1 < rank)).length

/-- The expression `std::distance(_sbuff.front(), _sbuff.back()) + _map.back().second.size()`
of lines 402-404, defined when the three vectors are not empty. -/
def shareExtent {K : Type} (s : Subdomain K) : Option Nat :=
  match s._rbuff[0]?, s._sbuff.head?, s._sbuff.getLast?, s._map.getLast? with
  | some _, some f, some b, some nb => some (b - f + nb.2.length)
  | _, _, _, _ => none

/-- The assignment loops of lines 429-431 (`chk = false`) and 446-448 (`chk = true`, which adds
the test `*(first + i) == max`), from index `i` on; returns the array and `begining`, an
`unsigned int` incremented by `begining++`. -/
def assignLoop (d : Option (Nat → ℚ)) (chk : Bool) : Nat → List Nat → Nat → List Nat × Nat
  | _, [], b => ([], b)
  | i, v :: rest, b =>
    if eligible d i && (!chk || v == unassigned) then
      let r := assignLoop d chk (i + 1) rest ((b + 1) % 4294967296)
      (b :: r.1, r.2)
    else
      let r := assignLoop d chk (i + 1) rest b
      (v :: r.1, r.2)

/-- The inner loops of lines 437-438 and 479-480: `first[idx[j]] = rbuff[pos + j]`. -/
def copyIn (ubuf : Nat → Nat) : List Nat → Nat → List Nat → Option (List Nat)
  | [], _, num => some num
  | x :: xs, pos, num =>
    if x < num.length then copyIn ubuf xs (pos + 1) (num.set x (ubuf pos)) else none

/-- The loops of lines 435-440 and 477-482 over a run of neighbours, reading from `size` on. -/
def copyInAll (ubuf : Nat → Nat) : List (Nat × List Nat) → Nat → List Nat → Option (List Nat)
  | [], _, num => some num
  | nb :: rest, size, num =>
    match copyIn ubuf nb.2 size num with
    | none => none
    | some num1 => copyInAll ubuf rest (size + nb.2.length) num1

/-- The values `*(first + idx[j])` for the indices of a list, read in order. -/
def gather (num : List Nat) : List Nat → Option (List Nat)
  | [] => some []
  | x :: xs =>
    match num[x]?, gather num xs with
    | some v, some vs => some (v :: vs)
    | _, _ => none

/-- The values gathered by the loops of lines 456-457 and 470-471.  Their index `j` is an
`unsigned short` compared with `_map[i].second.size()`: with 65536 or more shared indices it
wraps before it reaches the size and the loop does not end. -/
def copyOut (num : List Nat) (idx : List Nat) : Option (List Nat) :=
  if 65536 ≤ idx.length then none else gather num idx

/-- The receives posted by lines 408-411 for the lower-rank neighbours, from offset `size`:
(source, offset, count). -/
def recvBelow (rank : Nat) : List (Nat × List Nat) → Nat → List (Nat × Nat × Nat)
  | [], _ => []
  | nb :: rest, size =>
    (nb.1, size, nb.2.length + (if nb.1 + 1 = rank then 1 else 0)) ::
      recvBelow rank rest (size + nb.2.length)

/-- The receives posted by lines 419-422 for the remaining neighbours, from offset `size`. -/
def recvAbove : List (Nat × List Nat) → Nat → List (Nat × Nat × Nat)
  | [], _ => []
  | nb :: rest, size => (nb.1, size, nb.2.length) :: recvAbove rest (size + nb.2.length)

/-- The condition of lines 413 and 442: the counter comes in a message of its own. -/
def directRecv (m : vectorNeighbor) (rank : Nat) : Bool :=
  let between := betweenOf m rank
  decide (rank ≠ 0) &&
    ((decide (between ≠ 0) && ((m[between - 1]?).any fun nb => decide (nb.1 + 1 ≠ rank))) ||
      decide (between = 0))

/-- Completion of a list of posted receives `(source, offset, count)` with their messages. -/
def deliver (ubuf : Nat → Nat) : List ((Nat × Nat × Nat) × Option (List Nat)) →
    Option (Nat → Nat)
  | [] => some ubuf
  | (rq, msg) :: rest =>
    match msg with
    | none => none
    | some l =>
      match complete ubuf (some rq.2.1) rq.2.2 l with
      | none => none
      | some ubuf1 => deliver ubuf1 rest

/-- The loop of lines 455-460 over the neighbours from `between` on: the values are written
at `sbuff + size` and posted, one more slot being sent to rank `rank + 1`.  `sb` is the
offset of `sbuff` in the buffer.  Returns the buffer, `size` and the posted messages. -/
def sendAbove (rank sb : Nat) (num : List Nat) :
    List (Nat × List Nat) → Nat → (Nat → Nat) → Option ((Nat → Nat) × Nat × List (Nat × List Nat))
  | [], size, ubuf => some (ubuf, size, [])
  | nb :: rest, size, ubuf =>
    match copyOut num nb.2 with
    | none => none
    | some vals =>
      let ubuf1 := store ubuf (sb + size) vals
      let n := nb.2.length + (if nb.1 = rank + 1 then 1 else 0)
      match sendAbove rank sb num rest (size + n) ubuf1 with
      | none => none
      | some (ubuf2, size2, out) => some (ubuf2, size2, (nb.1, load ubuf1 (sb + size) n) :: out)

/-- The loop of lines 469-475 over the lower-rank neighbours. -/
def sendBelow (sb : Nat) (num : List Nat) :
    List (Nat × List Nat) → Nat → (Nat → Nat) → Option ((Nat → Nat) × List (Nat × List Nat))
  | [], _, ubuf => some (ubuf, [])
  | nb :: rest, size, ubuf =>
    match copyOut num nb.2 with
    | none => none
    | some vals =>
      let ubuf1 := store ubuf (sb + size) vals
      match sendBelow sb num rest (size + nb.2.length) ubuf1 with
      | none => none
      | some (ubuf2, out) => some (ubuf2, (nb.1, load ubuf1 (sb + size) nb.2.length) :: out)

/-- State of a process after line 475 of `globalMapping`: everything but the values taken
over from the higher-rank neighbours. -/
structure Minted where
  num : List Nat
  start : Nat
  finish : Nat
  ubuf : Nat → Nat
  sends : List (Nat × List Nat)

/-- Lines 400-475 of `globalMapping` on a process of a communicator with `sizeWorld > 1`.
`ubuf0` is the content of the `unsigned int` buffer behind `rbuff` on entry, `below i` the
message obtained by the receive posted for neighbour `i < between`, `direct` the message
obtained by the receive of line 414.  The loops over the neighbours count in
`unsigned short` and the loops of lines 429 and 446 in `unsigned int`: the model is the code
for fewer than 65536 neighbours and a numbering array of fewer than 2^32 entries. -/
def globalMappingDown {K : Type} (s : Subdomain K) (rank sizeWorld : Nat) (isF : Bool)
    (count : Nat) (d : Option (Nat → ℚ)) (ubuf0 : Nat → Nat)
    (below : Nat → Option (List Nat)) (direct : Option (List Nat)) : Option Minted :=
  let m := s._map
  let between := betweenOf m rank
  match shareExtent s with
  | none => none
  | some ext =>
    let sb := ext + 1
    let rqBelow := recvBelow rank (m.take between) 0
    let sizeBelow := sharedCount (m.take between)
    let rqDirect := if directRecv m rank then [((rank - 1, sizeBelow, 1), direct)] else []
    let filled := List.replicate count unassigned
    let r0 :=
      if rank = 0 then assignLoop d false 0 filled (baseOf isF) else (filled, 0)
    match deliver ubuf0 ((rqBelow.zip ((List.range between).map below)) ++ rqDirect) with
    | none => none
    | some ubuf1 =>
      match copyInAll ubuf1 (m.take between) 0 r0.1 with
      | none => none
      | some num1 =>
        let begin0 := if rank = 0 then baseOf isF else ubuf1 sizeBelow
        let r1 := if rank = 0 then (num1, r0.2) else assignLoop d true 0 num1 begin0
        let num2 := r1.1
        let begining := r1.2
        let up :=
          if rank + 1 ≠ sizeWorld then
            match m[between]? with
            | none => none
            | some nb =>
              let ubuf2 :=
                if nb.1 = rank + 1 then store ubuf1 (sb + nb.2.length) [begining] else ubuf1
              match sendAbove rank sb num2 (m.drop between) 0 ubuf2 with
              | none => none
              | some (ubuf3, size, out) =>
                some (ubuf3, size,
                  out ++ (if nb.1 ≠ rank + 1 then [(rank + 1, [begining])] else []))
          else some (ubuf1, 0, [])
        match up with
        | none => none
        | some (ubuf3, size, out) =>
          match sendBelow sb num2 (m.take between) size ubuf3 with
          | none => none
          | some (ubuf4, out2) =>
            some { num := num2, start := begin0, finish := begining, ubuf := ubuf4,
                   sends := out ++ out2 }

/-- Lines 476-482 of `globalMapping`: the values of the neighbours from `between` on replace
the local ones.  `above i` is the message obtained by the receive posted for neighbour
`between + i`. -/
def globalMappingUp {K : Type} (s : Subdomain K) (rank : Nat) (st : Minted)
    (above : Nat → Option (List Nat)) : Option (List Nat) :=
  let m := s._map
  let between := betweenOf m rank
  let stop := sharedCount (m.take between) + 1
  let rqAbove := recvAbove (m.drop between) stop
  match deliver st.ubuf (rqAbove.zip ((List.range (m.length - between)).map above)) with
  | none => none
  | some ubuf1 => copyInAll ubuf1 (m.drop between) stop st.num


/-- A process of the communicator: its subdomain, the length `std::distance(first, last)` of
its numbering array and the optional weights `d`. -/
structure Process (K : Type) where
  sub : Subdomain K
  count : Nat
  d : Option (Nat → ℚ)

/-- Transport: the `k`-th message for `dest` among the messages a rank posted. -/
def nthFor (sends : List (Nat × List Nat)) (dest k : Nat) : Option (List Nat) :=
  ((sends.filter fun msg => msg.1 == dest).map fun msg => msg.2)[k]?

/-- The sources of the receives posted by lines 408-422, in posting order. -/
def recvSources (m : vectorNeighbor) (rank : Nat) : List Nat :=
  (m.take (betweenOf m rank)).map Prod.fst ++
    (if directRecv m rank then [rank - 1] else []) ++
    (m.drop (betweenOf m rank)).map Prod.fst

/-- Transport: the message obtained by the `t`-th receive posted by `rank`, when `outbox q`
lists what rank `q` posted: receives from one source match its messages in order. -/
def obtained (outbox : Nat → List (Nat × List Nat)) (m : vectorNeighbor) (rank t : Nat) :
    Option (List Nat) :=
  match (recvSources m rank)[t]? with
  | none => none
  | some src =>
    nthFor (outbox src) rank (((recvSources m rank).take t).filter fun q => q == src).length

/-- What the ranks in `sts` (ranks `0, 1, ...`) posted. -/
def outboxOf (sts : List Minted) (q : Nat) : List (Nat × List Nat) :=
  match sts[q]? with
  | none => []
  | some st => st.sends

/-- Lines 400-475 on the ranks below `r`, in rank order: each rank obtains the messages the
ranks before it posted. -/
def runDown {K : Type} (procs : List (Process K)) (isF : Bool) (ubuf0 : Nat → Nat → Nat) :
    Nat → Option (List Minted)
  | 0 => some []
  | r + 1 =>
    match runDown procs isF ubuf0 r, procs[r]? with
    | some done, some p =>
      match globalMappingDown p.sub r procs.length isF p.count p.d (ubuf0 r)
          (fun i => obtained (outboxOf done) p.sub._map r i)
          (obtained (outboxOf done) p.sub._map r (betweenOf p.sub._map r)) with
      | none => none
      | some st => some (done ++ [st])
    | _, _ => none

/-- Lines 476-489 on the ranks from `r` on: the values of the higher-rank neighbours are
taken over, and `global` is the value broadcast by the last rank. -/
def runUp {K : Type} (procs : List (Process K)) (sts : List Minted) (global : Nat) :
    List Nat → Option (List Mapping)
  | [] => some []
  | r :: rest =>
    match procs[r]?, sts[r]? with
    | some p, some st =>
      let m := p.sub._map
      let skip := betweenOf m r + (if directRecv m r then 1 else 0)
      match globalMappingUp p.sub r st (fun i => obtained (outboxOf sts) m r (skip + i)),
          runUp procs sts global rest with
      | some num, some out =>
        some ({ num := num, start := st.start, finish := st.finish, global := global } :: out)
      | _, _ => none
    | _, _ => none

/-- `Subdomain::globalMapping<N>` (lines 394-497) called on every rank of a communicator;
rank `r` is `procs[r]`, `ubuf0 r` the content of its `unsigned int` buffer on entry. -/
def globalMapping {K : Type} (procs : List (Process K)) (isF : Bool)
    (ubuf0 : Nat → Nat → Nat) : Option (List Mapping) :=
  if procs.length > 1 then
    match runDown procs isF ubuf0 procs.length with
    | none => none
    | some sts =>
      match sts.getLast? with
      | none => none
      | some top =>
        runUp procs sts (usub top.finish (baseOf isF)) (List.range procs.length)
  else
    some (procs.map fun p => globalMappingSingle isF p.count)

/-- The two-process scenario as a communicator. -/
def scenarioProcs : List (Process Int) :=
  [{ sub := scenarioA, count := 4, d := none }, { sub := scenarioB, count := 4, d := none }]

/-- An empty 2 x 2 matrix. -/
def pairMatrix : MatrixCSR Int :=
  { _ia := fun _ => 0, _ja := fun _ => 0, _a := fun _ => 0, _n := 2, _m := 2, _nnz := 0,
    _sym := false }

/-- Three ranks in a row, rank 0 in the middle: rank 0 shares its index 0 with index 1 of
rank 1 and its index 1 with index 0 of rank 2; two local unknowns each. -/
def chainProcs : List (Process Int) :=
  [{ sub := { _rbuff := [0, 1], _sbuff := [2, 3], _dof := 2, _map := [(1, [0]), (2, [1])],
              _a := pairMatrix, arena := 4 }, count := 2, d := none },
   { sub := { _rbuff := [0], _sbuff := [1], _dof := 2, _map := [(0, [1])],
              _a := pairMatrix, arena := 2 }, count := 2, d := none },
   { sub := { _rbuff := [0], _sbuff := [1], _dof := 2, _map := [(0, [0])],
              _a := pairMatrix, arena := 2 }, count := 2, d := none }]

/-! ### Interaction matrices -/

/-- The order of `std::tuple<unsigned int, unsigned int, unsigned int>`: lexicographic. -/
def tripleLe (x y : Nat × Nat × Nat) : Prop :=
  x.1 < y.1 ∨ (x.1 = y.1 ∧ (x.2.1 < y.2.1 ∨ (x.2.1 = y.2.1 ∧ x.2.2 ≤ y.2.2)))

instance tripleLeDecidable : DecidableRel tripleLe :=
  fun x y => by unfold tripleLe; infer_instance

/-- Lines 198-202: the pairs (shared index, position), sorted. -/
def fastOf (shared : List Nat) : List (Nat × Nat) :=
  (shared.enum.map fun e => (e.2, e.1)).insertionSort pairLe

/-- The call `std::lower_bound(begin, fast.cend(), (c, 0), ...)` comparing first components,
on the sorted vector `fast`; iterators are positions, `fast.length` being `cend()`. -/
def lowerBound (fast : List (Nat × Nat)) (start c : Nat) : Nat :=
  start + ((fast.drop start).takeWhile fun e => decide (e.1 < c)).length

/-- Lines 208-214: the entries of a row that is itself shared (symmetric matrix): an entry
whose column is not a shared index is emitted with the position `rowPos` of the row, another
one moves `begin`. -/
def scanShared {K : Type} (isF : Bool) (A : MatrixCSR K) (fast : List (Nat × Nat))
    (rowPos : Nat) : List Nat → Nat → List (Nat × Nat × Nat)
  | [], _ => []
  | j :: js, start =>
    let it := lowerBound fast start (A._ja j)
    match fast[it]? with
    | none => (rowPos, A._ja j, usub j (baseOf isF)) :: scanShared isF A fast rowPos js start
    | some e =>
      if A._ja j < e.1 then
        (rowPos, A._ja j, usub j (baseOf isF)) :: scanShared isF A fast rowPos js start
      else scanShared isF A fast rowPos js it

/-- Lines 219-225: the entries of a row `i` that is not shared: an entry whose column is a
shared index is emitted with the position of that index as row and `i` as column. -/
def scanOther {K : Type} (isF : Bool) (A : MatrixCSR K) (fast : List (Nat × Nat))
    (i : Nat) : List Nat → Nat → List (Nat × Nat × Nat)
  | [], _ => []
  | j :: js, start =>
    let it := lowerBound fast start (A._ja j)
    match fast[it]? with
    | none => scanOther isF A fast i js start
    | some e =>
      if ¬ (A._ja j < e.1) then (e.2, i, usub j (baseOf isF)) :: scanOther isF A fast i js it
      else scanOther isF A fast i js start

/-- Lines 204-227: the loop over the local rows; `itRow` is a position in `fast`. -/
def rowLoop {K : Type} (isF : Bool) (A : MatrixCSR K) (fast : List (Nat × Nat)) :
    List Nat → Nat → List (Nat × Nat × Nat)
  | [], _ => []
  | i :: rest, itRow =>
    let js := List.range' (A._ia i) (A._ia (i + 1) - A._ia i)
    match fast[itRow]? with
    | none => scanOther isF A fast i js 0 ++ rowLoop isF A fast rest itRow
    | some e =>
      if e.1 = i then
        (if A._sym then scanShared isF A fast e.2 js 0 else []) ++
          rowLoop isF A fast rest (itRow + 1)
      else scanOther isF A fast i js 0 ++ rowLoop isF A fast rest itRow

/-- Lines 198-228: the sorted triples (row position, column, raw index) built for a neighbour
with shared indices `shared`. -/
def sendList {K : Type} (isF : Bool) (A : MatrixCSR K) (dof : Nat) (shared : List Nat) :
    List (Nat × Nat × Nat) :=
  (rowLoop isF A (fastOf shared) (List.range dof) 0).insertionSort tripleLe

/-- Lines 229-232: the number of distinct row positions, `sendSize[2 * k]`. -/
def runCount : List (Nat × Nat × Nat) → Nat
  | [] => 0
  | [_] => 1
  | t :: u :: rest => (if u.1 ≠ t.1 then 1 else 0) + runCount (u :: rest)

/-- Lines 316-318: the value sent for raw index `raw`, multiplied by the scaling of its column
when `scale` is set and a scaling is given. -/
def sentValue {K : Type} [Mul K] (A : MatrixCSR K) (scale : Bool) (scaling : Option (Nat → K))
    (raw : Nat) : K :=
  match scale, scaling with
  | true, some sc => A._a raw * sc (A._ja raw)
  | _, _ => A._a raw

/-- A payload on tag 100, as the three typed regions that both sides address in the buffer:
the `unsigned short` run lengths, the `unsigned int` region (entry count, row positions,
column ids) and the trailing scalars; `runs` is the run count announced on tag 10.  The
regions are kept as separate lists: this describes the buffer only while the byte ranges of
`senderRegions` do not overlap, which `announcedLength_small` gives for payloads whose integer
regions and entry count stay below 2^24. -/
structure Wire (K : Type) where
  runs : Nat
  ia : List Nat
  ints : List Nat
  a : List K

/-- Lines 309-321 from the second entry on: `lastRow` is the row position of the previous
entry and `run` the length `i - prev` of the current run; returns the run lengths (stored as
`unsigned short`) and the row positions written after the first one. -/
def encodeLoop : List (Nat × Nat × Nat) → Nat → Nat → List Nat × List Nat
  | [], _, run => ([run % 65536], [])
  | t :: rest, lastRow, run =>
    if t.1 ≠ lastRow then
      let r := encodeLoop rest t.1 1
      ((run % 65536) :: r.1, t.1 :: r.2)
    else encodeLoop rest lastRow (run + 1)

/-- Lines 301-322: the payload built from the sorted triples `send`; `val` gives the value
sent for a raw index. -/
def encode {K : Type} (send : List (Nat × Nat × Nat)) (val : Nat → K) : Wire K :=
  match send with
  | [] => { runs := runCount send, ia := [], ints := [0], a := [] }
  | t :: rest =>
    let r := encodeLoop rest t.1 1
    { runs := runCount send, ia := r.1,
      ints := send.length :: t.1 :: (r.2 ++ send.map fun u => u.2.1),
      a := send.map fun u => val u.2.2 }

/-- A matrix allocated by `interaction` (line 342): dimensions and arrays of known extent. -/
structure Block (K : Type) where
  n : Nat
  m : Nat
  nnz : Nat
  ia : List Nat
  ja : List Nat
  a : List K

/-- Lines 337-341: the keys of `mapCol` in order of insertion; the compact id of a column is
its position in this list. -/
def mapColOf : List Nat → List Nat → List Nat
  | [], seen => seen
  | c :: rest, seen => if c ∈ seen then mapColOf rest seen else mapColOf rest (seen ++ [c])

/-- The header of a payload: for each of the `runs` runs, the row position and the length. -/
def runTable (ints ia : List Nat) : List Nat → Option (List (Nat × Nat))
  | [] => some []
  | i :: rest =>
    match ints[1 + i]?, ia[i]?, runTable ints ia rest with
    | some p, some len, some tl => some ((p, len) :: tl)
    | _, _, _ => none

/-- Lines 345-351: `AIJ->_ia[shared[mapRow[i]] + 1] = ia[i]`. -/
def setCounts (shared : List Nat) : List (Nat × Nat) → List Nat → Option (List Nat)
  | [], ia => some ia
  | (p, len) :: rest, ia =>
    match shared[p]? with
    | none => none
    | some x => if x + 1 < ia.length then setCounts shared rest (ia.set (x + 1) len) else none

/-- The call `std::partial_sum` (line 352), `acc` being the sum so far. -/
def partialSum : List Nat → Nat → List Nat
  | [], _ => []
  | v :: rest, acc => (acc + v) :: partialSum rest (acc + v)

/-- Lines 357-360 for one run: entries `m, m + 1, ...` of the stream go to `pos, pos + 1, ...`;
the compact id of a column is looked up in `mapCol`. -/
def fillRun {K : Type} (mapCol : List Nat) (cols : List Nat) (vals : List K) :
    Nat → Nat → Nat → List Nat → List K → Option (List Nat × List K)
  | 0, _, _, ja, a => some (ja, a)
  | len + 1, pos, m, ja, a =>
    match cols[m]?, vals[m]? with
    | some c, some v =>
      if pos < ja.length ∧ pos < a.length then
        fillRun mapCol cols vals len (pos + 1) (m + 1) (ja.set pos (mapCol.indexOf c))
          (a.set pos v)
      else none
    | _, _ => none

/-- Lines 355-369 without the optional sort: every run is written at the start of its row. -/
def fillRows {K : Type} (shared : List Nat) (ia : List Nat) (mapCol : List Nat)
    (cols : List Nat) (vals : List K) :
    List (Nat × Nat) → Nat → List Nat → List K → Option (List Nat × List K)
  | [], _, ja, a => some (ja, a)
  | (p, len) :: rest, m, ja, a =>
    match shared[p]? with
    | none => none
    | some x =>
      match ia[x]? with
      | none => none
      | some pos =>
        match fillRun mapCol cols vals len pos m ja a with
        | none => none
        | some r => fillRows shared ia mapCol cols vals rest (m + len) r.1 r.2

/-- Lines 332-360 with `sorted == false`: the block decoded from a payload by a process with
`dof` unknowns whose shared indices with the sender are `shared`; `junkJ` and `junkA` stand
for the content of the newly allocated arrays.  The flag tells whether the message "Problem
with the received CSR" of lines 353-354 is printed. -/
def decode {K : Type} (dof : Nat) (shared : List Nat) (junkJ : Nat) (junkA : K) (w : Wire K) :
    Option (Block K × Bool) :=
  match w.ints[0]? with
  | none => none
  | some nnz =>
    let cols := (w.ints.drop (1 + w.runs)).take nnz
    if cols.length < nnz then none
    else
      let mapCol := mapColOf cols []
      match runTable w.ints w.ia (List.range w.runs) with
      | none => none
      | some table =>
        match setCounts shared table (List.replicate (dof + 1) 0) with
        | none => none
        | some counts =>
          let ia := partialSum counts 0
          let mismatch := decide (ia.getD dof 0 ≠ nnz)
          match fillRows shared ia mapCol cols w.a table 0 (List.replicate nnz junkJ)
              (List.replicate nnz junkA) with
          | none => none
          | some r =>
            some ({ n := dof, m := mapCol.length, nnz := nnz, ia := ia, ja := r.1, a := r.2 },
              mismatch)

/-- Lines 326-370: `v` is emptied, then for each index returned by `MPI_Waitany` (listed in
`order`) the payload obtained from that neighbour is decoded and the block appended to `v`.
`payload index` is the payload obtained by receive `index`. -/
def receiveLoop {K : Type} (s : Subdomain K) (junkJ : Nat) (junkA : K)
    (payload : Nat → Option (Wire K)) : List Nat → List (Block K) → Option (List (Block K))
  | [], v => some v
  | index :: rest, v =>
    match s._map[index]?, payload index with
    | some nb, some w =>
      match decode s._dof nb.2 junkJ junkA w with
      | none => none
      | some r => receiveLoop s junkJ junkA payload rest (v ++ [r.1])
    | _, _ => none

/-- The payloads posted by lines 280-324 of `interaction<N, false, scale>` on a process, in
neighbour order: (destination, payload). -/
def interactionSends {K : Type} [Mul K] (isF scale : Bool) (s : Subdomain K)
    (scaling : Option (Nat → K)) (pt : Option (MatrixCSR K)) : List (Nat × Wire K) :=
  let ref := pt.getD s._a
  s._map.map fun nb =>
    (nb.1, encode (sendList isF ref s._dof nb.2) (sentValue ref scale scaling))

/-- All ranks call `interaction<N, false, scale>` on their own matrix; the vector `v` left on
rank `p` when its payload receives complete in the order `order`, `v0` being its content on
entry.  The payloads travel as typed regions: the lengths announced on tag 10 (lines 229-238)
and the placement of the buffers (lines 239-300) are not part of this definition. -/
def interactionAt {K : Type} [Mul K] (isF scale : Bool) (subs : List (Subdomain K))
    (scaling : Nat → Option (Nat → K)) (junkJ : Nat) (junkA : K) (order : List Nat)
    (p : Nat) (v0 : List (Block K)) : Option (List (Block K)) :=
  match subs[p]? with
  | none => none
  | some s =>
    let v := if v0.isEmpty then v0 else []
    receiveLoop s junkJ junkA
      (fun index =>
        match s._map[index]? with
        | none => none
        | some nb =>
          match subs[nb.1]? with
          | none => none
          | some sq =>
            ((interactionSends isF scale sq (scaling nb.1) none).find?
              fun msg => msg.1 == p).map fun msg => msg.2)
      order v


/-- A 2 x 2 matrix whose only stored entry is `(0, 1)` with value 5. -/
def couplingMatrix : MatrixCSR Int :=
  { _ia := fun i => [0, 1, 1].getD i 1, _ja := fun _ => 1, _a := fun _ => 5, _n := 2, _m := 2,
    _nnz := 1, _sym := false }

/-- Three ranks, rank 0 with neighbours 1 and 2: index 0 of rank 0 is index 1 of rank 1, and
index 1 of rank 0 is index 0 of rank 2.  Rank 1 holds `couplingMatrix`, the others an empty
matrix. -/
def interactSubs : List (Subdomain Int) :=
  [{ _rbuff := [0, 1], _sbuff := [2, 3], _dof := 2, _map := [(1, [0]), (2, [1])],
     _a := pairMatrix, arena := 4 },
   { _rbuff := [0], _sbuff := [1], _dof := 2, _map := [(0, [1])], _a := couplingMatrix,
     arena := 2 },
   { _rbuff := [0], _sbuff := [1], _dof := 2, _map := [(0, [0])], _a := pairMatrix,
     arena := 2 }]

/-- What is compared of a vector of blocks: dimensions, row pointers, columns, values. -/
def blockData {K : Type} (v : List (Block K)) :
    List (Nat × Nat × Nat × List Nat × List Nat × List K) :=
  v.map fun b => (b.n, b.m, b.nnz, b.ia, b.ja, b.a)


/-- Adds `n` entries of row position `p` in front of a list of runs. -/
def pushRun (p n : Nat) : List (Nat × Nat) → List (Nat × Nat)
  | [] => [(p, n)]
  | (q, len) :: tl => if q = p then (q, len + n) :: tl else (p, n) :: (q, len) :: tl

/-- The runs of equal row positions of a stream of triples: (row position, length). -/
def runsOf : List (Nat × Nat × Nat) → List (Nat × Nat)
  | [] => []
  | t :: rest => pushRun t.1 1 (runsOf rest)

/-- Position in the stream of the first entry of run `i`. -/
def runStart (table : List (Nat × Nat)) (i : Nat) : Nat :=
  ((table.take i).map Prod.snd).sum

/-- Number of entries of the runs whose receiver row lies below `x`. -/
def entriesBelow (shared : List Nat) (table : List (Nat × Nat)) (x : Nat) : Nat :=
  (table.map fun e => if shared.getD e.1 0 < x then e.2 else 0).sum

/-- Row `x` of a block, as (column, value) pairs. -/
def blockRow {K : Type} (b : Block K) (x : Nat) : List (Nat × K) :=
  ((b.ja.zip b.a).drop (b.ia.getD x 0)).take (b.ia.getD (x + 1) 0 - b.ia.getD x 0)

/-- A sorted stream of six triples (row position, column, raw index) in three runs. -/
def sampleSend : List (Nat × Nat × Nat) :=
  [(0, 7, 0), (0, 9, 1), (2, 3, 3), (2, 7, 2), (2, 9, 4), (3, 1, 5)]

/-- The value sent for a raw index of `sampleSend`. -/
def sampleValue : Nat → Int := fun raw => 100 + raw

/-! ### Scenarios for the degenerate and repeated halo exchange, message tags -/

/-- The reads `_rbuff[i]` and `_sbuff[i]` of the vectors of pointers made by the first loop of
`exchange` (lines 82-84), one pair per neighbour: `none` is a read past the end of the
vector. -/
def exchangeLookups {K : Type} (s : Subdomain K) : List (Option Nat × Option Nat) :=
  (List.range s._map.length).map fun i => (s._rbuff[i]?, s._sbuff[i]?)

/-- Two ranks that list each other with an empty set of shared indices, as `initialize` leaves
them. -/
def hollowSubs : List (Subdomain Int) :=
  [{ _rbuff := [], _sbuff := [], _dof := 2, _map := [(1, [])], _a := pairMatrix, arena := 0 },
   { _rbuff := [], _sbuff := [], _dof := 2, _map := [(0, [])], _a := pairMatrix, arena := 0 }]

/-- A rank without neighbours, as `initialize` leaves it. -/
def loneSub : Subdomain Int :=
  { _rbuff := [], _sbuff := [], _dof := 2, _map := [], _a := pairMatrix, arena := 0 }

/-- All ranks call `exchange` once, rank `p` completing its receives in the order `orders p`:
the blocks and the vectors afterwards, `none` when the call fails on some rank. -/
def exchangeAll {K : Type} [Add K] (subs : List (Subdomain K)) (mems ins : Nat → Nat → K)
    (orders : Nat → List Nat) : Option ((Nat → Nat → K) × (Nat → Nat → K)) :=
  if (List.range subs.length).all fun p => (exchangeAt subs mems ins (orders p) p).isSome then
    some (fun p => ((exchangeAt subs mems ins (orders p) p).map Prod.fst).getD (mems p),
          fun p => ((exchangeAt subs mems ins (orders p) p).map Prod.snd).getD (ins p))
  else none

/-- The tag argument of `MPI_Irecv` and `MPI_Isend` in `exchange` (lines 82, 84). -/
def tagExchange : Nat := 0

/-- The tag argument of `MPI_Irecv` and `MPI_Isend` in `recvBuffer` (lines 102, 104). -/
def tagRecvBuffer : Nat := 0

/-- The tag of the size messages of `interaction` (lines 196, 236). -/
def tagInteractionSize : Nat := 10

/-- The tag of the payload messages of `interaction` (lines 278, 323). -/
def tagInteractionPayload : Nat := 100

/-- The tag of every message of `globalMapping` (lines 409, 414, 420, 458, 462, 472). -/
def tagGlobalMapping : Nat := 10

/-- The tags of the four protocols, in the order halo exchange, interaction size negotiation,
interaction payload, global numbering. -/
def protocolTags : List Nat :=
  [tagExchange, tagInteractionSize, tagInteractionPayload, tagGlobalMapping]

/-- Three ranks, ranks 0 and 1 each sharing one index with rank 2 and none with each other:
the higher-rank neighbour of rank 0 skips rank 1. -/
def gapProcs : List (Process Int) :=
  [{ sub := { _rbuff := [0], _sbuff := [1], _dof := 2, _map := [(2, [1])],
              _a := pairMatrix, arena := 2 }, count := 2, d := none },
   { sub := { _rbuff := [0], _sbuff := [1], _dof := 2, _map := [(2, [0])],
              _a := pairMatrix, arena := 2 }, count := 2, d := none },
   { sub := { _rbuff := [0, 1], _sbuff := [2, 3], _dof := 2, _map := [(0, [0]), (1, [1])],
              _a := pairMatrix, arena := 4 }, count := 2, d := none }]

/-- The order of triples is total. -/
instance tripleLe_total : IsTotal (Nat × Nat × Nat) tripleLe :=
  ⟨fun x y => by
    unfold tripleLe
    omega⟩

/-- The order of triples is transitive. -/
instance tripleLe_trans : IsTrans (Nat × Nat × Nat) tripleLe :=
  ⟨fun x y z hxy hyz => by
    unfold tripleLe at *
    omega⟩

/-- The position `itRow` after the iterations `rows` of the loop of lines 204-227 (it is
advanced by line 216). -/
def itRowLoop (fast : List (Nat × Nat)) : List Nat → Nat → Nat
  | [], itRow => itRow
  | i :: rest, itRow =>
    match fast[itRow]? with
    | none => itRowLoop fast rest itRow
    | some e => if e.1 = i then itRowLoop fast rest (itRow + 1) else itRowLoop fast rest itRow

/-- What iteration `i` of the loop of lines 204-227 appends to `send[k]`. -/
def rowEmit {K : Type} (isF : Bool) (A : MatrixCSR K) (fast : List (Nat × Nat)) (i : Nat) :
    List (Nat × Nat × Nat) :=
  rowLoop isF A fast [i] (itRowLoop fast (List.range i) 0)

/-- The raw indices `_ia[i], ..., _ia[i + 1] - 1` of the stored entries of row `i`. -/
def rowRange {K : Type} (A : MatrixCSR K) (i : Nat) : List Nat :=
  List.range' (A._ia i) (A._ia (i + 1) - A._ia i)

/-- The columns of the rows below `dof` are stored in strictly increasing order. -/
def ColumnsIncreasing {K : Type} (A : MatrixCSR K) (dof : Nat) : Prop :=
  ∀ i, i < dof → ∀ j, A._ia i ≤ j → j + 1 < A._ia (i + 1) → A._ja j < A._ja (j + 1)

/-- The 2 x 2 matrix with rows `[(0, 2), (1, -1)]`, `[(0, -1), (1, 2)]`, stored in full with
the symmetry flag cleared. -/
def fullMatrix : MatrixCSR Int :=
  { _ia := fun i => [0, 2, 4].getD i 4, _ja := fun j => [0, 1, 0, 1].getD j 0,
    _a := fun j => [2, -1, -1, 2].getD j 0, _n := 2, _m := 2, _nnz := 4, _sym := false }

/-- The same matrix flagged symmetric, of which only the lower triangle `[(0, 2)]`,
`[(0, -1), (1, 2)]` is stored. -/
def lowerMatrix : MatrixCSR Int :=
  { _ia := fun i => [0, 1, 3].getD i 3, _ja := fun j => [0, 0, 1].getD j 0,
    _a := fun j => [2, -1, 2].getD j 0, _n := 2, _m := 2, _nnz := 3, _sym := true }

/-- The entries (row position, column, value) that a process with matrix `A` sends to the
neighbour with shared indices `shared` (lines 301-322, `scale == false`). -/
def sentEntries {K : Type} (isF : Bool) (A : MatrixCSR K) (dof : Nat) (shared : List Nat) :
    List (Nat × Nat × K) :=
  (sendList isF A dof shared).map fun t => (t.1, t.2.1, A._a t.2.2)

/-- The row/column transpose of a list of entries. -/
def transposed {K : Type} (l : List (Nat × Nat × K)) : List (Nat × Nat × K) :=
  l.map fun t => (t.2.1, t.1, t.2.2)


/-- Two ranks with two unknowns each, index 1 of rank 0 being index 0 of rank 1; both hold
`fullMatrix`. -/
def fullSubs : List (Subdomain Int) :=
  [{ _rbuff := [0], _sbuff := [1], _dof := 2, _map := [(1, [1])], _a := fullMatrix,
     arena := 2 },
   { _rbuff := [0], _sbuff := [1], _dof := 2, _map := [(0, [0])], _a := fullMatrix,
     arena := 2 }]

/-- The same two ranks, both holding `lowerMatrix`. -/
def lowerSubs : List (Subdomain Int) :=
  [{ _rbuff := [0], _sbuff := [1], _dof := 2, _map := [(1, [1])], _a := lowerMatrix,
     arena := 2 },
   { _rbuff := [0], _sbuff := [1], _dof := 2, _map := [(0, [0])], _a := lowerMatrix,
     arena := 2 }]

/-- The entries that rank `p` sends toward its neighbour `q` in `interaction<'C'>` called
without `pt` and without scaling. -/
def entriesFor {K : Type} (subs : List (Subdomain K)) (p q : Nat) : List (Nat × Nat × K) :=
  match subs[p]? with
  | none => []
  | some s =>
    match sharedWith s._map q with
    | none => []
    | some l => sentEntries false s._a s._dof l


/-! ### Global numbering: shape of the posted messages -/

/-- The 1-based representation of a matrix given in 0-based representation: the row pointers
and the column indices are one higher, the values are the same. -/
def oneBased {K : Type} (A : MatrixCSR K) : MatrixCSR K :=
  { _ia := fun i => A._ia i + 1, _ja := fun j => A._ja j + 1, _a := A._a, _n := A._n,
    _m := A._m, _nnz := A._nnz, _sym := A._sym }

/-- The 2 x 2 matrix with rows `[(0, 5)]`, `[(0, 7), (1, 9)]`, 0-based, flag cleared. -/
def stairMatrix : MatrixCSR Int :=
  { _ia := fun i => [0, 1, 3].getD i 3, _ja := fun j => [0, 0, 1].getD j 0,
    _a := fun j => [5, 7, 9].getD j 0, _n := 2, _m := 2, _nnz := 3, _sym := false }

/-- A 3 x 3 matrix whose only stored entries are those of row 1, `[(0, 10), (2, 12)]`, in
increasing column order. -/
def orderedMatrix : MatrixCSR Int :=
  { _ia := fun i => [0, 0, 2, 2].getD i 2, _ja := fun j => [0, 2].getD j 0,
    _a := fun j => [10, 12].getD j 0, _n := 3, _m := 3, _nnz := 2, _sym := false }

/-- The same matrix with the two entries of row 1 stored in the other order,
`[(2, 12), (0, 10)]`. -/
def swappedMatrix : MatrixCSR Int :=
  { _ia := fun i => [0, 0, 2, 2].getD i 2, _ja := fun j => [2, 0].getD j 0,
    _a := fun j => [12, 10].getD j 0, _n := 3, _m := 3, _nnz := 2, _sym := false }

/-- What a row contributes when every stored column is tested for membership in the set of
shared indices: a row that is not shared gives a triple for each entry whose column is shared,
a shared row of a matrix flagged symmetric gives a triple for each entry whose column is not
shared. -/
def plainEmit {K : Type} (isF : Bool) (A : MatrixCSR K) (shared : List Nat) (i : Nat) :
    List (Nat × Nat × Nat) :=
  if i ∈ shared then
    if A._sym then
      ((rowRange A i).filter fun j => decide (A._ja j ∉ shared)).map fun j =>
        (shared.indexOf i, A._ja j, usub j (baseOf isF))
    else []
  else
    ((rowRange A i).filter fun j => decide (A._ja j ∈ shared)).map fun j =>
      (shared.indexOf (A._ja j), i, usub j (baseOf isF))

/-- The sorted list of triples obtained with the plain membership test. -/
def plainSendList {K : Type} (isF : Bool) (A : MatrixCSR K) (dof : Nat) (shared : List Nat) :
    List (Nat × Nat × Nat) :=
  ((List.range dof).flatMap (plainEmit isF A shared)).insertionSort tripleLe


/-- The 2 x 2 matrix with rows `[(1, 3)]`, `[(1, 9)]`, 0-based, flag cleared. -/
def columnMatrix : MatrixCSR Int :=
  { _ia := fun i => [0, 1, 2].getD i 2, _ja := fun j => [1, 1].getD j 0,
    _a := fun j => [3, 9].getD j 0, _n := 2, _m := 2, _nnz := 2, _sym := false }


/-- The stored entries of row `i` as (column, value) pairs, in storage order. -/
def rowEntries {K : Type} (A : MatrixCSR K) (i : Nat) : List (Nat × K) :=
  (rowRange A i).map fun j => (A._ja j, A._a j)


/-- The entries (row position, column, value) that a row contributes when every stored column
is tested for membership in the set of shared indices. -/
def entriesEmit {K : Type} (A : MatrixCSR K) (shared : List Nat) (i : Nat) :
    List (Nat × Nat × K) :=
  if i ∈ shared then
    if A._sym then
      ((rowEntries A i).filter fun e => decide (e.1 ∉ shared)).map fun e =>
        (shared.indexOf i, e.1, e.2)
    else []
  else
    ((rowEntries A i).filter fun e => decide (e.1 ∈ shared)).map fun e =>
      (shared.indexOf e.1, i, e.2)

/-- The order of entries by (row position, column), strict. -/
def keyLt {K : Type} (x y : Nat × Nat × K) : Prop :=
  x.1 < y.1 ∨ (x.1 = y.1 ∧ x.2.1 < y.2.1)

/-- `T` is the triangular storage, with the symmetry flag set, of the symmetric matrix that
`F` stores in full with the flag cleared: row `i` of `T` holds the entries of row `i` of `F`
whose column `c` satisfies `keep i c`; of two distinct indices exactly one direction is kept
(`c ≤ i` for the lower triangle, `i ≤ c` for the upper one); with every entry `(i, c)` the
full storage holds the entry `(c, i)` with the same value. -/
def TriangleOf {K : Type} (T F : MatrixCSR K) (dof : Nat) (keep : Nat → Nat → Bool) : Prop :=
  T._sym = true ∧ F._sym = false ∧
  (∀ i c, i ≠ c → keep i c = !keep c i) ∧
  (∀ i, i < dof → rowEntries T i = (rowEntries F i).filter fun e => keep i e.1) ∧
  (∀ i, i < dof → ∀ e ∈ rowEntries F i, e.1 < dof ∧ (i, e.2) ∈ rowEntries F e.1)

/-- A matrix flagged symmetric does not store both `(i, s)` and `(s, i)` for two distinct
rows `i`, `s` below `dof`. -/
def NoMirror {K : Type} (A : MatrixCSR K) (dof : Nat) : Prop :=
  A._sym = true → ∀ i s, i < dof → s < dof → i ≠ s → (∃ e ∈ rowEntries A i, e.1 = s) →
    (∃ e ∈ rowEntries A s, e.1 = i) → False


/-! ### Interaction: the announced length and the regions of a payload -/

/-- The unit in the last place of the binade of `x` in IEEE 754 binary32 (24 significant
bits): the least power of two `u`, starting from `u`, with `x < 2^24 * u`. -/
def ulpFrom : Nat → Nat → Nat → Nat
  | 0, _, u => u
  | fuel + 1, x, u => if x < 16777216 * u then u else ulpFrom fuel x (2 * u)

/-- The value of a non-negative integer after conversion to `float` (IEEE 754 binary32: 24
significant bits, round to nearest, ties to even; exact for every integer below 2^128, where
no overflow occurs): the integer is rounded to a multiple of the unit of its binade, so an
integer below 2^24 is kept. -/
def toFloat (x : Nat) : Nat :=
  let ulp := ulpFrom 104 x 1
  let q := x / ulp
  let rem := x % ulp
  if 2 * rem < ulp then q * ulp
  else if ulp < 2 * rem then (q + 1) * ulp
  else if q % 2 = 0 then q * ulp else (q + 1) * ulp

/-- The numerator of line 233 in `size_t` arithmetic: `r` run lengths of
`sizeof(unsigned short) = 2` bytes and `r + 1 + n` integers of `sizeof(unsigned int) = 4`
bytes, `r + 1` being an `unsigned int`. -/
def regionBytes (r n : Nat) : Nat := r * 2 + ((r + 1) % 4294967296 + n) * 4

/-- Lines 233-235: `sendSize[2 * k + 1]` for `r` distinct row positions and `n` entries.
`sz` is `sizeof(K)`, a power of two (4, 8 or 16 for the supported scalars), so that the
`float` quotient is exact.  The byte count is converted to `float`, `std::ceil` (its `float`
overload) rounds the quotient up, `send[k].size()` is converted to `float` and added in
`float`, and the sum is converted to `unsigned int`. -/
def announcedLength (sz r n : Nat) : Nat :=
  toFloat ((toFloat (regionBytes r n) + sz - 1) / sz + toFloat n) % 4294967296

/-- The length of the claim: the quotient rounded up in exact arithmetic, plus `n`. -/
def exactLength (sz r n : Nat) : Nat := (2 * r + 4 * (r + 1 + n) + sz - 1) / sz + n

/-- Byte offsets, from the start of a payload buffer, of the regions addressed through
`ia`, `mapRow`, `ja` and `a`. -/
structure Regions where
  ia : Nat
  mapRow : Nat
  ja : Nat
  a : Nat
deriving DecidableEq

/-- Lines 301-304: the pointers of the sender for `r` row positions, `n = send[k].size()`
entries and the length `len = sendSize[2 * k + 1]`. -/
def senderRegions (sz r n len : Nat) : Regions :=
  { ia := 0, mapRow := 2 * r, ja := 2 * r + 4 * (r + 1), a := sz * (len - n) }

/-- Lines 332-336: the pointers of the receiver from the announced pair `(r, len)` and the
entry count `nnz` read at `*mapRow`. -/
def receiverRegions (sz r len nnz : Nat) : Regions :=
  { ia := 0, mapRow := 2 * r, ja := 2 * r + 4 * (r + 1), a := sz * (len - nnz) }


/-! ### Halo exchange in `float` arithmetic -/

/-- The value of an integer after conversion to `float`: the sign and the rounded magnitude. -/
def roundSingle (x : Int) : Int :=
  if 0 ≤ x then (toFloat x.toNat : Int) else -(toFloat (-x).toNat : Int)

/-- Integer-valued scalars of `K = float`, with the addition of the type: the exact sum
rounded to 24 significant bits. -/
structure Single where
  val : Int
deriving DecidableEq

instance singleAdd : Add Single :=
  ⟨fun a b => ⟨roundSingle (a.val + b.val)⟩⟩

/-- An empty 1 x 1 matrix of `float` scalars. -/
def blankMatrix : MatrixCSR Single :=
  { _ia := fun _ => 0, _ja := fun _ => 0, _a := fun _ => ⟨0⟩, _n := 1, _m := 1, _nnz := 0,
    _sym := false }

/-- Three ranks with one unknown each, the unknown of rank 0 being shared with rank 1 and with
rank 2, as `initialize` leaves them. -/
def starSubs : List (Subdomain Single) :=
  [{ _rbuff := [0, 1], _sbuff := [2, 3], _dof := 1, _map := [(1, [0]), (2, [0])],
     _a := blankMatrix, arena := 4 },
   { _rbuff := [0], _sbuff := [1], _dof := 1, _map := [(0, [0])], _a := blankMatrix,
     arena := 2 },
   { _rbuff := [0], _sbuff := [1], _dof := 1, _map := [(0, [0])], _a := blankMatrix,
     arena := 2 }]

/-- The values 2^24 on rank 0, 1 on rank 1 and -2^24 on rank 2. -/
def starIn : Nat → Nat → Single :=
  fun p _ => if p = 0 then ⟨16777216⟩ else if p = 1 then ⟨1⟩ else ⟨-16777216⟩

/-- Lines 228-235: the pair `(sendSize[2 * k], sendSize[2 * k + 1])` announced on tag 10 for
the sorted list `send`. -/
def announcedPair (sz : Nat) (send : List (Nat × Nat × Nat)) : Nat × Nat :=
  (runCount send, announcedLength sz (runCount send) send.length)


/-! ### Interaction: placement of the payload buffers -/

/-- Where a payload buffer of `interaction` starts: `off` scalars after the head of the block
of `initialize`, or `off` scalars after the head of the block allocated by `new K[...]` in
the call. -/
inductive Place where
  | arena (off : Nat)
  | scratch (off : Nat)
deriving DecidableEq

/-- Pointer arithmetic `p + d`. -/
def Place.shift : Place → Nat → Place
  | Place.arena off, d => Place.arena (off + d)
  | Place.scratch off, d => Place.scratch (off + d)

/-- The bound of lines 243 and 252,
`std::distance(_rbuff[0], _sbuff.back()) + _map.back().second.size()`: the two pointers enter
an arithmetic expression, so they are read from their vectors and an empty vector faults. -/
def haloCapacity {K : Type} (s : Subdomain K) : Option Nat :=
  match s._rbuff[0]?, s._sbuff.getLast?, s._map.getLast? with
  | some a, some b, some nb => some (b - a + nb.2.length)
  | _, _, _ => none

/-- Lines 241-248 (`size = recvSize`) and 251-258 (`size = sendSize`): `left` neighbours
remain, `m` is `maxRecv` (`maxSend`) and `acc` is `accumulate`; `next` is an
`unsigned int`.  Returns the counter and `accumulate`. -/
def fitLoop (cap : Nat) (size : Nat → Nat) : Nat → Nat → Nat → Nat × Nat
  | 0, m, acc => (m, acc)
  | left + 1, m, acc =>
    let next := (acc + size (2 * m + 1)) % 4294967296
    if next < cap then fitLoop cap size left (m + 1) next else (m, acc)

/-- The sum of `size[2 * j + 1]` for `k ≤ j < n` (the loops of lines 267-268, 270-271 and
292-293, before reduction to `unsigned int`). -/
def sumFrom (size : Nat → Nat) (k n : Nat) : Nat :=
  ((List.range' k (n - k)).map fun j => size (2 * j + 1)).sum

/-- Lines 262-275, the choice of `rbuff[k]` for the neighbours `k` of the list: `base` is
`_rbuff[0]`, `rbuff` the vector so far, `acc` is `accumulate` and `blk` the size of the block
allocated by `new K[accumulateSend]`, if any. -/
def rbuffLoop (base : Nat) (recvSize sendSize : Nat → Nat) (n maxRecv : Nat) :
    List Nat → List Place → Nat → Option Nat → Option (List Place × Nat × Option Nat)
  | [], rbuff, acc, blk => some (rbuff, acc, blk)
  | k :: rest, rbuff, acc, blk =>
    if k < maxRecv then
      rbuffLoop base recvSize sendSize n maxRecv rest (rbuff ++ [Place.arena (base + acc)])
        ((acc + recvSize (2 * k + 1)) % 4294967296) blk
    else if k = maxRecv then
      let accumulateSend := sumFrom recvSize k n % 4294967296
      rbuffLoop base recvSize sendSize n maxRecv rest (rbuff ++ [Place.scratch 0])
        ((acc + accumulateSend) % 4294967296)
        (some ((accumulateSend + sumFrom sendSize 0 n) % 4294967296))
    else
      match rbuff.getLast? with
      | none => none
      | some p =>
        rbuffLoop base recvSize sendSize n maxRecv rest
          (rbuff ++ [p.shift (recvSize (2 * k - 1))]) acc blk

/-- Lines 281-300, the choice of `sbuff[k]` for the neighbours `k` of the list: `rbuff` is the
finished vector of receive buffers, `sbuff` the vector so far, `acc` is `accumulate` and `blk`
the size of the block allocated in the call, if any. -/
def sbuffLoop (recvSize sendSize : Nat → Nat) (n maxRecv maxSend : Nat) (rbuff : List Place) :
    List Nat → List Place → Nat → Option Nat → Option (List Place × Option Nat)
  | [], sbuff, _, blk => some (sbuff, blk)
  | k :: rest, sbuff, acc, blk =>
    if maxRecv < n then
      if k = 0 then
        match rbuff.getLast? with
        | none => none
        | some p =>
          sbuffLoop recvSize sendSize n maxRecv maxSend rbuff rest
            (sbuff ++ [p.shift (recvSize (2 * n - 1))]) acc blk
      else
        match sbuff.getLast? with
        | none => none
        | some p =>
          sbuffLoop recvSize sendSize n maxRecv maxSend rbuff rest
            (sbuff ++ [p.shift (sendSize (2 * k - 1))]) acc blk
    else if k < maxSend then
      match rbuff[0]? with
      | none => none
      | some p =>
        sbuffLoop recvSize sendSize n maxRecv maxSend rbuff rest (sbuff ++ [p.shift acc])
          ((acc + sendSize (2 * k + 1)) % 4294967296) blk
    else if k = maxSend then
      sbuffLoop recvSize sendSize n maxRecv maxSend rbuff rest (sbuff ++ [Place.scratch 0]) acc
        (some ((acc + sumFrom sendSize k n) % 4294967296))
    else
      match sbuff.getLast? with
      | none => none
      | some p =>
        sbuffLoop recvSize sendSize n maxRecv maxSend rbuff rest
          (sbuff ++ [p.shift (sendSize (2 * k - 1))]) acc blk

/-- The payload buffers chosen by `interaction`: `rbuff`, `sbuff` and the size of the block
allocated in the call, if any. -/
structure Placement where
  rbuff : List Place
  sbuff : List Place
  block : Option Nat
deriving DecidableEq

/-- Lines 239-300 of `interaction` once the bound `cap` of lines 243 and 252 and the pointer
`base = _rbuff[0]` are known, for `n` neighbours and the lengths `recvSize[2 * k + 1]` and
`sendSize[2 * k + 1]` announced on tag 10.  The neighbour count is below 65536 (the
`unsigned short` counters `maxRecv`, `maxSend` and `k` do not wrap). -/
def placeLoops (cap base n : Nat) (recvSize sendSize : Nat → Nat) : Option Placement :=
  let fitR := fitLoop cap recvSize n 0 0
  let fitS := if fitR.1 = n then fitLoop cap sendSize n 0 fitR.2 else (0, fitR.2)
  match rbuffLoop base recvSize sendSize n fitR.1 (List.range n) [] 0 none with
  | none => none
  | some r =>
    match sbuffLoop recvSize sendSize n fitR.1 fitS.1 r.1 (List.range n) [] r.2.1 r.2.2 with
    | none => none
    | some t => some { rbuff := r.1, sbuff := t.1, block := t.2 }

/-- Lines 239-300 of `interaction`: the placement of the payload buffers.  With no neighbour
no loop body runs; otherwise the first test of line 243 evaluates the bound. -/
def interactionPlaces {K : Type} (s : Subdomain K) (recvSize sendSize : Nat → Nat) :
    Option Placement :=
  if s._map.length = 0 then some { rbuff := [], sbuff := [], block := none }
  else
    match haloCapacity s, s._rbuff[0]? with
    | some cap, some base => placeLoops cap base s._map.length recvSize sendSize
    | _, _ => none

/-- The `2n` payload buffers with the lengths handed to `MPI_Irecv` (line 276) and
`MPI_Isend` (line 323): the receive buffers in neighbour order, then the send buffers. -/
def placedBuffers (p : Placement) (recvSize sendSize : Nat → Nat) : List (Place × Nat) :=
  (p.rbuff.zip ((List.range p.rbuff.length).map fun k => recvSize (2 * k + 1))) ++
    (p.sbuff.zip ((List.range p.sbuff.length).map fun k => sendSize (2 * k + 1)))

/-- Two buffers share no scalar: they sit in different blocks or one ends where the other
starts, or before. -/
def Apart (x y : Place × Nat) : Prop :=
  match x.1, y.1 with
  | Place.arena a, Place.arena b => a + x.2 ≤ b ∨ b + y.2 ≤ a
  | Place.scratch a, Place.scratch b => a + x.2 ≤ b ∨ b + y.2 ≤ a
  | _, _ => True

/-- A buffer lies inside the block of `initialize` (`arena` scalars) or inside the block
allocated in the call. -/
def Inside (arena : Nat) (block : Option Nat) (x : Place × Nat) : Prop :=
  match x.1 with
  | Place.arena a => a + x.2 ≤ arena
  | Place.scratch a => ∃ sz, block = some sz ∧ a + x.2 ≤ sz

/-- The length of payload buffer `i` in the order receives, then sends. -/
def lengthAt (recvSize sendSize : Nat → Nat) (n i : Nat) : Nat :=
  if i < n then recvSize (2 * i + 1) else sendSize (2 * (i - n) + 1)

/-- The total length of the payload buffers before buffer `i`. -/
def lengthBefore (recvSize sendSize : Nat → Nat) (n i : Nat) : Nat :=
  ((List.range i).map (lengthAt recvSize sendSize n)).sum

/-- The place of buffer `i` when the first `t` buffers go to the block of `initialize` and
the others follow one another in the block allocated in the call; `P` gives the total length
before a buffer. -/
def placeAt (base t : Nat) (P : Nat → Nat) (i : Nat) : Place :=
  if i < t then Place.arena (base + P i) else Place.scratch (P i - P t)

/-- Rank 0 after `initialize` with neighbours 1 and 2 sharing the local indices 3 and 2, 3. -/
def trioSub : Subdomain Int :=
  { _rbuff := [0, 1], _sbuff := [3, 4], _dof := 4, _map := [(1, [3]), (2, [2, 3])],
    _a := scenarioMatrix, arena := 6 }


/-! ### Buffer pool lemmas -/

theorem buildMap_unzip (m : vectorNeighbor) :
    buildMap (m.map Prod.fst) (m.map Prod.snd) = some m := by
  induction m with
  | nil => rfl
  | cons x xs ih => simp [buildMap, ih]

theorem sharedCount_cons (x : Nat × List Nat) (m : vectorNeighbor) :
    sharedCount (x :: m) = x.2.length + sharedCount m := by
  simp [sharedCount]

theorem countBefore_zero (m : vectorNeighbor) : countBefore m 0 = 0 := by
  simp [countBefore, sharedCount]

theorem countBefore_succ_cons (x : Nat × List Nat) (m : vectorNeighbor) (i : Nat) :
    countBefore (x :: m) (i + 1) = x.2.length + countBefore m i := by
  simp [countBefore, sharedCount]

theorem countAt_cons_succ (x : Nat × List Nat) (m : vectorNeighbor) (i : Nat) :
    countAt (x :: m) (i + 1) = countAt m i := by
  simp [countAt]

theorem countAt_cons_zero (x : Nat × List Nat) (m : vectorNeighbor) :
    countAt (x :: m) 0 = x.2.length := by
  simp [countAt]

theorem countBefore_add_countAt_le (m : vectorNeighbor) (i : Nat) (h : i < m.length) :
    countBefore m i + countAt m i ≤ sharedCount m := by
  induction m generalizing i with
  | nil => simp at h
  | cons x xs ih =>
    cases i with
    | zero => simp [countBefore_zero, countAt_cons_zero, sharedCount_cons]
    | succ k =>
      have hk : k < xs.length := by simpa using h
      have := ih k hk
      rw [countBefore_succ_cons, countAt_cons_succ, sharedCount_cons]
      omega

theorem countBefore_mono (m : vectorNeighbor) (i j : Nat) (hij : i < j) (hj : j ≤ m.length) :
    countBefore m i + countAt m i ≤ countBefore m j := by
  induction m generalizing i j with
  | nil => simp at hj; omega
  | cons x xs ih =>
    cases j with
    | zero => omega
    | succ j =>
      cases i with
      | zero =>
        rw [countBefore_zero, countAt_cons_zero, countBefore_succ_cons]
        omega
      | succ i =>
        have hj2 : j ≤ xs.length := by simpa using hj
        have := ih i j (by omega) hj2
        rw [countBefore_succ_cons, countBefore_succ_cons, countAt_cons_succ]
        omega

theorem handOut_length (rb sb : Nat) (m : vectorNeighbor) (size : Nat) :
    (handOut rb sb m size).1.length = m.length ∧ (handOut rb sb m size).2.length = m.length := by
  induction m generalizing size with
  | nil => simp [handOut]
  | cons x xs ih => simp [handOut, ih]

theorem handOut_get (rb sb : Nat) (m : vectorNeighbor) (size i : Nat) (h : i < m.length)
    (hfit : size + sharedCount m < 4294967296) :
    (handOut rb sb m size).1[i]? = some (rb + size + countBefore m i) ∧
    (handOut rb sb m size).2[i]? = some (sb + size + countBefore m i) := by
  induction m generalizing size i with
  | nil => simp at h
  | cons x xs ih =>
    rw [sharedCount_cons] at hfit
    cases i with
    | zero => simp [handOut, countBefore_zero]
    | succ k =>
      have hk : k < xs.length := by simpa using h
      have e : (size + x.2.length) % 4294967296 = size + x.2.length :=
        Nat.mod_eq_of_lt (by omega)
      have := ih (size + x.2.length) k hk (by omega)
      simp only [handOut, List.getElem?_cons_succ, countBefore_succ_cons, e]
      constructor
      · rw [this.1]; congr 1; omega
      · rw [this.2]; congr 1; omega

theorem map_length_eq_range (m : vectorNeighbor) :
    (m.map fun nb => nb.2.length) = (List.range m.length).map (countAt m) := by
  apply List.ext_getElem?
  intro i
  by_cases h : i < m.length
  · simp [countAt, List.getElem?_range, h, List.getD_eq_getElem?_getD]
  · have h2 : m.length ≤ i := by omega
    rw [List.getElem?_eq_none (by simpa using h2), List.getElem?_eq_none (by simpa using h2)]

theorem handOut_eq_range (rb sb : Nat) (m : vectorNeighbor)
    (hfit : sharedCount m < 4294967296) :
    (handOut rb sb m 0).1 = (List.range m.length).map (fun i => rb + countBefore m i) ∧
    (handOut rb sb m 0).2 = (List.range m.length).map (fun i => sb + countBefore m i) := by
  have hl := handOut_length rb sb m 0
  have hfit0 : 0 + sharedCount m < 4294967296 := by omega
  constructor
  · apply List.ext_getElem?
    intro i
    by_cases h : i < m.length
    · rw [(handOut_get rb sb m 0 i h hfit0).1]; simp [List.getElem?_range, h]
    · have h2 : m.length ≤ i := by omega
      rw [List.getElem?_eq_none (by omega), List.getElem?_eq_none (by simpa using h2)]
  · apply List.ext_getElem?
    intro i
    by_cases h : i < m.length
    · rw [(handOut_get rb sb m 0 i h hfit0).2]; simp [List.getElem?_range, h]
    · have h2 : m.length ≤ i := by omega
      rw [List.getElem?_eq_none (by omega), List.getElem?_eq_none (by simpa using h2)]

theorem initialise_eq {K : Type} (a : MatrixCSR K) (m : vectorNeighbor)
    (hS : 0 < sharedCount m) (hfit : 2 * sharedCount m < 4294967296) :
    initialise a (m.map Prod.fst) (m.map Prod.snd) =
      some { _rbuff := (List.range m.length).map (fun i => 0 + countBefore m i),
             _sbuff := (List.range m.length).map (fun i => 0 + sharedCount m + countBefore m i),
             _dof := a._n, _map := m, _a := a, arena := 2 * sharedCount m } := by
  have h := handOut_eq_range 0 (0 + sharedCount m) m (by omega)
  have hne : sharedCount m ≠ 0 := by omega
  have e1 : sharedCount m % 4294967296 = sharedCount m := Nat.mod_eq_of_lt (by omega)
  have e2 : 2 * sharedCount m % 4294967296 = 2 * sharedCount m := Nat.mod_eq_of_lt hfit
  simp only [initialise, buildMap_unzip, e1, e2, hne, ne_eq, not_false_eq_true, if_true]
  rw [h.1, h.2]

/-- What `initialize` leaves when the total count `S` is positive and `2 * S` fits an
`unsigned int`: the map is the zip of its arguments and the slices are those of `Arranged`. -/
theorem initialise_shape {K : Type} (a : MatrixCSR K) (o : List Nat) (r : List (List Nat))
    (s : Subdomain K) (h : initialise a o r = some s) (hS : 0 < sharedCount s._map)
    (hfit : 2 * sharedCount s._map < 4294967296) :
    s._rbuff = (List.range s._map.length).map (fun i => countBefore s._map i) ∧
    s._sbuff =
      (List.range s._map.length).map (fun i => sharedCount s._map + countBefore s._map i) ∧
    s.arena = 2 * sharedCount s._map := by
  unfold initialise at h
  cases hb : buildMap o r with
  | none => rw [hb] at h; exact Option.noConfusion h
  | some m =>
    rw [hb] at h
    simp only at h
    by_cases h0 : sharedCount m % 4294967296 = 0
    · simp only [h0, ne_eq, not_true_eq_false, if_false, Option.some.injEq] at h
      subst h
      simp only at hS hfit
      omega
    · simp only [h0, ne_eq, not_false_eq_true, if_true, Option.some.injEq] at h
      subst h
      simp only at hS hfit ⊢
      have e1 : sharedCount m % 4294967296 = sharedCount m := Nat.mod_eq_of_lt (by omega)
      have e2 : 2 * sharedCount m % 4294967296 = 2 * sharedCount m := Nat.mod_eq_of_lt hfit
      have hr := handOut_eq_range 0 (0 + sharedCount m) m (by omega)
      rw [e1, hr.1, hr.2, e2]
      simp only [Nat.zero_add, and_self]

theorem initialise_arranged {K : Type} (a : MatrixCSR K) (o : List Nat) (r : List (List Nat))
    (s : Subdomain K) (h : initialise a o r = some s) (hn : s._map.length < 65536)
    (hS : 0 < sharedCount s._map) (hfit : 2 * sharedCount s._map < 4294967296) :
    Arranged s := by
  obtain ⟨h1, h2, h3⟩ := initialise_shape a o r s h hS hfit
  exact ⟨hn, h1, h2, h3, fun _ => hS⟩

theorem arranged_get {K : Type} (s : Subdomain K) (h : Arranged s) (i : Nat)
    (hi : i < s._map.length) :
    s._rbuff[i]? = some (countBefore s._map i) ∧
    s._sbuff[i]? = some (sharedCount s._map + countBefore s._map i) := by
  obtain ⟨_, h1, h2, _⟩ := h
  constructor
  · rw [h1]
    simp [List.getElem?_range, hi]
  · rw [h2]
    simp [List.getElem?_range, hi]

theorem arranged_laid {K : Type} (s : Subdomain K) (h : Arranged s) : Laid s := by
  intro i nb hnb _
  have hi : i < s._map.length := by
    by_contra hc
    rw [List.getElem?_eq_none (by omega)] at hnb
    exact Option.noConfusion hnb
  exact arranged_get s h i hi

theorem arranged_buffered {K : Type} (s : Subdomain K) (h : Arranged s) : Buffered s := by
  intro i nb hnb hne
  have := arranged_laid s h i nb hnb hne
  exact ⟨⟨_, this.1⟩, ⟨_, this.2⟩⟩

theorem slices_layout {K : Type} (a : MatrixCSR K) (m : vectorNeighbor) :
    slices ({ _rbuff := (List.range m.length).map (fun i => 0 + countBefore m i),
              _sbuff := (List.range m.length).map (fun i => 0 + sharedCount m + countBefore m i),
              _dof := a._n, _map := m, _a := a, arena := 2 * sharedCount m } : Subdomain K) =
      (List.range m.length).map (fun i => (countBefore m i, countAt m i)) ++
        (List.range m.length).map (fun i => (sharedCount m + countBefore m i, countAt m i)) := by
  simp only [slices, map_length_eq_range, List.zip_map', Nat.zero_add]

/-- C10, amended (buffer pool layout): for a list of fewer than 65536 neighbours with positive
total count `S` and `2 * S` below 2^32, `initialize` succeeds, allocates `2 * S` scalars,
gives neighbour `i` the receive slice starting at `c_0 + ... + c_(i-1)` and the send slice
starting `S` further, both of length `c_i`; the `2n` slices, listed in neighbour order, are
pairwise non-overlapping and end inside the block. -/
theorem initialise_layout {K : Type} (a : MatrixCSR K) (m : vectorNeighbor)
    (hS : 0 < sharedCount m) (hfit : 2 * sharedCount m < 4294967296)
    (_hnb : m.length < 65536) :
    ∃ s, initialise a (m.map Prod.fst) (m.map Prod.snd) = some s ∧ s._map = m ∧
      s.arena = 2 * sharedCount m ∧
      s._rbuff = (List.range m.length).map (fun i => countBefore m i) ∧
      s._sbuff = (List.range m.length).map (fun i => sharedCount m + countBefore m i) ∧
      slices s = (List.range m.length).map (fun i => (countBefore m i, countAt m i)) ++
        (List.range m.length).map (fun i => (sharedCount m + countBefore m i, countAt m i)) ∧
      (∀ i, i < m.length → countBefore m (i + 1) = countBefore m i + countAt m i) ∧
      (slices s).Pairwise (fun x y => ¬ Overlap x y) ∧
      ∀ x ∈ slices s, x.1 + x.2 ≤ s.arena := by
  refine ⟨_, initialise_eq a m hS hfit, rfl, rfl, by simp, by simp, ?_⟩
  have hsl := slices_layout a m
  refine ⟨hsl, ?_, ?_, ?_⟩
  · intro i hi
    have h1 : countBefore m (i + 1) ≤ countBefore m i + countAt m i := by
      clear hsl hS hfit _hnb
      induction m generalizing i with
      | nil => simp at hi
      | cons x xs ih =>
        cases i with
        | zero => simp [countBefore, sharedCount, countAt]
        | succ k =>
          have := ih k (by simpa using hi)
          rw [countBefore_succ_cons, countBefore_succ_cons, countAt_cons_succ]
          omega
    have h2 := countBefore_mono m i (i + 1) (by omega) (by omega)
    omega
  · rw [hsl, List.pairwise_append]
    refine ⟨?_, ?_, ?_⟩
    · rw [List.pairwise_map]
      refine List.Pairwise.imp_of_mem ?_ (List.pairwise_lt_range m.length)
      intro i j hi hj hij
      rw [List.mem_range] at hi hj
      have := countBefore_mono m i j hij (by omega)
      rintro ⟨x, ⟨h1, h2⟩, h3, h4⟩
      simp only at h1 h2 h3 h4
      omega
    · rw [List.pairwise_map]
      refine List.Pairwise.imp_of_mem ?_ (List.pairwise_lt_range m.length)
      intro i j hi hj hij
      rw [List.mem_range] at hi hj
      have := countBefore_mono m i j hij (by omega)
      rintro ⟨x, ⟨h1, h2⟩, h3, h4⟩
      simp only at h1 h2 h3 h4
      omega
    · intro x hx y hy
      rw [List.mem_map] at hx hy
      obtain ⟨i, hi, rfl⟩ := hx
      obtain ⟨j, hj, rfl⟩ := hy
      rw [List.mem_range] at hi hj
      have := countBefore_add_countAt_le m i hi
      rintro ⟨x, ⟨h1, h2⟩, h3, h4⟩
      simp only at h1 h2 h3 h4
      omega
  · intro x hx
    rw [hsl, List.mem_append, List.mem_map, List.mem_map] at hx
    rcases hx with ⟨i, hi, rfl⟩ | ⟨i, hi, rfl⟩ <;> rw [List.mem_range] at hi <;>
      have := countBefore_add_countAt_le m i hi <;> simp only <;> omega

/-- Witness for C10 as amended: two neighbours with counts 2 and 1. -/
theorem initialise_layout_witness :
    0 < sharedCount [(1, [0, 3]), (2, [5])] ∧
    2 * sharedCount [(1, [0, 3]), (2, [5])] < 4294967296 ∧
    ∃ s, initialise scenarioMatrix
        ([(1, [0, 3]), (2, [5])].map Prod.fst) ([(1, [0, 3]), (2, [5])].map Prod.snd) = some s ∧
      s._map = [(1, [0, 3]), (2, [5])] ∧
      s.arena = 2 * sharedCount [(1, [0, 3]), (2, [5])] ∧
      s._rbuff = (List.range 2).map (fun i => countBefore [(1, [0, 3]), (2, [5])] i) ∧
      s._sbuff = (List.range 2).map
        (fun i => sharedCount [(1, [0, 3]), (2, [5])] + countBefore [(1, [0, 3]), (2, [5])] i) ∧
      slices s = (List.range 2).map (fun i => (countBefore [(1, [0, 3]), (2, [5])] i,
          countAt [(1, [0, 3]), (2, [5])] i)) ++
        (List.range 2).map (fun i => (sharedCount [(1, [0, 3]), (2, [5])] +
          countBefore [(1, [0, 3]), (2, [5])] i, countAt [(1, [0, 3]), (2, [5])] i)) ∧
      (∀ i, i < 2 → countBefore [(1, [0, 3]), (2, [5])] (i + 1) =
        countBefore [(1, [0, 3]), (2, [5])] i + countAt [(1, [0, 3]), (2, [5])] i) ∧
      (slices s).Pairwise (fun x y => ¬ Overlap x y) ∧
      ∀ x ∈ slices s, x.1 + x.2 ≤ s.arena :=
  ⟨by decide, by decide, initialise_layout _ _ (by decide) (by decide) (by decide)⟩

theorem initialise_wide {K : Type} (a : MatrixCSR K) (q : Nat) (l : List Nat)
    (hl : l.length = 2147483648) :
    ∃ s, initialise a [q] [l] = some s ∧ s._map = [(q, l)] ∧
      sharedCount s._map = 2147483648 ∧ s.arena = 0 ∧
      slices s = [(0, 2147483648), (2147483648, 2147483648)] := by
  have hS : sharedCount [(q, l)] = 2147483648 := by
    simp [sharedCount, hl]
  refine ⟨{ _rbuff := [0], _sbuff := [2147483648], _dof := a._n, _map := [(q, l)], _a := a,
            arena := 0 }, ?_, rfl, hS, rfl, ?_⟩
  · simp only [initialise, buildMap, Option.map_some', hS, handOut]
    simp
  · simp [slices, hl]

/-- C10 as stated fails: one neighbour sharing the 2^31 indices `0, 1, ...` gives `S = 2^31`;
the `unsigned int` product `2 * size` is 0, so the block allocated by `new K[2 * size]` holds
no scalar, while the receive slice handed out is `[0, 2^31)` and the send slice
`[2^31, 2^32)`. -/
theorem initialise_wraps :
    ∃ s, initialise pairMatrix [1] [List.range 2147483648] = some s ∧
      s._map = [(1, List.range 2147483648)] ∧ sharedCount s._map = 2147483648 ∧
      s.arena = 0 ∧ slices s = [(0, 2147483648), (2147483648, 2147483648)] :=
  initialise_wide pairMatrix 1 (List.range 2147483648) (List.length_range 2147483648)

/-! ### Halo exchange lemmas -/

theorem load_store_self {K : Type} (mem : Nat → K) (p : Nat) (vals : List K) :
    load (store mem p vals) p vals.length = vals := by
  apply List.ext_getElem?
  intro j
  by_cases h : j < vals.length
  · simp [load, store, List.getElem?_range, h, List.getElem?_eq_getElem h]
  · have h2 : vals.length ≤ j := by omega
    rw [List.getElem?_eq_none (by simpa [load] using h2), List.getElem?_eq_none h2]

theorem storeAt_loadAt {K : Type} (mem : Nat → K) (buf : Option Nat) (vals : List K)
    (h : vals ≠ [] → ∃ q, buf = some q) :
    ∃ mem1, storeAt mem buf vals = some mem1 ∧ loadAt mem1 buf vals.length = some vals := by
  cases vals with
  | nil => exact ⟨mem, rfl, rfl⟩
  | cons v vs =>
    obtain ⟨q, rfl⟩ := h (by simp)
    refine ⟨store mem q (v :: vs), rfl, ?_⟩
    have := load_store_self mem q (v :: vs)
    simp only [List.length_cons] at this
    simp only [loadAt, List.length_cons, this]

theorem postLoop_sends {K : Type} (s : Subdomain K) (inp : Nat → K)
    (rest : List (Nat × List Nat)) (i : Nat) (mem : Nat → K)
    (h : ∀ k nb, rest[k]? = some nb → nb.2 ≠ [] → ∃ q, s._sbuff[i + k]? = some q) :
    ∃ mem1, postLoop s inp rest i mem =
      some (mem1, rest.map fun nb => (nb.1, nb.2.map inp)) := by
  induction rest generalizing i mem with
  | nil => exact ⟨mem, rfl⟩
  | cons nb rest ih =>
    have h0 : (nb.2.map inp) ≠ [] → ∃ q, s._sbuff[i]? = some q := by
      intro hne
      have := h 0 nb (by simp) (by simpa using hne)
      simpa using this
    obtain ⟨mem1, hs, hl⟩ := storeAt_loadAt mem (s._sbuff[i]?) (nb.2.map inp) h0
    have hrest : ∀ k nb2, rest[k]? = some nb2 → nb2.2 ≠ [] →
        ∃ q, s._sbuff[i + 1 + k]? = some q := by
      intro k nb2 hk hne
      have := h (k + 1) nb2 (by simpa using hk) hne
      have e : i + (k + 1) = i + 1 + k := by omega
      rwa [e] at this
    obtain ⟨mem2, h2⟩ := ih (i + 1) mem1 hrest
    refine ⟨mem2, ?_⟩
    rw [List.length_map] at hl
    simp only [postLoop, gthr, hs, hl, h2, List.map_cons]

theorem matchRecv_map {K : Type} (m : vectorNeighbor) (inp : Nat → K) (p : Nat) :
    matchRecv (m.map fun nb => (nb.1, nb.2.map inp)) p =
      (sharedWith m p).map fun l => l.map inp := by
  induction m with
  | nil => rfl
  | cons nb rest ih =>
    simp only [matchRecv, sharedWith, List.map_cons, List.find?_cons] at ih ⊢
    by_cases hq : nb.1 = p
    · simp [hq]
    · have : (nb.1 == p) = false := by simpa using hq
      simp only [this]
      exact ih

theorem accumulate_apply {K : Type} [AddCommMonoid K] (inp : Nat → K) (l : List Nat)
    (vals : List K) (x : Nat) :
    accumulate inp l vals x =
      inp x + (((l.zip vals).filter fun pr => pr.1 = x).map fun pr => pr.2).sum := by
  induction l generalizing inp vals with
  | nil => simp [accumulate]
  | cons y ys ih =>
    cases vals with
    | nil => simp [accumulate]
    | cons v vs =>
      simp only [accumulate, List.zip_cons_cons]
      rw [ih]
      by_cases hy : y = x
      · subst hy
        simp [List.filter_cons, add_assoc]
      · have hne : x ≠ y := fun e => hy e.symm
        simp [List.filter_cons, hy, Function.update_noteq hne]

theorem complete_load {K : Type} (mem : Nat → K) (buf : Option Nat) (count : Nat)
    (msg : List K) (hlen : msg.length = count) (h : msg ≠ [] → ∃ q, buf = some q) :
    ∃ mem1, complete mem buf count msg = some mem1 ∧ loadAt mem1 buf count = some msg := by
  obtain ⟨mem1, hs, hl⟩ := storeAt_loadAt mem buf msg h
  refine ⟨mem1, ?_, ?_⟩
  · simp [complete, hlen, hs]
  · rw [← hlen]; exact hl

theorem reduceLoop_apply {K : Type} [AddCommMonoid K] (s : Subdomain K)
    (recvMsg : Nat → Option (List K)) (order : List Nat) (mem inp : Nat → K)
    (c : Nat → Nat → K)
    (h : ∀ index ∈ order, ∃ nb msg, s._map[index]? = some nb ∧ recvMsg index = some msg ∧
        msg.length = nb.2.length ∧ (nb.2 ≠ [] → ∃ q, s._rbuff[index]? = some q) ∧
        ∀ x, c index x = (((nb.2.zip msg).filter fun pr => pr.1 = x).map fun pr => pr.2).sum) :
    ∃ mem1 out, reduceLoop s recvMsg order mem inp = some (mem1, out) ∧
      ∀ x, out x = inp x + (order.map fun index => c index x).sum := by
  induction order generalizing mem inp with
  | nil => exact ⟨mem, inp, rfl, by simp⟩
  | cons index rest ih =>
    obtain ⟨nb, msg, hnb, hmsg, hlen, hbuf, hc⟩ := h index (by simp)
    have hbuf2 : msg ≠ [] → ∃ q, s._rbuff[index]? = some q := by
      intro hne
      apply hbuf
      intro e
      rw [e] at hlen
      exact hne (List.length_eq_zero.mp hlen)
    obtain ⟨mem1, h1, h2⟩ := complete_load mem (s._rbuff[index]?) nb.2.length msg hlen hbuf2
    obtain ⟨mem2, out, h3, h4⟩ := ih mem1 (accumulate inp nb.2 msg)
      (fun i hi => h i (List.mem_cons_of_mem _ hi))
    refine ⟨mem2, out, ?_, ?_⟩
    · simp only [reduceLoop, hnb, hmsg, h1, h2, h3]
    · intro x
      rw [h4 x, accumulate_apply, List.map_cons, List.sum_cons, hc x, add_assoc]

theorem length_le_sharedCount (m : vectorNeighbor) (i : Nat) (nb : Nat × List Nat)
    (h : m[i]? = some nb) : nb.2.length ≤ sharedCount m := by
  have hi : i < m.length := by
    by_contra hc
    rw [List.getElem?_eq_none (by omega)] at h
    exact Option.noConfusion h
  have h1 := countBefore_add_countAt_le m i hi
  have h2 : countAt m i = nb.2.length := by
    simp [countAt, List.getD_eq_getElem?_getD, h]
  omega

theorem zip_map_filter_sum {K : Type} [AddCommMonoid K] (a l : List Nat) (f : Nat → K)
    (x : Nat) :
    (((a.zip (l.map f)).filter fun pr => pr.1 = x).map fun pr => pr.2).sum =
      (((a.zip l).filter fun pr => pr.1 = x).map fun pr => f pr.2).sum := by
  induction a generalizing l with
  | nil => simp
  | cons y ys ih =>
    cases l with
    | nil => simp
    | cons z zs =>
      simp only [List.map_cons, List.zip_cons_cons, List.filter_cons]
      by_cases hy : y = x
      · simp [hy, ih]
      · simp [hy, ih]

theorem sum_map_eq_sum_range {K : Type} [AddCommMonoid K] (m : vectorNeighbor)
    (f : Nat × List Nat → K) :
    (m.map f).sum = ((List.range m.length).map fun i => f (m.getD i (0, []))).sum := by
  have : m = (List.range m.length).map fun i => m.getD i (0, []) := by
    apply List.ext_getElem?
    intro i
    by_cases h : i < m.length
    · simp [List.getElem?_range, h, List.getD_eq_getElem?_getD]
    · have h2 : m.length ≤ i := by omega
      rw [List.getElem?_eq_none h2, List.getElem?_eq_none (by simpa using h2)]
  conv_lhs => rw [this]
  rw [List.map_map]
  rfl

theorem postedBy_eq {K : Type} (subs : List (Subdomain K)) (mems ins : Nat → Nat → K)
    (q : Nat) (s : Subdomain K) (hq : subs[q]? = some s) (hb : Buffered s) :
    postedBy subs mems ins q = some (s._map.map fun nb => (nb.1, nb.2.map (ins q))) := by
  obtain ⟨mem1, h1⟩ := postLoop_sends s (ins q) s._map 0 (mems q)
    (fun k nb hk hne => by simpa using (hb k nb hk hne).2)
  simp [postedBy, hq, h1]

theorem incoming_eq {K : Type} (subs : List (Subdomain K)) (mems ins : Nat → Nat → K)
    (hinit : ∀ s ∈ subs, Buffered s)
    (hc : Consistent (subs.map fun s => s._map))
    (p : Nat) (s : Subdomain K) (hp : subs[p]? = some s) (index : Nat) (nb : Nat × List Nat)
    (hnb : s._map[index]? = some nb) :
    ∃ l, sharedWith ((subs.map fun s => s._map).getD nb.1 []) p = some l ∧
      l.length = nb.2.length ∧ incoming subs mems ins p index = some (l.map (ins nb.1)) := by
  have hplt : p < subs.length := by
    by_contra hcon
    rw [List.getElem?_eq_none (by omega)] at hp
    exact Option.noConfusion hp
  have hmp : (subs.map fun s => s._map).getD p [] = s._map := by
    simp [List.getD_eq_getElem?_getD, hp]
  have hmem : nb ∈ (subs.map fun s => s._map).getD p [] := by
    rw [hmp]; exact List.getElem?_mem hnb
  obtain ⟨_, hall⟩ := hc p (by simpa using hplt)
  obtain ⟨hlt, _, l, hl, hlen⟩ := hall nb hmem
  rw [List.length_map] at hlt
  obtain ⟨sq, hsq⟩ : ∃ sq, subs[nb.1]? = some sq := ⟨subs[nb.1], List.getElem?_eq_getElem hlt⟩
  have hmq : (subs.map fun s => s._map).getD nb.1 [] = sq._map := by
    simp [List.getD_eq_getElem?_getD, hsq]
  have hbq : Buffered sq := hinit sq (List.getElem?_mem hsq)
  refine ⟨l, hl, hlen, ?_⟩
  rw [hmq] at hl
  have hl2 : sharedWith sq._map p = some l := hl
  simp only [incoming, hp, hnb, postedBy_eq subs mems ins nb.1 sq hsq hbq, matchRecv_map, hl2,
    Option.map_some']

theorem contribution_zero {K : Type} [AddCommMonoid K] (maps : List vectorNeighbor)
    (ins : Nat → Nat → K) (p : Nat) (nb : Nat × List Nat) (x : Nat) (hx : x ∉ nb.2) :
    contribution maps ins p nb x = 0 := by
  unfold contribution
  have : ((nb.2.zip ((sharedWith (maps.getD nb.1 []) p).getD [])).filter fun pr => pr.1 = x)
      = [] := by
    rw [List.filter_eq_nil_iff]
    intro pr hpr
    have := (List.of_mem_zip hpr).1
    simp only [decide_eq_true_eq]
    intro e
    exact hx (e ▸ this)
  rw [this]
  simp

/-- Halo exchange when the addition of `K` is associative and commutative: when the buffers of
every rank are arranged as `initialize` leaves them and the neighbour maps are
mutually consistent, then on every rank `p`, for every completion order of its receives,
`exchange` returns and leaves at every index `x` the pre-call value plus the sum, over the
neighbours `q` and the positions `j` with `map_p[q][j] = x`, of the pre-call value of `q` at
`map_q[p][j]`; an index that no neighbour shares keeps its value. -/
theorem exchange_sum {K : Type} [AddCommMonoid K] (subs : List (Subdomain K))
    (harr : ∀ s ∈ subs, Arranged s)
    (hc : Consistent (subs.map fun s => s._map))
    (mems ins : Nat → Nat → K) (p : Nat) (hp : p < subs.length) (order : List Nat)
    (ho : order.Perm (List.range ((subs.map fun s => s._map).getD p []).length)) :
    ∃ mem out, exchangeAt subs mems ins order p = some (mem, out) ∧
      (∀ x, out x = ins p x + haloSum (subs.map fun s => s._map) ins p x) ∧
      (∀ x, (∀ nb ∈ (subs.map fun s => s._map).getD p [], x ∉ nb.2) → out x = ins p x) := by
  have hbuf : ∀ s ∈ subs, Buffered s := fun s hs => arranged_buffered s (harr s hs)
  obtain ⟨s, hs⟩ : ∃ s, subs[p]? = some s := ⟨subs[p], List.getElem?_eq_getElem hp⟩
  have hmp : (subs.map fun s => s._map).getD p [] = s._map := by
    simp [List.getD_eq_getElem?_getD, hs]
  rw [hmp] at ho
  have hb : Buffered s := hbuf s (List.getElem?_mem hs)
  obtain ⟨mem1, h1⟩ := postLoop_sends s (ins p) s._map 0 (mems p)
    (fun k nb hk hne => by simpa using (hb k nb hk hne).2)
  have hall : ∀ index ∈ order, ∃ nb msg, s._map[index]? = some nb ∧
      incoming subs mems ins p index = some msg ∧
      msg.length = nb.2.length ∧ (nb.2 ≠ [] → ∃ q, s._rbuff[index]? = some q) ∧
      ∀ x, contribution (subs.map fun s => s._map) ins p (s._map.getD index (0, [])) x =
        (((nb.2.zip msg).filter fun pr => pr.1 = x).map fun pr => pr.2).sum := by
    intro index hindex
    have hlt : index < s._map.length := List.mem_range.mp (ho.subset hindex)
    have hnb : s._map[index]? = some s._map[index] := List.getElem?_eq_getElem hlt
    obtain ⟨l, hl, hlen, hin⟩ := incoming_eq subs mems ins hbuf hc p s hs index _ hnb
    refine ⟨s._map[index], l.map (ins s._map[index].1), hnb, hin, by simpa using hlen,
      fun hne => (hb index _ hnb hne).1, ?_⟩
    intro x
    have hgd : s._map.getD index (0, []) = s._map[index] := by
      simp [List.getD_eq_getElem?_getD, hnb]
    rw [hgd, zip_map_filter_sum]
    simp only [contribution, hl, Option.getD_some]
  obtain ⟨mem2, out, h2, h3⟩ := reduceLoop_apply s (incoming subs mems ins p) order mem1 (ins p)
    (fun index x => contribution (subs.map fun s => s._map) ins p (s._map.getD index (0, [])) x)
    hall
  have hsum : ∀ x, out x = ins p x + haloSum (subs.map fun s => s._map) ins p x := by
    intro x
    rw [h3 x, haloSum, hmp, sum_map_eq_sum_range]
    congr 1
    exact (ho.map _).sum_eq
  refine ⟨mem2, out, ?_, hsum, ?_⟩
  · simp only [exchangeAt, hs, exchange, h1, h2]
  · intro x hx
    rw [hsum x, haloSum]
    have : ((subs.map fun s => s._map).getD p []).map
        (fun nb => contribution (subs.map fun s => s._map) ins p nb x) =
        ((subs.map fun s => s._map).getD p []).map (fun _ => (0 : K)) := by
      apply List.map_congr_left
      intro nb hnb
      exact contribution_zero _ ins p nb x (hx nb hnb)
    rw [this]
    simp

theorem scenario_arranged : ∀ s ∈ [scenarioA, scenarioB], Arranged s := by
  intro s hs
  simp only [List.mem_cons, List.mem_singleton, List.not_mem_nil, or_false] at hs
  rcases hs with rfl | rfl
  · exact initialise_arranged scenarioMatrix [1] [[3]] scenarioA rfl (by decide) (by decide)
      (by decide)
  · exact initialise_arranged scenarioMatrix [0] [[0]] scenarioB rfl (by decide) (by decide)
      (by decide)

theorem scenario_consistent :
    Consistent ([scenarioA, scenarioB].map fun s => s._map) := by
  intro p hp
  have hp2 : p < 2 := by simpa using hp
  interval_cases p
  · refine ⟨by decide, ?_⟩
    intro nb hnb
    have : nb = (1, [3]) := by simpa [scenarioA] using hnb
    subst this
    exact ⟨by decide, by decide, [0], rfl, rfl⟩
  · refine ⟨by decide, ?_⟩
    intro nb hnb
    have : nb = (0, [0]) := by simpa [scenarioB] using hnb
    subst this
    exact ⟨by decide, by decide, [3], rfl, rfl⟩

/-- The two-process scenario: rank 0 ends with 1 + 2 at its shared index. -/
theorem exchange_sum_scenario :
    ∃ mem out, exchangeAt [scenarioA, scenarioB] (fun _ _ => 0) scenarioIn [0] 0 =
        some (mem, out) ∧
      (∀ x, out x = scenarioIn 0 x +
        haloSum ([scenarioA, scenarioB].map fun s => s._map) scenarioIn 0 x) ∧
      (∀ x, (∀ nb ∈ ([scenarioA, scenarioB].map fun s => s._map).getD 0 [], x ∉ nb.2) →
        out x = scenarioIn 0 x) :=
  exchange_sum [scenarioA, scenarioB] scenario_arranged scenario_consistent
    (fun _ _ => 0) scenarioIn 0 (by decide) [0] (List.Perm.refl _)

theorem scenario_value :
    (exchangeAt [scenarioA, scenarioB] (fun _ _ => 0) scenarioIn [0] 0).map
        (fun r => (List.range 4).map r.2) = some [0, 0, 0, 3] ∧
    (exchangeAt [scenarioA, scenarioB] (fun _ _ => 0) scenarioIn [0] 1).map
        (fun r => (List.range 4).map r.2) = some [3, 0, 0, 0] := by
  constructor <;> rfl

theorem accumulate_fold {K : Type} [Add K] (inp : Nat → K) (l : List Nat) (vals : List K)
    (x : Nat) :
    accumulate inp l vals x =
      (((l.zip vals).filter fun pr => pr.1 = x).map fun pr => pr.2).foldl (· + ·) (inp x) := by
  induction l generalizing inp vals with
  | nil => simp [accumulate]
  | cons y ys ih =>
    cases vals with
    | nil => simp [accumulate]
    | cons v vs =>
      simp only [accumulate, List.zip_cons_cons]
      rw [ih]
      by_cases hy : y = x
      · subst hy
        simp [List.filter_cons]
      · have hne : x ≠ y := fun e => hy e.symm
        simp [List.filter_cons, hy, Function.update_noteq hne]

theorem reduceLoop_fold {K : Type} [Add K] (s : Subdomain K)
    (recvMsg : Nat → Option (List K)) (order : List Nat) (mem inp : Nat → K)
    (c : Nat → Nat → List K)
    (h : ∀ index ∈ order, ∃ nb msg, s._map[index]? = some nb ∧ recvMsg index = some msg ∧
        msg.length = nb.2.length ∧ (nb.2 ≠ [] → ∃ q, s._rbuff[index]? = some q) ∧
        ∀ x, c index x = ((nb.2.zip msg).filter fun pr => pr.1 = x).map fun pr => pr.2) :
    ∃ mem1 out, reduceLoop s recvMsg order mem inp = some (mem1, out) ∧
      ∀ x, out x = (order.flatMap fun index => c index x).foldl (· + ·) (inp x) := by
  induction order generalizing mem inp with
  | nil => exact ⟨mem, inp, rfl, by simp⟩
  | cons index rest ih =>
    obtain ⟨nb, msg, hnb, hmsg, hlen, hbuf, hc⟩ := h index (by simp)
    have hbuf2 : msg ≠ [] → ∃ q, s._rbuff[index]? = some q := by
      intro hne
      apply hbuf
      intro e
      rw [e] at hlen
      exact hne (List.length_eq_zero.mp hlen)
    obtain ⟨mem1, h1, h2⟩ := complete_load mem (s._rbuff[index]?) nb.2.length msg hlen hbuf2
    obtain ⟨mem2, out, h3, h4⟩ := ih mem1 (accumulate inp nb.2 msg)
      (fun i hi => h i (List.mem_cons_of_mem _ hi))
    refine ⟨mem2, out, ?_, ?_⟩
    · simp only [reduceLoop, hnb, hmsg, h1, h2, h3]
    · intro x
      rw [h4 x, accumulate_fold, List.flatMap_cons, List.foldl_append, hc x]

theorem zip_map_filter {K : Type} (a l : List Nat) (f : Nat → K) (x : Nat) :
    ((a.zip (l.map f)).filter fun pr => pr.1 = x).map (fun pr => pr.2) =
      ((a.zip l).filter fun pr => pr.1 = x).map fun pr => f pr.2 := by
  induction a generalizing l with
  | nil => simp
  | cons y ys ih =>
    cases l with
    | nil => simp
    | cons z zs =>
      simp only [List.map_cons, List.zip_cons_cons, List.filter_cons]
      by_cases hy : y = x
      · simp [hy, ih]
      · simp [hy, ih]

/-- C1, amended (exchange): when the buffers of every rank are arranged as `initialize` leaves
them and the neighbour maps are mutually consistent, then on every rank `p`, for every
completion order of its receives, `exchange` returns and leaves at every index `x` the value
obtained from the pre-call value by adding, one after the other in completion order, the
pre-call values of the neighbours `q` at `map_q[p][j]` for the positions `j` with
`map_p[q][j] = x`; an index that no neighbour shares keeps its value. -/
theorem exchange_fold {K : Type} [Add K] (subs : List (Subdomain K))
    (harr : ∀ s ∈ subs, Arranged s)
    (hc : Consistent (subs.map fun s => s._map))
    (mems ins : Nat → Nat → K) (p : Nat) (hp : p < subs.length) (order : List Nat)
    (ho : order.Perm (List.range ((subs.map fun s => s._map).getD p []).length)) :
    ∃ mem out, exchangeAt subs mems ins order p = some (mem, out) ∧
      (∀ x, out x =
        (haloTerms (subs.map fun s => s._map) ins p order x).foldl (· + ·) (ins p x)) ∧
      (∀ x, (∀ nb ∈ (subs.map fun s => s._map).getD p [], x ∉ nb.2) → out x = ins p x) := by
  have hbuf : ∀ s ∈ subs, Buffered s := fun s hs => arranged_buffered s (harr s hs)
  obtain ⟨s, hs⟩ : ∃ s, subs[p]? = some s := ⟨subs[p], List.getElem?_eq_getElem hp⟩
  have hmp : (subs.map fun s => s._map).getD p [] = s._map := by
    simp [List.getD_eq_getElem?_getD, hs]
  have ho2 := ho
  rw [hmp] at ho2
  have hb : Buffered s := hbuf s (List.getElem?_mem hs)
  obtain ⟨mem1, h1⟩ := postLoop_sends s (ins p) s._map 0 (mems p)
    (fun k nb hk hne => by simpa using (hb k nb hk hne).2)
  have hall : ∀ index ∈ order, ∃ nb msg, s._map[index]? = some nb ∧
      incoming subs mems ins p index = some msg ∧
      msg.length = nb.2.length ∧ (nb.2 ≠ [] → ∃ q, s._rbuff[index]? = some q) ∧
      ∀ x, contributions (subs.map fun s => s._map) ins p (s._map.getD index (0, [])) x =
        ((nb.2.zip msg).filter fun pr => pr.1 = x).map fun pr => pr.2 := by
    intro index hindex
    have hlt : index < s._map.length := List.mem_range.mp (ho2.subset hindex)
    have hnb : s._map[index]? = some s._map[index] := List.getElem?_eq_getElem hlt
    obtain ⟨l, hl, hlen, hin⟩ := incoming_eq subs mems ins hbuf hc p s hs index _ hnb
    refine ⟨s._map[index], l.map (ins s._map[index].1), hnb, hin, by simpa using hlen,
      fun hne => (hb index _ hnb hne).1, ?_⟩
    intro x
    have hgd : s._map.getD index (0, []) = s._map[index] := by
      simp [List.getD_eq_getElem?_getD, hnb]
    rw [hgd, zip_map_filter]
    simp only [contributions, hl, Option.getD_some]
  obtain ⟨mem2, out, h2, h3⟩ := reduceLoop_fold s (incoming subs mems ins p) order mem1 (ins p)
    (fun index x => contributions (subs.map fun s => s._map) ins p (s._map.getD index (0, [])) x)
    hall
  have hfold : ∀ x, out x =
      (haloTerms (subs.map fun s => s._map) ins p order x).foldl (· + ·) (ins p x) := by
    intro x
    rw [h3 x, haloTerms, hmp]
  refine ⟨mem2, out, ?_, hfold, ?_⟩
  · simp only [exchangeAt, hs, exchange, h1, h2]
  · intro x hx
    rw [hfold x]
    have hnil : haloTerms (subs.map fun s => s._map) ins p order x = [] := by
      unfold haloTerms
      rw [List.flatMap_eq_nil_iff]
      intro index hindex
      have hlt : index < s._map.length := List.mem_range.mp (ho2.subset hindex)
      have hmem : ((subs.map fun s => s._map).getD p []).getD index (0, []) ∈
          (subs.map fun s => s._map).getD p [] := by
        rw [hmp, List.getD_eq_getElem?_getD, List.getElem?_eq_getElem hlt]
        exact List.getElem_mem hlt
      have hxn := hx _ hmem
      unfold contributions
      rw [List.map_eq_nil_iff, List.filter_eq_nil_iff]
      intro pr hpr
      have := (List.of_mem_zip hpr).1
      simp only [decide_eq_true_eq]
      intro e
      exact hxn (e ▸ this)
    rw [hnil]
    rfl

theorem starSubs_arranged : ∀ s ∈ starSubs, Arranged s := by
  intro s hs
  simp only [starSubs, List.mem_cons, List.mem_singleton, List.not_mem_nil, or_false] at hs
  rcases hs with rfl | rfl | rfl
  · exact initialise_arranged blankMatrix [1, 2] [[0], [0]] _ rfl (by decide) (by decide)
      (by decide)
  · exact initialise_arranged blankMatrix [0] [[0]] _ rfl (by decide) (by decide) (by decide)
  · exact initialise_arranged blankMatrix [0] [[0]] _ rfl (by decide) (by decide) (by decide)

theorem starSubs_consistent : Consistent (starSubs.map fun s => s._map) := by
  intro p hp
  have hp2 : p < 3 := by simpa [starSubs] using hp
  interval_cases p
  · refine ⟨by decide, ?_⟩
    intro nb hnb
    have : nb = (1, [0]) ∨ nb = (2, [0]) := by simpa [starSubs] using hnb
    rcases this with rfl | rfl
    · exact ⟨by decide, by decide, [0], rfl, rfl⟩
    · exact ⟨by decide, by decide, [0], rfl, rfl⟩
  · refine ⟨by decide, ?_⟩
    intro nb hnb
    have : nb = (0, [0]) := by simpa [starSubs] using hnb
    subst this
    exact ⟨by decide, by decide, [0], rfl, rfl⟩
  · refine ⟨by decide, ?_⟩
    intro nb hnb
    have : nb = (0, [0]) := by simpa [starSubs] using hnb
    subst this
    exact ⟨by decide, by decide, [0], rfl, rfl⟩

/-- Witness for C1 as amended: rank 0 of `starSubs`, whose receives complete in the order
neighbour 0, neighbour 1. -/
theorem exchange_fold_witness :
    ∃ mem out, exchangeAt starSubs (fun _ _ => ⟨0⟩) starIn [0, 1] 0 = some (mem, out) ∧
      (∀ x, out x =
        (haloTerms (starSubs.map fun s => s._map) starIn 0 [0, 1] x).foldl (· + ·)
          (starIn 0 x)) ∧
      (∀ x, (∀ nb ∈ (starSubs.map fun s => s._map).getD 0 [], x ∉ nb.2) →
        out x = starIn 0 x) :=
  exchange_fold starSubs starSubs_arranged starSubs_consistent (fun _ _ => ⟨0⟩) starIn 0
    (by decide) [0, 1] (List.Perm.refl _)

/-- C1 as stated fails for `K = float`: rank 0 holds 2^24 at its unknown, which rank 1 shares
with the value 1 and rank 2 with the value -2^24, all three being `float` values.  When the
receive from rank 1 completes first the result is 0 (2^24 + 1 rounds to 2^24), when the
receive from rank 2 completes first it is 1: the value left by `exchange` depends on the
completion order, so it is not one sum of the pre-call contributions. -/
theorem exchange_order_matters :
    (∀ s ∈ starSubs, Arranged s) ∧ Consistent (starSubs.map fun s => s._map) ∧
    (starIn 0 0).val + (starIn 1 0).val + (starIn 2 0).val = 1 ∧
    (exchangeAt starSubs (fun _ _ => ⟨0⟩) starIn [0, 1] 0).map (fun r => (r.2 0).val) =
      some 0 ∧
    (exchangeAt starSubs (fun _ _ => ⟨0⟩) starIn [1, 0] 0).map (fun r => (r.2 0).val) =
      some 1 := by
  refine ⟨starSubs_arranged, starSubs_consistent, by decide, ?_, ?_⟩
  · rfl
  · rfl

/-! ### `recvBuffer` lemmas -/

theorem getElem?_some_lt {α : Type} (l : List α) (i : Nat) (a : α) (h : l[i]? = some a) :
    i < l.length := by
  by_contra hc
  rw [List.getElem?_eq_none (by omega)] at h
  exact Option.noConfusion h

theorem store_inside {K : Type} (mem : Nat → K) (p : Nat) (vals : List K) (j : Nat)
    (hj : j < vals.length) : store mem p vals (p + j) = vals[j] := by
  unfold store
  simp [List.getElem?_eq_getElem hj]

theorem inRange_iff (v first last : Nat) :
    inRange v first last = true ↔ first ≤ v ∧ v < last := by
  simp [inRange]

theorem reserveLoop_ok (num : Nat → Nat) (first last dof : Nat) (rows : List Nat)
    (hidx : ∀ i ∈ rows, inRange (num i) first last = true → num i - first < dof) :
    reserveLoop num first last dof rows = some () := by
  induction rows with
  | nil => rfl
  | cons i rest ih =>
    have ih2 := ih (fun j hj => hidx j (List.mem_cons_of_mem _ hj))
    by_cases hr : inRange (num i) first last = true
    · have := hidx i (by simp) hr
      simp [reserveLoop, hr, this, ih2]
    · simp [reserveLoop, hr, ih2]

theorem fillLoop_spec {K : Type} (num : Nat → Nat) (first last : Nat) (A : MatrixCSR K)
    (rows : List Nat) (tmp : List (List (Nat × K))) (hnd : rows.Nodup)
    (hinj : ∀ i ∈ rows, ∀ j ∈ rows, inRange (num i) first last = true →
      inRange (num j) first last = true → num i = num j → i = j)
    (hidx : ∀ i ∈ rows, inRange (num i) first last = true → num i - first < tmp.length) :
    ∃ tmp1, fillLoop num first last A rows tmp = some tmp1 ∧ tmp1.length = tmp.length ∧
      (∀ i ∈ rows, inRange (num i) first last = true → ∀ row, tmp[num i - first]? = some row →
        tmp1[num i - first]? = some (row ++ rowPairs num A i)) ∧
      (∀ k, (∀ i ∈ rows, inRange (num i) first last = true → num i - first ≠ k) →
        tmp1[k]? = tmp[k]?) := by
  induction rows generalizing tmp with
  | nil => exact ⟨tmp, rfl, rfl, fun i hi => by simp at hi, fun _ _ => rfl⟩
  | cons i rest ih =>
    have hnd2 : rest.Nodup := (List.nodup_cons.mp hnd).2
    have hnotin : i ∉ rest := (List.nodup_cons.mp hnd).1
    have hinj2 : ∀ a ∈ rest, ∀ b ∈ rest, inRange (num a) first last = true →
        inRange (num b) first last = true → num a = num b → a = b :=
      fun a ha b hb => hinj a (List.mem_cons_of_mem _ ha) b (List.mem_cons_of_mem _ hb)
    by_cases hr : inRange (num i) first last = true
    · have hk : num i - first < tmp.length := hidx i (by simp) hr
      have hrow0 : tmp[num i - first]? = some tmp[num i - first] := List.getElem?_eq_getElem hk
      obtain ⟨tmp1, h1, hlen, hb1, hb2⟩ := ih
        (tmp.set (num i - first) (tmp[num i - first] ++ rowPairs num A i)) hnd2 hinj2
        (fun j hj hjr => by
          rw [List.length_set]; exact hidx j (List.mem_cons_of_mem _ hj) hjr)
      have hapart : ∀ j ∈ rest, inRange (num j) first last = true →
          num j - first ≠ num i - first := by
        intro j hj hjr e
        have h1 := (inRange_iff _ _ _).mp hr
        have h2 := (inRange_iff _ _ _).mp hjr
        have : num j = num i := by omega
        have := hinj j (List.mem_cons_of_mem _ hj) i (by simp) hjr hr this
        exact hnotin (this ▸ hj)
      refine ⟨tmp1, ?_, ?_, ?_, ?_⟩
      · simp only [fillLoop, hr, if_true, hrow0, h1]
      · rw [hlen, List.length_set]
      · intro j hj hjr row hrow
        rcases List.mem_cons.mp hj with rfl | hjrest
        · rw [hb2 _ hapart, List.getElem?_set_self hk]
          rw [hrow0] at hrow
          rw [Option.some.inj hrow]
        · apply hb1 j hjrest hjr
          rw [List.getElem?_set_ne (fun e => hapart j hjrest hjr e.symm)]
          exact hrow
      · intro k hk2
        rw [hb2 k (fun j hj hjr => hk2 j (List.mem_cons_of_mem _ hj) hjr)]
        exact List.getElem?_set_ne (hk2 i (by simp) hr)
    · obtain ⟨tmp1, h1, hlen, hb1, hb2⟩ := ih tmp hnd2 hinj2
        (fun j hj hjr => hidx j (List.mem_cons_of_mem _ hj) hjr)
      refine ⟨tmp1, ?_, hlen, ?_, ?_⟩
      · simp only [fillLoop, hr, h1]
        rfl
      · intro j hj hjr row hrow
        rcases List.mem_cons.mp hj with rfl | hjrest
        · exact absurd hjr hr
        · exact hb1 j hjrest hjr row hrow
      · intro k hk2
        exact hb2 k (fun j hj hjr => hk2 j (List.mem_cons_of_mem _ hj) hjr)

theorem toInt_small (v : Nat) (h : v < 2147483648) : toInt v = (v : Int) := by
  unfold toInt
  have hm : v % 4294967296 = v := Nat.mod_eq_of_lt (by omega)
  rw [hm, if_pos h]

theorem view_write {α : Type} (s : Slot α) (mat : Nat → α) (vals : List α) :
    (s.write mat vals).1.view (s.write mat vals).2 = store (s.view mat) 0 vals := by
  cases s <;> rfl

theorem write_block {α : Type} (b mat : Nat → α) (vals : List α) :
    ((Slot.block b).write mat vals).2 = mat := rfl

theorem write_matrix {α : Type} (mat : Nat → α) (vals : List α) :
    ((Slot.matrix : Slot α).write mat vals).2 = store mat 0 vals := rfl

theorem emitLoop_pairs {K : Type} [LinearOrder K] (tmp : List (List (Nat × K))) (nnz : Nat) :
    (emitLoop tmp nnz).2.1 = (emitted tmp).map (fun p => toInt p.1) ∧
    (emitLoop tmp nnz).2.2 = (emitted tmp).map Prod.snd := by
  induction tmp generalizing nnz with
  | nil => simp [emitLoop, emitted]
  | cons row rest ih =>
    simp only [emitLoop, emitted, List.map_append, (ih _).1, (ih _).2, and_self]

theorem emitLoop_length {K : Type} [LinearOrder K] (tmp : List (List (Nat × K))) (nnz : Nat) :
    (emitLoop tmp nnz).1.length = tmp.length := by
  induction tmp generalizing nnz with
  | nil => simp [emitLoop]
  | cons row0 rest ih => simp [emitLoop, ih]

theorem entriesBefore_succ {K : Type} (tmp : List (List (Nat × K))) (r : Nat)
    (row : List (Nat × K)) (h : tmp[r]? = some row) :
    entriesBefore tmp (r + 1) = entriesBefore tmp r + row.length := by
  unfold entriesBefore
  rw [List.take_succ, h]
  simp

theorem emitLoop_ia {K : Type} [LinearOrder K] (tmp : List (List (Nat × K))) (nnz r : Nat)
    (hr : r < tmp.length) (hfit : nnz + (tmp.map List.length).sum < 2147483648) :
    (emitLoop tmp nnz).1[r]? = some ((nnz + entriesBefore tmp (r + 1) : Nat) : Int) := by
  induction tmp generalizing nnz r with
  | nil => simp at hr
  | cons row rest ih =>
    have hsum : ((row :: rest).map List.length).sum =
        row.length + (rest.map List.length).sum := by simp
    rw [hsum] at hfit
    have hnext : (nnz + (row.insertionSort pairLe).length) % 4294967296 =
        nnz + row.length := by
      rw [List.length_insertionSort]
      exact Nat.mod_eq_of_lt (by omega)
    cases r with
    | zero =>
      simp only [emitLoop, List.getElem?_cons_zero, hnext]
      rw [toInt_small _ (by omega)]
      simp [entriesBefore]
    | succ k =>
      have := ih (nnz + row.length) k (by simpa using hr) (by omega)
      simp only [emitLoop, List.getElem?_cons_succ, hnext, this]
      have e : entriesBefore (row :: rest) (k + 1 + 1) =
          row.length + entriesBefore rest (k + 1) := by
        simp [entriesBefore]
      rw [e, Nat.add_assoc]

theorem emitted_row {K : Type} [LinearOrder K] (tmp : List (List (Nat × K))) (r : Nat)
    (row : List (Nat × K)) (h : tmp[r]? = some row) :
    ((emitted tmp).drop (entriesBefore tmp r)).take row.length = row.insertionSort pairLe := by
  induction tmp generalizing r with
  | nil => simp at h
  | cons row0 rest ih =>
    cases r with
    | zero =>
      have : row0 = row := by simpa using h
      subst this
      simp only [entriesBefore, List.take_zero, List.map_nil, List.sum_nil, List.drop_zero,
        emitted]
      exact List.take_left' (List.length_insertionSort _ _)
    | succ k =>
      have hk : rest[k]? = some row := by simpa using h
      have e : entriesBefore (row0 :: rest) (k + 1) =
          (row0.insertionSort pairLe).length + entriesBefore rest k := by
        simp [entriesBefore, List.length_insertionSort]
      rw [e, emitted, List.drop_append]
      exact ih k hk

theorem entriesBefore_le {K : Type} [LinearOrder K] (tmp : List (List (Nat × K))) (r : Nat)
    (row : List (Nat × K)) (h : tmp[r]? = some row) :
    entriesBefore tmp r + row.length ≤ (emitted tmp).length := by
  induction tmp generalizing r with
  | nil => simp at h
  | cons row0 rest ih =>
    cases r with
    | zero =>
      have : row0 = row := by simpa using h
      subst this
      simp [entriesBefore, emitted, List.length_insertionSort]
    | succ k =>
      have hk : rest[k]? = some row := by simpa using h
      have := ih k hk
      simp only [entriesBefore, List.take_succ_cons, List.map_cons, List.sum_cons, emitted,
        List.length_append, List.length_insertionSort] at this ⊢
      omega

theorem store_zero_get {α : Type} (mem : Nat → α) (vals : List α) (j : Nat)
    (hj : j < vals.length) : store mem 0 vals j = vals[j] := by
  have := store_inside mem 0 vals j hj
  rwa [Nat.zero_add] at this

theorem emit_rows {K : Type} [LinearOrder K] (tmp : List (List (Nat × K)))
    (ia0 ja0 : Nat → Int) (c0 : Nat → K) (r : Nat) (row : List (Nat × K))
    (h : tmp[r]? = some row) (hfit : (tmp.map List.length).sum < 2147483648) :
    store ia0 0 (0 :: (emitLoop tmp 0).1) r = ((entriesBefore tmp r : Nat) : Int) ∧
    store ia0 0 (0 :: (emitLoop tmp 0).1) (r + 1) =
      ((entriesBefore tmp r + row.length : Nat) : Int) ∧
    csrRow (store ia0 0 (0 :: (emitLoop tmp 0).1)) (store ja0 0 (emitLoop tmp 0).2.1)
      (store c0 0 (emitLoop tmp 0).2.2) r =
        (row.insertionSort pairLe).map (fun p => (toInt p.1, p.2)) := by
  have hr : r < tmp.length := getElem?_some_lt _ _ _ h
  have hlen : (emitLoop tmp 0).1.length = tmp.length := emitLoop_length tmp 0
  have hia1 : store ia0 0 (0 :: (emitLoop tmp 0).1) (r + 1) =
      ((entriesBefore tmp r + row.length : Nat) : Int) := by
    have hlt : r + 1 < (0 :: (emitLoop tmp 0).1).length := by simp [hlen, hr]
    rw [store_zero_get _ _ _ hlt]
    have := emitLoop_ia tmp 0 r hr (by omega)
    rw [List.getElem_cons_succ]
    have hr3 : r < (emitLoop tmp 0).1.length := by omega
    have h2 : (emitLoop tmp 0).1[r]? = some (emitLoop tmp 0).1[r] :=
      List.getElem?_eq_getElem hr3
    rw [h2] at this
    rw [Option.some.inj this, entriesBefore_succ tmp r row h, Nat.zero_add]
  have hia0 : store ia0 0 (0 :: (emitLoop tmp 0).1) r = ((entriesBefore tmp r : Nat) : Int) := by
    have hlt : r < (0 :: (emitLoop tmp 0).1).length := by simp [hlen]; omega
    rw [store_zero_get _ _ _ hlt]
    cases r with
    | zero => simp [entriesBefore]
    | succ k =>
      have := emitLoop_ia tmp 0 k (by omega) (by omega)
      rw [List.getElem_cons_succ]
      have hk3 : k < (emitLoop tmp 0).1.length := by omega
      have h2 : (emitLoop tmp 0).1[k]? = some (emitLoop tmp 0).1[k] :=
        List.getElem?_eq_getElem hk3
      rw [h2] at this
      rw [Option.some.inj this, Nat.zero_add]
  refine ⟨hia0, hia1, ?_⟩
  have hrow := emitted_row tmp r row h
  have hEl : entriesBefore tmp r + row.length ≤ (emitted tmp).length :=
    entriesBefore_le tmp r row h
  unfold csrRow
  rw [hia1, hia0, (emitLoop_pairs tmp 0).1, (emitLoop_pairs tmp 0).2, ← hrow,
    Int.toNat_ofNat, Int.toNat_ofNat]
  apply List.ext_getElem?
  intro t
  have e : entriesBefore tmp r + row.length - entriesBefore tmp r = row.length := by omega
  rw [e]
  by_cases ht : t < row.length
  · have ht2 : entriesBefore tmp r + t < (emitted tmp).length := by omega
    rw [List.getElem?_map, List.getElem?_map, List.getElem?_take, if_pos ht,
      List.getElem?_drop, List.getElem?_eq_getElem ht2,
      List.getElem?_eq_getElem (by simpa using ht)]
    simp only [List.getElem_range', Option.map_some', Option.some.injEq, Nat.one_mul]
    rw [store_zero_get _ _ _ (by simpa using ht2), store_zero_get _ _ _ (by simpa using ht2)]
    simp
  · rw [List.getElem?_map, List.getElem?_map, List.getElem?_take, if_neg ht,
      List.getElem?_eq_none (by simp; omega)]
    rfl

theorem sum_length_set {α : Type} (tmp : List (List α)) (k : Nat) (row x : List α)
    (h : tmp[k]? = some row) :
    ((tmp.set k (row ++ x)).map List.length).sum = (tmp.map List.length).sum + x.length := by
  induction tmp generalizing k with
  | nil => simp at h
  | cons r0 rest ih =>
    cases k with
    | zero =>
      have : r0 = row := by simpa using h
      subst this
      simp only [List.set_cons_zero, List.map_cons, List.sum_cons, List.length_append]
      omega
    | succ j =>
      have hj : rest[j]? = some row := by simpa using h
      simp only [List.set_cons_succ, List.map_cons, List.sum_cons, ih j hj]
      omega

theorem fillLoop_total {K : Type} (num : Nat → Nat) (first last : Nat) (A : MatrixCSR K)
    (rows : List Nat) (tmp tmp1 : List (List (Nat × K)))
    (h : fillLoop num first last A rows tmp = some tmp1) :
    (tmp1.map List.length).sum = (tmp.map List.length).sum +
      ((rows.filter fun i => inRange (num i) first last).map
        fun i => A._ia (i + 1) - A._ia i).sum := by
  induction rows generalizing tmp with
  | nil =>
    simp only [fillLoop, Option.some.injEq] at h
    subst h
    simp
  | cons i rest ih =>
    by_cases hr : inRange (num i) first last = true
    · simp only [fillLoop, hr, if_true] at h
      cases hrow : tmp[num i - first]? with
      | none => rw [hrow] at h; exact Option.noConfusion h
      | some row =>
        rw [hrow] at h
        simp only at h
        have hf : (i :: rest).filter (fun i => inRange (num i) first last) =
            i :: rest.filter (fun i => inRange (num i) first last) := by
          simp [List.filter_cons, hr]
        rw [ih _ h, sum_length_set tmp _ row _ hrow, hf, List.map_cons, List.sum_cons]
        simp only [rowPairs, List.length_map, List.length_range']
        omega
    · have hr2 : inRange (num i) first last = false := by simpa using hr
      simp only [fillLoop, hr2] at h
      have hf : (i :: rest).filter (fun i => inRange (num i) first last) =
          rest.filter (fun i => inRange (num i) first last) := by
        simp [List.filter_cons, hr2]
      rw [hf]
      exact ih _ h

theorem rowPairs_length {K : Type} (num : Nat → Nat) (A : MatrixCSR K) (i : Nat) :
    (rowPairs num A i).length = A._ia (i + 1) - A._ia i := by
  simp [rowPairs]

theorem sorted_by_column {K : Type} [LinearOrder K] (l : List (Nat × K)) :
    (l.insertionSort pairLe).Sorted (fun x y => x.1 ≤ y.1) := by
  refine List.Pairwise.imp ?_ (List.sorted_insertionSort pairLe l)
  intro x y h
  rcases h with h | ⟨h, _⟩ <;> omega

theorem sum_replicate_nil {α : Type} (n : Nat) :
    ((List.replicate n ([] : List α)).map List.length).sum = 0 := by
  induction n with
  | zero => rfl
  | succ k ih => simp [List.replicate_succ, ih]

/-- C5, amended (distributedCSR repartition): for a range other than the full extent and a
numbering whose in-range ids are pairwise distinct and fill `[first, first + count)`, when
the in-range rows hold fewer than 2^31 entries and every renumbered column of these rows is
below 2^31, the call returns `true` with `ia[0] = 0` and `ia[count]` the number of entries
of the in-range rows, and for every `q < count` the local row `i` with `num[i] = first + q`
has `ia[q + 1] - ia[q]` entries, and output row `q` is a rearrangement of the pairs
`(num[A.ja[j]], A.a[j])` of that row, ascending in the renumbered column. -/
theorem distributedCSR_repartition {K : Type} [LinearOrder K] (num : Nat → Nat)
    (first last : Nat) (ia0 ja0 : Slot Int) (c0 : Slot K) (A : MatrixCSR K)
    (hrange : first ≠ 0 ∨ last ≠ A._n)
    (hdist : OwnedDistinct num first last A._n) (hfill : OwnedFill num first last A._n)
    (hcol : ∀ i, i < A._n → inRange (num i) first last = true →
      ∀ j, A._ia i ≤ j → j < A._ia (i + 1) → num (A._ja j) < 2147483648)
    (hnnz : ownedEntries num first last A < 2147483648) :
    ∃ r, distributedCSR num first last ia0 ja0 c0 A = some r ∧ r.flag = true ∧
      r.rowPointers 0 = 0 ∧
      r.rowPointers (ownedCount num first last A._n) =
        ((ownedEntries num first last A : Nat) : Int) ∧
      ∀ q, q < ownedCount num first last A._n →
        ∃ i, i < A._n ∧ inRange (num i) first last = true ∧ num i = first + q ∧
          r.rowPointers (q + 1) - r.rowPointers q = ((A._ia (i + 1) - A._ia i : Nat) : Int) ∧
          (csrRow r.rowPointers r.columns r.values q).Perm
            ((List.range' (A._ia i) (A._ia (i + 1) - A._ia i)).map
              fun j => ((num (A._ja j) : Int), A._a j)) ∧
          (csrRow r.rowPointers r.columns r.values q).Sorted (fun x y => x.1 ≤ y.1) := by
  have hidx : ∀ i ∈ List.range A._n, inRange (num i) first last = true →
      num i - first < ownedCount num first last A._n := by
    intro i hi hr
    have h1 := hfill.1 i (List.mem_range.mp hi) hr
    have h2 := (inRange_iff _ _ _).mp hr
    omega
  have hres := reserveLoop_ok num first last _ (List.range A._n) hidx
  obtain ⟨tmp, htmp, hlen, hb1, _⟩ := fillLoop_spec num first last A (List.range A._n)
    (List.replicate (ownedCount num first last A._n) []) (List.nodup_range _)
    (fun i hi j hj hir hjr e => hdist i j (List.mem_range.mp hi) (List.mem_range.mp hj) hir hjr e)
    (fun i hi hr => by rw [List.length_replicate]; exact hidx i hi hr)
  have hsum : (tmp.map List.length).sum = ownedEntries num first last A := by
    rw [fillLoop_total num first last A _ _ _ htmp, sum_replicate_nil, Nat.zero_add]
    rfl
  have htot : (tmp.map List.length).sum < 2147483648 := by
    rw [hsum]
    exact hnnz
  rw [List.length_replicate] at hlen
  obtain ⟨R, hR⟩ : ∃ R : Assembled K, R = Assembled.mk true
      (ia0.write (fun j => (A._ia j : Int)) (0 :: (emitLoop tmp 0).1)).1
      (ja0.write (fun j => (A._ja j : Int)) (emitLoop tmp 0).2.1).1
      (c0.write A._a (emitLoop tmp 0).2.2).1
      (ia0.write (fun j => (A._ia j : Int)) (0 :: (emitLoop tmp 0).1)).2
      (ja0.write (fun j => (A._ja j : Int)) (emitLoop tmp 0).2.1).2
      (c0.write A._a (emitLoop tmp 0).2.2).2 := ⟨_, rfl⟩
  have hRP : R.rowPointers =
      store (ia0.view fun j => (A._ia j : Int)) 0 (0 :: (emitLoop tmp 0).1) := by
    rw [hR]
    exact view_write _ _ _
  have hRC : R.columns = store (ja0.view fun j => (A._ja j : Int)) 0 (emitLoop tmp 0).2.1 := by
    rw [hR]
    exact view_write _ _ _
  have hRV : R.values = store (c0.view A._a) 0 (emitLoop tmp 0).2.2 := by
    rw [hR]
    exact view_write _ _ _
  have hzero : R.rowPointers 0 = 0 := by
    rw [hRP]
    exact store_zero_get _ _ 0 (by simp)
  refine ⟨R, by rw [hR]; simp only [distributedCSR, hrange, if_true, hres, htmp],
    by rw [hR], hzero, ?_, ?_⟩
  · rcases Nat.eq_zero_or_pos (ownedCount num first last A._n) with h0 | hpos
    · have hnil : tmp = [] := List.length_eq_zero.mp (by rw [hlen, h0])
      rw [h0, hzero, ← hsum, hnil]
      rfl
    · obtain ⟨q, hq⟩ : ∃ q, ownedCount num first last A._n = q + 1 :=
        ⟨_, (Nat.succ_pred_eq_of_pos hpos).symm⟩
      have hql : q < tmp.length := by omega
      have hrow : tmp[q]? = some tmp[q] := List.getElem?_eq_getElem hql
      obtain ⟨_, e1, _⟩ := emit_rows tmp (ia0.view fun j => (A._ia j : Int))
        (ja0.view fun j => (A._ja j : Int)) (c0.view A._a) q _ hrow htot
      rw [hq, hRP, e1, ← entriesBefore_succ tmp q _ hrow, ← hsum]
      have hfull : entriesBefore tmp (q + 1) = (tmp.map List.length).sum := by
        unfold entriesBefore
        rw [List.take_of_length_le (by omega)]
      rw [hfull]
  · intro q hq
    obtain ⟨i, hi, hir, hnum⟩ := hfill.2 q hq
    have hr2 : num i - first = q := by omega
    have hrow : tmp[q]? = some (rowPairs num A i) := by
      have := hb1 i (List.mem_range.mpr hi) hir [] (by
        rw [hr2, List.getElem?_replicate, if_pos hq])
      rw [hr2] at this
      simpa using this
    obtain ⟨e0, e1, e2⟩ := emit_rows tmp (ia0.view fun j => (A._ia j : Int))
      (ja0.view fun j => (A._ja j : Int)) (c0.view A._a) q _ hrow htot
    have hsmall : ∀ p ∈ (rowPairs num A i).insertionSort pairLe,
        (toInt p.1, p.2) = ((p.1 : Int), p.2) := by
      intro p hp
      have hp2 : p ∈ rowPairs num A i := (List.perm_insertionSort _ _).subset hp
      unfold rowPairs at hp2
      obtain ⟨j, hj, rfl⟩ := List.mem_map.mp hp2
      have hj2 := List.mem_range'_1.mp hj
      rw [toInt_small _ (hcol i hi hir j hj2.1 (by omega))]
    have hexp : (List.range' (A._ia i) (A._ia (i + 1) - A._ia i)).map
        (fun j => ((num (A._ja j) : Int), A._a j)) =
        (rowPairs num A i).map (fun p => ((p.1 : Int), p.2)) := by
      unfold rowPairs
      rw [List.map_map]
      rfl
    refine ⟨i, hi, hir, hnum, ?_, ?_, ?_⟩
    · rw [hRP, e0, e1, rowPairs_length]
      push_cast
      omega
    · rw [hRP, hRC, hRV, e2, List.map_congr_left hsmall, hexp]
      exact (List.perm_insertionSort _ _).map _
    · rw [hRP, hRC, hRV, e2, List.map_congr_left hsmall]
      unfold List.Sorted
      rw [List.pairwise_map]
      refine List.Pairwise.imp ?_ (sorted_by_column (rowPairs num A i))
      intro x y hxy
      exact Int.ofNat_le.mpr hxy

theorem sample_distinct : OwnedDistinct sampleNum 4 6 3 := by
  intro i j hi hj hir hjr e
  interval_cases i <;> interval_cases j <;> simp_all [sampleNum, inRange]

theorem sample_fill : OwnedFill sampleNum 4 6 3 := by
  constructor
  · intro i hi hir
    interval_cases i <;> simp_all [sampleNum, inRange, ownedCount, List.range, List.range.loop]
  · intro r hr
    have hr2 : r < 2 := by
      simpa [sampleNum, inRange, ownedCount, List.range, List.range.loop] using hr
    interval_cases r
    · exact ⟨2, by decide, by decide, by decide⟩
    · exact ⟨1, by decide, by decide, by decide⟩

theorem sampleNum_small (j : Nat) : sampleNum j < 2147483648 := by
  unfold sampleNum
  rcases j with _ | _ | _ | j <;> simp

/-- Witness for C5 as amended: rows with ids 5 and 4 of `sampleMatrix` are kept by the range
`[4, 6)`; the call leaves `ia = 0, 2, 3`, `ja = 4, 7, 5` and `c = 32, 30, 21`. -/
theorem distributedCSR_repartition_witness :
    (distributedCSR sampleNum 4 6 blankSlot blankSlot blankSlot sampleMatrix).map
      (fun r => ((List.range 3).map r.rowPointers, (List.range 3).map r.columns,
        (List.range 3).map r.values)) = some ([0, 2, 3], [4, 7, 5], [32, 30, 21]) ∧
    ∃ r, distributedCSR sampleNum 4 6 blankSlot blankSlot blankSlot sampleMatrix = some r ∧
      r.flag = true ∧
      r.rowPointers 0 = 0 ∧
      r.rowPointers (ownedCount sampleNum 4 6 sampleMatrix._n) =
        ((ownedEntries sampleNum 4 6 sampleMatrix : Nat) : Int) ∧
      ∀ q, q < ownedCount sampleNum 4 6 sampleMatrix._n →
        ∃ i, i < sampleMatrix._n ∧ inRange (sampleNum i) 4 6 = true ∧ sampleNum i = 4 + q ∧
          r.rowPointers (q + 1) - r.rowPointers q =
            ((sampleMatrix._ia (i + 1) - sampleMatrix._ia i : Nat) : Int) ∧
          (csrRow r.rowPointers r.columns r.values q).Perm
            ((List.range' (sampleMatrix._ia i) (sampleMatrix._ia (i + 1) - sampleMatrix._ia i)).map
              fun j => ((sampleNum (sampleMatrix._ja j) : Int), sampleMatrix._a j)) ∧
          (csrRow r.rowPointers r.columns r.values q).Sorted (fun x y => x.1 ≤ y.1) :=
  ⟨by decide,
    distributedCSR_repartition sampleNum 4 6 blankSlot blankSlot blankSlot sampleMatrix
      (Or.inl (by decide)) sample_distinct sample_fill
      (fun _ _ _ j _ _ => sampleNum_small _) (by decide)⟩

/-- C5 as stated fails for ids from 2^31 on: the single row of `dotMatrix` has the id 2^31,
the range `[2^31, 2^31 + 1)` is not the full extent and its one id is distinct and fills it;
the renumbered column of the entry is `num[0] = 2147483648`, and the `int` array `ja` holds
-2147483648 for it. -/
theorem distributedCSR_column_narrowed :
    (2147483648 ≠ 0 ∨ 2147483649 ≠ dotMatrix._n) ∧
    OwnedDistinct wideNum 2147483648 2147483649 dotMatrix._n ∧
    OwnedFill wideNum 2147483648 2147483649 dotMatrix._n ∧
    wideNum (dotMatrix._ja 0) = 2147483648 ∧
    (distributedCSR wideNum 2147483648 2147483649 blankSlot blankSlot blankSlot
        dotMatrix).map
      (fun r => (r.flag, r.rowPointers 0, r.rowPointers 1, r.columns 0, r.values 0)) =
      some (true, 0, 1, -2147483648, 1) := by
  refine ⟨Or.inl (by decide), ?_, ⟨?_, ?_⟩, rfl, by decide⟩
  · intro i j hi hj _ _ _
    have hi1 : i < 1 := hi
    have hj1 : j < 1 := hj
    omega
  · intro i _ _
    have hc : ownedCount wideNum 2147483648 2147483649 dotMatrix._n = 1 := by decide
    rw [hc]
    show (2147483648 : Nat) < 2147483648 + 1
    omega
  · intro r hr
    have hc : ownedCount wideNum 2147483648 2147483649 dotMatrix._n = 1 := by decide
    rw [hc] at hr
    have hr0 : r = 0 := by omega
    subst hr0
    exact ⟨0, by decide, by decide, rfl⟩

theorem fillLoop_ok {K : Type} (num : Nat → Nat) (first last : Nat) (A : MatrixCSR K)
    (rows : List Nat) (tmp : List (List (Nat × K)))
    (hidx : ∀ i ∈ rows, inRange (num i) first last = true → num i - first < tmp.length) :
    ∃ tmp1, fillLoop num first last A rows tmp = some tmp1 ∧ tmp1.length = tmp.length := by
  induction rows generalizing tmp with
  | nil => exact ⟨tmp, rfl, rfl⟩
  | cons i rest ih =>
    by_cases hr : inRange (num i) first last = true
    · have hk : num i - first < tmp.length := hidx i (by simp) hr
      have hrow0 : tmp[num i - first]? = some tmp[num i - first] := List.getElem?_eq_getElem hk
      obtain ⟨tmp1, h1, hlen⟩ := ih
        (tmp.set (num i - first) (tmp[num i - first] ++ rowPairs num A i))
        (fun j hj hjr => by
          rw [List.length_set]; exact hidx j (List.mem_cons_of_mem _ hj) hjr)
      refine ⟨tmp1, ?_, ?_⟩
      · simp only [fillLoop, hr, if_true, hrow0, h1]
      · rw [hlen, List.length_set]
    · obtain ⟨tmp1, h1, hlen⟩ := ih tmp
        (fun j hj hjr => hidx j (List.mem_cons_of_mem _ hj) hjr)
      refine ⟨tmp1, ?_, hlen⟩
      simp only [fillLoop, hr, h1]
      rfl

/-- C6 as stated fails when a pointer already designates an array of `A`.  A first call on
the full range `[0, 3)` of `sampleMatrix` returns `false` and leaves the three pointers on
the arrays of `A`; a second call with these pointers and the range `[4, 6)` returns `true`
and writes the repartitioned rows through them: the columns of `A` were 0, 2, 1, 2, 0 and
are 4, 7, 5, 2, 0 afterwards, the values were 10, 12, 21, 32, 30 and are 32, 30, 21, 32,
30. -/
theorem distributedCSR_overwrites_matrix :
    ∃ r1 r2,
      distributedCSR sampleNum 0 3 blankSlot blankSlot blankSlot sampleMatrix = some r1 ∧
      r1.flag = false ∧
      (4 ≠ 0 ∨ 6 ≠ sampleMatrix._n) ∧
      distributedCSR sampleNum 4 6 r1.ia r1.ja r1.c sampleMatrix = some r2 ∧
      r2.flag = true ∧
      (List.range 5).map (fun j => (sampleMatrix._ja j : Int)) = [0, 2, 1, 2, 0] ∧
      (List.range 5).map r2.matJa = [4, 7, 5, 2, 0] ∧
      (List.range 5).map sampleMatrix._a = [10, 12, 21, 32, 30] ∧
      (List.range 5).map r2.matA = [32, 30, 21, 32, 30] :=
  ⟨_, _, rfl, rfl, Or.inl (by decide), rfl, rfl, by decide, by decide, by decide, by decide⟩

/-- C6, amended (distributedCSR passthrough): the call returns `false` and leaves the three
pointers on the arrays of `A`, which are not modified, when `first = 0` and `last = A.n`;
for every other range in which each in-range id is less than `first` plus the number of
in-range rows, it returns `true`, the arrays behind the three pointers being the ones passed
in (or allocated) overwritten from offset 0 by `count + 1` row pointers and by the emitted
columns and values, and an array of `A` is modified only if the pointer passed in designates
it, in which case it receives these writes; a returned flag is `false` exactly on the full
range. -/
theorem distributedCSR_passthrough {K : Type} [LinearOrder K] (num : Nat → Nat)
    (first last : Nat) (ia0 ja0 : Slot Int) (c0 : Slot K) (A : MatrixCSR K) :
    (first = 0 ∧ last = A._n →
      distributedCSR num first last ia0 ja0 c0 A =
        some (Assembled.mk false Slot.matrix Slot.matrix Slot.matrix
          (fun j => (A._ia j : Int)) (fun j => (A._ja j : Int)) A._a)) ∧
    (¬ (first = 0 ∧ last = A._n) →
      (∀ i, i < A._n → inRange (num i) first last = true →
        num i < first + ownedCount num first last A._n) →
      ∃ (rows : List Int × List Int × List K) (r : Assembled K),
        distributedCSR num first last ia0 ja0 c0 A = some r ∧ r.flag = true ∧
        r.rowPointers = store (ia0.view fun j => (A._ia j : Int)) 0 (0 :: rows.1) ∧
        r.columns = store (ja0.view fun j => (A._ja j : Int)) 0 rows.2.1 ∧
        r.values = store (c0.view A._a) 0 rows.2.2 ∧
        rows.1.length = ownedCount num first last A._n ∧
        rows.2.1.length = rows.2.2.length ∧
        (∀ b, ia0 = Slot.block b → r.matIa = fun j => (A._ia j : Int)) ∧
        (∀ b, ja0 = Slot.block b → r.matJa = fun j => (A._ja j : Int)) ∧
        (∀ b, c0 = Slot.block b → r.matA = A._a) ∧
        (ia0 = Slot.matrix → r.matIa = store (fun j => (A._ia j : Int)) 0 (0 :: rows.1)) ∧
        (ja0 = Slot.matrix → r.matJa = store (fun j => (A._ja j : Int)) 0 rows.2.1) ∧
        (c0 = Slot.matrix → r.matA = store A._a 0 rows.2.2)) ∧
    (∀ res, distributedCSR num first last ia0 ja0 c0 A = some res →
      (res.flag = false ↔ first = 0 ∧ last = A._n)) := by
  refine ⟨?_, ?_, ?_⟩
  · rintro ⟨h1, h2⟩
    simp [distributedCSR, h1, h2]
  · intro hne hfill
    have hrange : first ≠ 0 ∨ last ≠ A._n := by
      by_contra hcon
      push_neg at hcon
      exact hne hcon
    have hidx : ∀ i ∈ List.range A._n, inRange (num i) first last = true →
        num i - first < ownedCount num first last A._n := by
      intro i hi hr
      have h1 := hfill i (List.mem_range.mp hi) hr
      have h2 := (inRange_iff _ _ _).mp hr
      omega
    have hres := reserveLoop_ok num first last _ (List.range A._n) hidx
    obtain ⟨tmp, htmp, hlen⟩ := fillLoop_ok num first last A (List.range A._n)
      (List.replicate (ownedCount num first last A._n) [])
      (fun i hi hr => by rw [List.length_replicate]; exact hidx i hi hr)
    refine ⟨emitLoop tmp 0, Assembled.mk true
      (ia0.write (fun j => (A._ia j : Int)) (0 :: (emitLoop tmp 0).1)).1
      (ja0.write (fun j => (A._ja j : Int)) (emitLoop tmp 0).2.1).1
      (c0.write A._a (emitLoop tmp 0).2.2).1
      (ia0.write (fun j => (A._ia j : Int)) (0 :: (emitLoop tmp 0).1)).2
      (ja0.write (fun j => (A._ja j : Int)) (emitLoop tmp 0).2.1).2
      (c0.write A._a (emitLoop tmp 0).2.2).2, ?_, rfl, view_write _ _ _, view_write _ _ _,
      view_write _ _ _, ?_, ?_, ?_, ?_, ?_, ?_, ?_, ?_⟩
    · simp only [distributedCSR, hrange, if_true, hres, htmp]
    · rw [emitLoop_length, hlen, List.length_replicate]
    · rw [(emitLoop_pairs tmp 0).1, (emitLoop_pairs tmp 0).2]
      simp
    · intro b hb
      subst hb
      rfl
    · intro b hb
      subst hb
      rfl
    · intro b hb
      subst hb
      rfl
    · intro hb
      subst hb
      rfl
    · intro hb
      subst hb
      rfl
    · intro hb
      subst hb
      rfl
  · intro res hres
    by_cases hfull : first = 0 ∧ last = A._n
    · simp only [distributedCSR, hfull.1, hfull.2, ne_eq, not_true_eq_false, or_self,
        if_false, Option.some.injEq] at hres
      subst hres
      simp [hfull]
    · have hrange : first ≠ 0 ∨ last ≠ A._n := by
        by_contra hcon
        push_neg at hcon
        exact hfull hcon
      simp only [distributedCSR, hrange, if_true] at hres
      cases h1 : reserveLoop num first last (ownedCount num first last A._n)
          (List.range A._n) with
      | none => rw [h1] at hres; exact Option.noConfusion hres
      | some u =>
        rw [h1] at hres
        cases h2 : fillLoop num first last A (List.range A._n)
            (List.replicate (ownedCount num first last A._n) []) with
        | none => rw [h2] at hres; exact Option.noConfusion hres
        | some tmp =>
          rw [h2] at hres
          simp only [Option.some.injEq] at hres
          subst hres
          simp [hfull]

/-- Witness for C6 (amended): the full range of `sampleMatrix` is handed back as is, and the
range `[4, 6)` is repartitioned with `ia` a block of the caller and `ja`, `c` the arrays of
the matrix. -/
theorem distributedCSR_passthrough_witness :
    distributedCSR sampleNum 0 3 blankSlot blankSlot blankSlot sampleMatrix =
      some (Assembled.mk false Slot.matrix Slot.matrix Slot.matrix
        (fun j => (sampleMatrix._ia j : Int)) (fun j => (sampleMatrix._ja j : Int))
        sampleMatrix._a) ∧
    ∃ (rows : List Int × List Int × List Int) (r : Assembled Int),
      distributedCSR sampleNum 4 6 blankSlot Slot.matrix Slot.matrix sampleMatrix = some r ∧
      r.flag = true ∧
      r.rowPointers = store (blankSlot.view fun j => (sampleMatrix._ia j : Int)) 0
        (0 :: rows.1) ∧
      r.columns = store ((Slot.matrix : Slot Int).view fun j => (sampleMatrix._ja j : Int)) 0
        rows.2.1 ∧
      r.values = store ((Slot.matrix : Slot Int).view sampleMatrix._a) 0 rows.2.2 ∧
      rows.1.length = ownedCount sampleNum 4 6 sampleMatrix._n ∧
      rows.2.1.length = rows.2.2.length ∧
      (∀ b, blankSlot = Slot.block b → r.matIa = fun j => (sampleMatrix._ia j : Int)) ∧
      (∀ b, (Slot.matrix : Slot Int) = Slot.block b →
        r.matJa = fun j => (sampleMatrix._ja j : Int)) ∧
      (∀ b, (Slot.matrix : Slot Int) = Slot.block b → r.matA = sampleMatrix._a) ∧
      (blankSlot = Slot.matrix →
        r.matIa = store (fun j => (sampleMatrix._ia j : Int)) 0 (0 :: rows.1)) ∧
      ((Slot.matrix : Slot Int) = Slot.matrix →
        r.matJa = store (fun j => (sampleMatrix._ja j : Int)) 0 rows.2.1) ∧
      ((Slot.matrix : Slot Int) = Slot.matrix →
        r.matA = store sampleMatrix._a 0 rows.2.2) :=
  ⟨(distributedCSR_passthrough sampleNum 0 3 blankSlot blankSlot blankSlot
      sampleMatrix).1 ⟨rfl, rfl⟩,
   (distributedCSR_passthrough sampleNum 4 6 blankSlot Slot.matrix Slot.matrix
      sampleMatrix).2.1 (by decide) sample_fill.1⟩

/-! ### `distributedVec` lemmas -/

theorem vecLoop_gather {K : Type} (num : Nat → Nat) (first last : Nat) (cap : Option Nat)
    (rows : List Nat) (inp out : Nat → K) (hnd : rows.Nodup)
    (hinj : ∀ i ∈ rows, ∀ j ∈ rows, inRange (num i) first last = true →
      inRange (num j) first last = true → num i = num j → i = j)
    (hcap : ∀ i ∈ rows, inRange (num i) first last = true →
      cap.any (fun d => decide (d ≤ num i - first)) = false) :
    ∃ out1, vecLoop false num first last cap rows inp out = some (inp, out1) ∧
      (∀ i ∈ rows, inRange (num i) first last = true → out1 (num i - first) = inp i) ∧
      (∀ k, (∀ i ∈ rows, inRange (num i) first last = true → num i - first ≠ k) →
        out1 k = out k) := by
  induction rows generalizing out with
  | nil => exact ⟨out, rfl, fun i hi => by simp at hi, fun _ _ => rfl⟩
  | cons i rest ih =>
    have hnd2 : rest.Nodup := (List.nodup_cons.mp hnd).2
    have hnotin : i ∉ rest := (List.nodup_cons.mp hnd).1
    have hinj2 : ∀ a ∈ rest, ∀ b ∈ rest, inRange (num a) first last = true →
        inRange (num b) first last = true → num a = num b → a = b :=
      fun a ha b hb => hinj a (List.mem_cons_of_mem _ ha) b (List.mem_cons_of_mem _ hb)
    have hcap2 : ∀ j ∈ rest, inRange (num j) first last = true →
        cap.any (fun d => decide (d ≤ num j - first)) = false :=
      fun j hj => hcap j (List.mem_cons_of_mem _ hj)
    by_cases hr : inRange (num i) first last = true
    · obtain ⟨out1, h1, hb1, hb2⟩ :=
        ih (Function.update out (num i - first) (inp i)) hnd2 hinj2 hcap2
      have hapart : ∀ j ∈ rest, inRange (num j) first last = true →
          num j - first ≠ num i - first := by
        intro j hj hjr e
        have h1 := (inRange_iff _ _ _).mp hr
        have h2 := (inRange_iff _ _ _).mp hjr
        have : num j = num i := by omega
        have := hinj j (List.mem_cons_of_mem _ hj) i (by simp) hjr hr this
        exact hnotin (this ▸ hj)
      refine ⟨out1, ?_, ?_, ?_⟩
      · simp only [vecLoop, hr, if_true, hcap i (by simp) hr, Bool.false_eq_true, if_false, h1]
      · intro j hj hjr
        rcases List.mem_cons.mp hj with rfl | hjrest
        · rw [hb2 _ hapart, Function.update_same]
        · exact hb1 j hjrest hjr
      · intro k hk
        rw [hb2 k (fun j hj hjr => hk j (List.mem_cons_of_mem _ hj) hjr)]
        exact Function.update_noteq (fun e => hk i (by simp) hr e.symm) _ _
    · obtain ⟨out1, h1, hb1, hb2⟩ := ih out hnd2 hinj2 hcap2
      refine ⟨out1, ?_, ?_, ?_⟩
      · simp only [vecLoop, hr, h1]
        rfl
      · intro j hj hjr
        rcases List.mem_cons.mp hj with rfl | hjrest
        · exact absurd hjr hr
        · exact hb1 j hjrest hjr
      · intro k hk
        exact hb2 k (fun j hj hjr => hk j (List.mem_cons_of_mem _ hj) hjr)

theorem vecLoop_scatter {K : Type} (num : Nat → Nat) (first last : Nat) (cap : Option Nat)
    (rows : List Nat) (inp out : Nat → K)
    (hcap : ∀ i ∈ rows, inRange (num i) first last = true →
      cap.any (fun d => decide (d ≤ num i - first)) = false) :
    ∃ inp1, vecLoop true num first last cap rows inp out = some (inp1, out) ∧
      ∀ x, inp1 x = if x ∈ rows ∧ inRange (num x) first last = true
        then out (num x - first) else inp x := by
  induction rows generalizing inp with
  | nil => exact ⟨inp, rfl, fun x => by simp⟩
  | cons i rest ih =>
    have hcap2 : ∀ j ∈ rest, inRange (num j) first last = true →
        cap.any (fun d => decide (d ≤ num j - first)) = false :=
      fun j hj => hcap j (List.mem_cons_of_mem _ hj)
    by_cases hr : inRange (num i) first last = true
    · obtain ⟨inp1, h1, h2⟩ := ih (Function.update inp i (out (num i - first))) hcap2
      refine ⟨inp1, ?_, ?_⟩
      · simp only [vecLoop, hr, if_true, hcap i (by simp) hr, Bool.false_eq_true, if_false, h1]
      · intro x
        rw [h2 x]
        by_cases hx : x = i
        · subst hx
          simp [hr]
        · simp [hx, Function.update_noteq hx]
    · obtain ⟨inp1, h1, h2⟩ := ih inp hcap2
      refine ⟨inp1, ?_, ?_⟩
      · simp only [vecLoop, hr, h1]
        rfl
      · intro x
        rw [h2 x]
        by_cases hx : x = i
        · subst hx
          simp [hr]
        · simp [hx]

theorem vec_roundtrip_partial {K : Type} (num : Nat → Nat) (first last n : Nat)
    (x y : Nat → K) (cap : Option Nat) (buf : Nat → K)
    (hdist : OwnedDistinct num first last n)
    (hcap : ∀ i ∈ List.range n, inRange (num i) first last = true →
      cap.any (fun d => decide (d ≤ num i - first)) = false) :
    ∃ g x2, vecLoop false num first last cap (List.range n) x buf = some (x, g) ∧
      vecLoop true num first last none (List.range n) y g = some (x2, g) ∧
      ∀ i, x2 i = if i < n ∧ inRange (num i) first last = true then x i else y i := by
  obtain ⟨g, hg, hb1, _⟩ := vecLoop_gather num first last cap (List.range n) x buf
    (List.nodup_range _)
    (fun i hi j hj hir hjr e => hdist i j (List.mem_range.mp hi) (List.mem_range.mp hj) hir hjr e)
    hcap
  obtain ⟨x2, hx2, hval⟩ := vecLoop_scatter num first last none (List.range n) y g
    (fun _ _ _ => rfl)
  refine ⟨g, x2, hg, hx2, ?_⟩
  intro i
  rw [hval i]
  by_cases hi : i < n ∧ inRange (num i) first last = true
  · rw [if_pos ⟨List.mem_range.mpr hi.1, hi.2⟩, if_pos hi]
    exact hb1 i (List.mem_range.mpr hi.1) hi.2
  · rw [if_neg (fun h => hi ⟨List.mem_range.mp h.1, h.2⟩), if_neg hi]

/-- C7 (distributedVec round trip): for a numbering whose in-range ids are pairwise distinct
and fill `[first, first + count)`, gathering `x` into the compact buffer (`T = false`) leaves
`x` as it is, and scattering that buffer (`T = true`) into a local vector `y` writes `x[i]`
back at every index `i < n` that is in range (at every `i < n` on the copy path) and touches
nothing else; scattering into `x` itself gives `x` again.  This holds with a buffer supplied
by the caller on both paths, and with a null pointer on the repartitioned path, where the
buffer is allocated by the gathering call. -/
theorem distributedVec_roundtrip {K : Type} (num : Nat → Nat) (first last n : Nat)
    (x y fresh : Nat → K)
    (hdist : OwnedDistinct num first last n) (hfill : OwnedFill num first last n) :
    (∀ buf : Nat → K, ∃ g x2,
      distributedVec false num first last x (some buf) n fresh = some (x, some g) ∧
      distributedVec true num first last y (some g) n fresh = some (x2, some g) ∧
      (∀ i, x2 i = if i < n ∧ (inRange (num i) first last = true ∨ (first = 0 ∧ last = n))
        then x i else y i) ∧
      (y = x → x2 = x)) ∧
    ((first ≠ 0 ∨ last ≠ n) → ∃ g x2,
      distributedVec false num first last x none n fresh = some (x, some g) ∧
      distributedVec true num first last y (some g) n fresh = some (x2, some g) ∧
      (∀ i, x2 i = if i < n ∧ inRange (num i) first last = true then x i else y i) ∧
      (y = x → x2 = x)) := by
  constructor
  · intro buf
    by_cases hrange : first ≠ 0 ∨ last ≠ n
    · obtain ⟨g, x2, hg, hx2, hval⟩ :=
        vec_roundtrip_partial num first last n x y none buf hdist (fun _ _ _ => rfl)
      have hnf : ¬ (first = 0 ∧ last = n) := by
        rintro ⟨h1, h2⟩
        rcases hrange with h | h
        · exact h h1
        · exact h h2
      have hval2 : ∀ i, x2 i =
          if i < n ∧ (inRange (num i) first last = true ∨ (first = 0 ∧ last = n))
          then x i else y i := by
        intro i
        rw [hval i]
        simp only [hnf, or_false]
      refine ⟨g, x2, ?_, ?_, hval2, ?_⟩
      · simp only [distributedVec, hrange, if_true, hg, Option.map_some']
      · simp only [distributedVec, hrange, if_true, hx2, Option.map_some']
      · intro hy
        funext i
        rw [hval2 i, hy]
        simp
    · have hfull : first = 0 ∧ last = n := by
        by_contra hcon
        apply hrange
        by_cases h1 : first = 0
        · exact Or.inr (fun h2 => hcon ⟨h1, h2⟩)
        · exact Or.inl h1
      have hval2 : ∀ i, copyN (copyN x buf n) y n i =
          if i < n ∧ (inRange (num i) first last = true ∨ (first = 0 ∧ last = n))
          then x i else y i := by
        intro i
        by_cases hi : i < n
        · simp [copyN, hi, hfull]
        · simp [copyN, hi]
      refine ⟨copyN x buf n, copyN (copyN x buf n) y n, ?_, ?_, hval2, ?_⟩
      · simp [distributedVec, hfull.1, hfull.2]
      · simp [distributedVec, hfull.1, hfull.2]
      · intro hy
        funext i
        rw [hval2 i, hy]
        simp
  · intro hrange
    have hcap : ∀ i ∈ List.range n, inRange (num i) first last = true →
        (some (ownedCount num first last n)).any (fun d => decide (d ≤ num i - first)) =
          false := by
      intro i hi hr
      have h1 := hfill.1 i (List.mem_range.mp hi) hr
      have h2 := (inRange_iff _ _ _).mp hr
      simp only [Option.any_some, decide_eq_false_iff_not, not_le]
      omega
    obtain ⟨g, x2, hg, hx2, hval⟩ :=
      vec_roundtrip_partial num first last n x y (some (ownedCount num first last n)) fresh
        hdist hcap
    refine ⟨g, x2, ?_, ?_, hval, ?_⟩
    · simp only [distributedVec, hrange, if_true, hg, Option.map_some']
    · simp only [distributedVec, hrange, if_true, hx2, Option.map_some']
    · intro hy
      funext i
      rw [hval i, hy]
      simp

/-- Witness for C7: three local unknowns with ids 7, 5, 4 and the range `[4, 6)`. -/
theorem distributedVec_roundtrip_witness :
    (∀ buf : Nat → Int, ∃ g x2,
      distributedVec false sampleNum 4 6 sampleVec (some buf) 3 (fun _ => 0) =
        some (sampleVec, some g) ∧
      distributedVec true sampleNum 4 6 sampleVec (some g) 3 (fun _ => 0) =
        some (x2, some g) ∧
      (∀ i, x2 i = if i < 3 ∧ (inRange (sampleNum i) 4 6 = true ∨ (4 = 0 ∧ 6 = 3))
        then sampleVec i else sampleVec i) ∧
      (sampleVec = sampleVec → x2 = sampleVec)) ∧
    ((4 ≠ 0 ∨ 6 ≠ 3) → ∃ g x2,
      distributedVec false sampleNum 4 6 sampleVec none 3 (fun _ => 0) =
        some (sampleVec, some g) ∧
      distributedVec true sampleNum 4 6 sampleVec (some g) 3 (fun _ => 0) =
        some (x2, some g) ∧
      (∀ i, x2 i = if i < 3 ∧ inRange (sampleNum i) 4 6 = true
        then sampleVec i else sampleVec i) ∧
      (sampleVec = sampleVec → x2 = sampleVec)) :=
  distributedVec_roundtrip sampleNum 4 6 3 sampleVec sampleVec (fun _ => 0)
    sample_distinct sample_fill

/-! ### Global numbering: evaluations -/

/-- The two-process scenario is numbered 0..6 (1..7 for `N == 'F'`), the shared unknown
getting the same id on both ranks, and `global` is 7 on both. -/
theorem scenario_numbering :
    (globalMapping scenarioProcs false (fun _ _ => 0)).map
        (fun l => l.map fun m => (m.num, m.start, m.finish, m.global)) =
      some [([0, 1, 2, 3], 0, 4, 7), ([3, 4, 5, 6], 4, 7, 7)] ∧
    (globalMapping scenarioProcs true (fun _ _ => 0)).map
        (fun l => l.map fun m => (m.num, m.start, m.finish, m.global)) =
      some [([1, 2, 3, 4], 1, 5, 7), ([4, 5, 6, 7], 5, 8, 7)] := by
  constructor <;> rfl

/-- C2 fails on the code: in the three-rank row 1 - 0 - 2 (maps sorted by rank and mutually
consistent), rank 1 is not the last rank and has no neighbour of higher rank, so that
`between == _map.size()` and line 453 reads `_map[between]` past the end of the vector; the
call does not produce a numbering, for either base and whatever the buffers hold. -/
theorem globalMapping_chain_fault (isF : Bool) (ubuf0 : Nat → Nat → Nat) :
    Consistent (chainProcs.map fun p => p.sub._map) ∧
    (∀ p ∈ chainProcs, (p.sub._map.map Prod.fst).Sorted (fun a b => a < b)) ∧
    (∀ p ∈ chainProcs, ∃ a o r, initialise a o r = some p.sub) ∧
    (chainProcs.getD 1 ⟨scenarioA, 0, none⟩).sub._map[
      betweenOf (chainProcs.getD 1 ⟨scenarioA, 0, none⟩).sub._map 1]? = none ∧
    globalMapping chainProcs isF ubuf0 = none := by
  refine ⟨?_, ?_, ?_, rfl, ?_⟩
  · intro p hp
    have hp2 : p < 3 := by simpa [chainProcs] using hp
    interval_cases p
    · refine ⟨by decide, ?_⟩
      intro nb hnb
      have : nb = (1, [0]) ∨ nb = (2, [1]) := by simpa [chainProcs] using hnb
      rcases this with rfl | rfl
      · exact ⟨by decide, by decide, [1], rfl, rfl⟩
      · exact ⟨by decide, by decide, [0], rfl, rfl⟩
    · refine ⟨by decide, ?_⟩
      intro nb hnb
      have : nb = (0, [1]) := by simpa [chainProcs] using hnb
      subst this
      exact ⟨by decide, by decide, [0], rfl, rfl⟩
    · refine ⟨by decide, ?_⟩
      intro nb hnb
      have : nb = (0, [0]) := by simpa [chainProcs] using hnb
      subst this
      exact ⟨by decide, by decide, [1], rfl, rfl⟩
  · intro p hp
    simp only [chainProcs, List.mem_cons, List.mem_singleton, List.not_mem_nil, or_false] at hp
    rcases hp with rfl | rfl | rfl <;> simp
  · intro p hp
    simp only [chainProcs, List.mem_cons, List.mem_singleton, List.not_mem_nil, or_false] at hp
    rcases hp with rfl | rfl | rfl
    · exact ⟨pairMatrix, [1, 2], [[0], [1]], rfl⟩
    · exact ⟨pairMatrix, [0], [[1]], rfl⟩
    · exact ⟨pairMatrix, [0], [[0]], rfl⟩
  · cases isF <;> rfl

/-- C8 fails on the code for `N == 'F'`: on a single process with 4 local unknowns the ids
are 1, 2, 3, 4 and `start` is 1, but `end` is 4 and `global` is 3, not 4. -/
theorem globalMapping_single_fortran :
    (globalMapping [Process.mk scenarioA 4 none] true (fun _ _ => 0)).map
        (fun l => l.map fun m => (m.num, m.start, m.finish, m.global)) =
      some [([1, 2, 3, 4], 1, 4, 3)] := by
  rfl

/-- On a single process with `N == 'C'` the numbering is the identity and `global` is the
number of local unknowns; with `N == 'F'` local index `i` gets `1 + i`, and `global` is one
less than the number of local unknowns. -/
theorem globalMapping_single_values (p : Process Int) (ubuf0 : Nat → Nat → Nat)
    (hc : 0 < p.count) (hlt : p.count < 4294967296) :
    globalMapping [p] false ubuf0 =
      some [{ num := (List.range p.count).map fun i => 0 + i, start := 0, finish := p.count,
              global := p.count }] ∧
    globalMapping [p] true ubuf0 =
      some [{ num := (List.range p.count).map fun i => 1 + i, start := 1, finish := p.count,
              global := p.count - 1 }] := by
  constructor
  · simp only [globalMapping, List.length_singleton, gt_iff_lt, lt_self_iff_false, if_false,
      List.map_cons, List.map_nil, globalMappingSingle, baseOf, usub]
    have : (p.count + 4294967296 - 0 % 4294967296) % 4294967296 = p.count := by omega
    simp [this]
    omega
  · simp only [globalMapping, List.length_singleton, gt_iff_lt, lt_self_iff_false, if_false,
      List.map_cons, List.map_nil, globalMappingSingle, baseOf, usub]
    have : (p.count + 4294967296 - 1 % 4294967296) % 4294967296 = p.count - 1 := by omega
    simp [this]
    omega

/-! ### Interaction: completion order -/

/-- C3 fails on the code: rank 0 of `interactSubs` has neighbours 1 and 2, whose payloads
decode to a block with one entry and to an empty block.  When the receives complete in
neighbour order `v` is aligned with the neighbour list; when the payload of neighbour 2
completes first, `v[0]` is the block of neighbour 2 and `v[1]` the block of neighbour 1. -/
theorem interaction_completion_order :
    (interactionAt false false interactSubs (fun _ => none) 0 0 [0, 1] 0 []).map blockData =
      some [(2, 1, 1, [0, 1, 1], [0], [5]), (2, 0, 0, [0, 0, 0], [], [])] ∧
    (interactionAt false false interactSubs (fun _ => none) 0 0 [1, 0] 0 []).map blockData =
      some [(2, 0, 0, [0, 0, 0], [], []), (2, 1, 1, [0, 1, 1], [0], [5])] := by
  constructor <;> rfl

/-! ### Interaction: the payload built by `encode` -/

theorem pushRun_ne_nil (p n : Nat) (R : List (Nat × Nat)) : pushRun p n R ≠ [] := by
  cases R with
  | nil => simp [pushRun]
  | cons e tl =>
    obtain ⟨q, len⟩ := e
    by_cases h : q = p <;> simp [pushRun, h]

theorem pushRun_head (p n : Nat) (R : List (Nat × Nat)) :
    ((pushRun p n R).map Prod.fst).head? = some p := by
  cases R with
  | nil => simp [pushRun]
  | cons e tl =>
    obtain ⟨q, len⟩ := e
    by_cases h : q = p <;> simp [pushRun, h]

theorem pushRun_pushRun (p n k : Nat) (R : List (Nat × Nat)) :
    pushRun p n (pushRun p k R) = pushRun p (k + n) R := by
  cases R with
  | nil => simp [pushRun]
  | cons e tl =>
    obtain ⟨q, len⟩ := e
    by_cases h : q = p
    · simp [pushRun, h, Nat.add_assoc]
    · simp [pushRun, h]

theorem pushRun_of_head_ne (p n : Nat) (R : List (Nat × Nat))
    (h : (R.map Prod.fst).head? ≠ some p) : pushRun p n R = (p, n) :: R := by
  cases R with
  | nil => rfl
  | cons e tl =>
    obtain ⟨q, len⟩ := e
    have hq : q ≠ p := by
      intro e
      apply h
      simp [e]
    simp [pushRun, hq]

theorem encodeLoop_eq (rest : List (Nat × Nat × Nat)) (lastRow run : Nat) :
    encodeLoop rest lastRow run =
      ((pushRun lastRow run (runsOf rest)).map (fun e => e.2 % 65536),
        ((pushRun lastRow run (runsOf rest)).map Prod.fst).tail) := by
  induction rest generalizing lastRow run with
  | nil => simp [encodeLoop, runsOf, pushRun]
  | cons t rest ih =>
    by_cases h : t.1 = lastRow
    · subst h
      simp only [encodeLoop, ne_eq, not_true_eq_false, if_false, runsOf]
      rw [ih, pushRun_pushRun, Nat.add_comm]
    · have hh : ((runsOf (t :: rest)).map Prod.fst).head? ≠ some lastRow := by
        rw [runsOf, pushRun_head]
        intro e
        exact h (Option.some.inj e)
      rw [pushRun_of_head_ne lastRow run _ hh]
      simp only [encodeLoop, ne_eq, h, not_false_eq_true, if_true, ih, runsOf, List.map_cons,
        List.tail_cons]
      congr 1
      have h1 := pushRun_head t.1 1 (runsOf rest)
      cases hR : (pushRun t.1 1 (runsOf rest)).map Prod.fst with
      | nil => rw [hR] at h1; simp at h1
      | cons a tl =>
        rw [hR] at h1
        simp only [List.head?_cons, Option.some.injEq] at h1
        simp [h1]

theorem runCount_eq (send : List (Nat × Nat × Nat)) : runCount send = (runsOf send).length := by
  induction send with
  | nil => rfl
  | cons t rest ih =>
    cases rest with
    | nil => simp [runCount, runsOf, pushRun]
    | cons u rest2 =>
      rw [runCount, ih]
      have h1 := pushRun_head u.1 1 (runsOf rest2)
      have hru : runsOf (t :: u :: rest2) = pushRun t.1 1 (runsOf (u :: rest2)) := rfl
      rw [hru]
      by_cases h : u.1 = t.1
      · have hru2 : runsOf (u :: rest2) = pushRun u.1 1 (runsOf rest2) := rfl
        rw [hru2, h, pushRun_pushRun]
        simp only [ne_eq, not_true_eq_false, if_false, Nat.zero_add]
        cases runsOf rest2 with
        | nil => simp [pushRun]
        | cons e tl =>
          obtain ⟨q, len⟩ := e
          by_cases hq : q = t.1 <;> simp [pushRun, hq]
      · have hh : ((runsOf (u :: rest2)).map Prod.fst).head? ≠ some t.1 := by
          rw [runsOf, pushRun_head]
          intro e
          exact h (Option.some.inj e)
        rw [pushRun_of_head_ne _ _ _ hh]
        simp [h, Nat.add_comm]

theorem encode_eq {K : Type} (send : List (Nat × Nat × Nat)) (val : Nat → K) :
    (encode send val).runs = (runsOf send).length ∧
    (encode send val).ia = (runsOf send).map (fun e => e.2 % 65536) ∧
    (encode send val).ints =
      send.length :: ((runsOf send).map Prod.fst ++ send.map fun u => u.2.1) ∧
    (encode send val).a = send.map fun u => val u.2.2 := by
  cases send with
  | nil => simp [encode, runCount, runsOf]
  | cons t rest =>
    have h1 := pushRun_head t.1 1 (runsOf rest)
    refine ⟨?_, ?_, ?_, ?_⟩
    · simp only [encode]; exact runCount_eq _
    · simp only [encode, encodeLoop_eq, runsOf]
    · simp only [encode, encodeLoop_eq, runsOf, List.length_cons, List.cons.injEq, true_and]
      cases hR : (pushRun t.1 1 (runsOf rest)).map Prod.fst with
      | nil => rw [hR] at h1; simp at h1
      | cons a tl =>
        rw [hR] at h1
        simp only [List.head?_cons, Option.some.injEq] at h1
        simp [h1]
    · simp only [encode]

/-! ### Interaction: runs of a sorted stream -/

theorem pushRun_sum (p n : Nat) (R : List (Nat × Nat)) :
    ((pushRun p n R).map Prod.snd).sum = n + (R.map Prod.snd).sum := by
  cases R with
  | nil => simp [pushRun]
  | cons e tl =>
    obtain ⟨q, len⟩ := e
    by_cases h : q = p
    · simp [pushRun, h]; omega
    · simp [pushRun, h]

theorem runsOf_sum (send : List (Nat × Nat × Nat)) :
    ((runsOf send).map Prod.snd).sum = send.length := by
  induction send with
  | nil => rfl
  | cons t rest ih => rw [runsOf, pushRun_sum, ih, List.length_cons]; omega

theorem pushRun_rows (p n : Nat) (R : List (Nat × Nat)) (q : Nat)
    (h : q ∈ (pushRun p n R).map Prod.fst) : q = p ∨ q ∈ R.map Prod.fst := by
  cases R with
  | nil => simp [pushRun] at h; exact Or.inl h
  | cons e tl =>
    obtain ⟨r, len⟩ := e
    by_cases hr : r = p
    · simp only [pushRun, hr, if_true, List.map_cons, List.mem_cons] at h
      rcases h with h | h
      · exact Or.inl h
      · exact Or.inr (by simp [h])
    · simp only [pushRun, hr, if_false, List.map_cons, List.mem_cons] at h
      rcases h with h | h | h
      · exact Or.inl h
      · exact Or.inr (by simp [h])
      · exact Or.inr (by simp [h])

theorem runsOf_rows (send : List (Nat × Nat × Nat)) (q : Nat)
    (h : q ∈ (runsOf send).map Prod.fst) : ∃ t ∈ send, t.1 = q := by
  induction send with
  | nil => simp [runsOf] at h
  | cons t rest ih =>
    rcases pushRun_rows t.1 1 (runsOf rest) q h with h1 | h1
    · exact ⟨t, by simp, h1.symm⟩
    · obtain ⟨u, hu, hq⟩ := ih h1
      exact ⟨u, List.mem_cons_of_mem _ hu, hq⟩

theorem pushRun_sorted (p n : Nat) (R : List (Nat × Nat))
    (hs : (R.map Prod.fst).Sorted (fun a b => a < b)) (hge : ∀ q ∈ R.map Prod.fst, p ≤ q) :
    ((pushRun p n R).map Prod.fst).Sorted (fun a b => a < b) := by
  cases R with
  | nil => simp [pushRun]
  | cons e tl =>
    obtain ⟨r, len⟩ := e
    by_cases hr : r = p
    · simp only [pushRun, hr, if_true, List.map_cons]
      subst hr
      exact hs
    · simp only [pushRun, hr, if_false, List.map_cons]
      have hlt : p < r := by
        have := hge r (by simp)
        omega
      refine List.Pairwise.cons ?_ hs
      intro q hq
      simp only [List.map_cons, List.mem_cons] at hq
      rcases hq with rfl | hq
      · exact hlt
      · have := List.rel_of_sorted_cons hs q hq
        omega

theorem runsOf_sorted (send : List (Nat × Nat × Nat)) (hs : send.Sorted tripleLe) :
    ((runsOf send).map Prod.fst).Sorted (fun a b => a < b) := by
  induction send with
  | nil => simp [runsOf]
  | cons t rest ih =>
    have hrest : rest.Sorted tripleLe := List.Sorted.of_cons hs
    apply pushRun_sorted t.1 1 (runsOf rest) (ih hrest)
    intro q hq
    obtain ⟨u, hu, hq2⟩ := runsOf_rows rest q hq
    have := List.rel_of_sorted_cons hs u hu
    rcases this with h | ⟨h, _⟩ <;> omega

theorem runsOf_nodup (send : List (Nat × Nat × Nat)) (hs : send.Sorted tripleLe) :
    ((runsOf send).map Prod.fst).Nodup := by
  have := runsOf_sorted send hs
  exact List.Pairwise.imp (fun h => Nat.ne_of_lt h) this

/-! ### Interaction: the row pointers built by `decode` -/

theorem setCounts_spec (shared : List Nat) (table : List (Nat × Nat)) (ia : List Nat)
    (hT : ∀ e ∈ table, e.1 < shared.length)
    (hx : ∀ e ∈ table, shared.getD e.1 0 + 1 < ia.length)
    (hd : (table.map fun e => shared.getD e.1 0).Nodup) :
    ∃ counts, setCounts shared table ia = some counts ∧ counts.length = ia.length ∧
      (∀ e ∈ table, counts[shared.getD e.1 0 + 1]? = some e.2) ∧
      (∀ y, (∀ e ∈ table, shared.getD e.1 0 + 1 ≠ y) → counts[y]? = ia[y]?) := by
  induction table generalizing ia with
  | nil => exact ⟨ia, rfl, rfl, fun e he => by simp at he, fun _ _ => rfl⟩
  | cons e0 tl ih =>
    obtain ⟨p, len⟩ := e0
    have hp : p < shared.length := hT (p, len) (by simp)
    have hsp : shared[p]? = some (shared.getD p 0) := by
      rw [List.getD_eq_getElem?_getD, List.getElem?_eq_getElem hp]; rfl
    have hlt : shared.getD p 0 + 1 < ia.length := hx (p, len) (by simp)
    have hd2 : (tl.map fun e => shared.getD e.1 0).Nodup := (List.nodup_cons.mp hd).2
    have hnotin : shared.getD p 0 ∉ tl.map fun e => shared.getD e.1 0 :=
      (List.nodup_cons.mp hd).1
    obtain ⟨counts, h1, hlen, hb1, hb2⟩ := ih (ia.set (shared.getD p 0 + 1) len)
      (fun e he => hT e (List.mem_cons_of_mem _ he))
      (fun e he => by rw [List.length_set]; exact hx e (List.mem_cons_of_mem _ he)) hd2
    have hapart : ∀ e ∈ tl, shared.getD e.1 0 + 1 ≠ shared.getD p 0 + 1 := by
      intro e he h
      apply hnotin
      rw [List.mem_map]
      exact ⟨e, he, by omega⟩
    refine ⟨counts, ?_, ?_, ?_, ?_⟩
    · simp only [setCounts, hsp, hlt, if_true, h1]
    · rw [hlen, List.length_set]
    · intro e he
      rcases List.mem_cons.mp he with rfl | he2
      · rw [hb2 _ hapart, List.getElem?_set_self hlt]
      · exact hb1 e he2
    · intro y hy
      rw [hb2 y (fun e he => hy e (List.mem_cons_of_mem _ he))]
      exact List.getElem?_set_ne (hy (p, len) (by simp))

theorem sum_take_set (l : List Nat) (k v j : Nat) (h : l[k]? = some 0) :
    ((l.set k v).take j).sum = (l.take j).sum + (if k < j then v else 0) := by
  induction l generalizing k j with
  | nil => simp at h
  | cons a tl ih =>
    cases j with
    | zero => simp
    | succ j =>
      cases k with
      | zero =>
        have ha : a = 0 := by simpa using h
        simp [ha]
        omega
      | succ k =>
        have hk : tl[k]? = some 0 := by simpa using h
        have := ih k j hk
        simp only [List.set_cons_succ, List.take_succ_cons, List.sum_cons, this]
        by_cases hkj : k < j
        · simp [hkj]; omega
        · simp [hkj]

theorem entriesBelow_cons (shared : List Nat) (e : Nat × Nat) (tl : List (Nat × Nat))
    (x : Nat) :
    entriesBelow shared (e :: tl) x =
      (if shared.getD e.1 0 < x then e.2 else 0) + entriesBelow shared tl x := by
  simp [entriesBelow]

theorem setCounts_sum (shared : List Nat) (table : List (Nat × Nat)) (ia counts : List Nat)
    (h : setCounts shared table ia = some counts)
    (hz : ∀ e ∈ table, ia[shared.getD e.1 0 + 1]? = some 0)
    (hd : (table.map fun e => shared.getD e.1 0).Nodup) (x : Nat) :
    (counts.take (x + 1)).sum = (ia.take (x + 1)).sum + entriesBelow shared table x := by
  induction table generalizing ia with
  | nil =>
    simp only [setCounts, Option.some.injEq] at h
    subst h
    simp [entriesBelow]
  | cons e0 tl ih =>
    obtain ⟨p, len⟩ := e0
    have hz0 := hz (p, len) (by simp)
    have hlt : shared.getD p 0 + 1 < ia.length := getElem?_some_lt _ _ _ hz0
    have hd2 : (tl.map fun e => shared.getD e.1 0).Nodup := (List.nodup_cons.mp hd).2
    have hnotin : shared.getD p 0 ∉ tl.map fun e => shared.getD e.1 0 :=
      (List.nodup_cons.mp hd).1
    simp only [setCounts] at h
    cases hsp : shared[p]? with
    | none => rw [hsp] at h; exact Option.noConfusion h
    | some x0 =>
      rw [hsp] at h
      have hx0 : shared.getD p 0 = x0 := by
        rw [List.getD_eq_getElem?_getD, hsp]; rfl
      rw [← hx0] at h
      simp only [hlt, if_true] at h
      have hz2 : ∀ e ∈ tl, (ia.set (shared.getD p 0 + 1) len)[shared.getD e.1 0 + 1]? =
          some 0 := by
        intro e he
        rw [List.getElem?_set_ne]
        · exact hz e (List.mem_cons_of_mem _ he)
        · intro heq
          apply hnotin
          rw [List.mem_map]
          exact ⟨e, he, by omega⟩
      rw [ih _ h hz2 hd2, sum_take_set ia _ len (x + 1) hz0, entriesBelow_cons]
      have e1 : (shared.getD p 0 + 1 < x + 1) = (shared.getD p 0 < x) := by
        apply propext; omega
      simp only [e1]
      omega

theorem partialSum_get (l : List Nat) (acc x : Nat) (hx : x < l.length) :
    (partialSum l acc)[x]? = some (acc + (l.take (x + 1)).sum) := by
  induction l generalizing acc x with
  | nil => simp at hx
  | cons a tl ih =>
    cases x with
    | zero => simp [partialSum]
    | succ k =>
      have := ih (acc + a) k (by simpa using hx)
      simp only [partialSum, List.getElem?_cons_succ, this, List.take_succ_cons,
        List.sum_cons]
      congr 1
      omega

theorem partialSum_length (l : List Nat) (acc : Nat) :
    (partialSum l acc).length = l.length := by
  induction l generalizing acc with
  | nil => rfl
  | cons a tl ih => simp [partialSum, ih]

theorem entriesBelow_mono (shared : List Nat) (table : List (Nat × Nat)) (x y : Nat)
    (hxy : x ≤ y) : entriesBelow shared table x ≤ entriesBelow shared table y := by
  induction table with
  | nil => simp [entriesBelow]
  | cons e tl ih =>
    rw [entriesBelow_cons, entriesBelow_cons]
    by_cases h1 : shared.getD e.1 0 < x
    · have h2 : shared.getD e.1 0 < y := by omega
      simp only [h1, h2, if_true]
      omega
    · by_cases h2 : shared.getD e.1 0 < y
      · simp only [h1, h2, if_true, if_false]
        omega
      · simp only [h1, h2, if_false]
        omega

theorem entriesBelow_step (shared : List Nat) (table : List (Nat × Nat)) (e : Nat × Nat)
    (he : e ∈ table) (x y : Nat) (hx : x ≤ shared.getD e.1 0) (hy : shared.getD e.1 0 < y) :
    entriesBelow shared table x + e.2 ≤ entriesBelow shared table y := by
  induction table with
  | nil => simp at he
  | cons e0 tl ih =>
    rw [entriesBelow_cons, entriesBelow_cons]
    rcases List.mem_cons.mp he with rfl | he2
    · have h1 : ¬ shared.getD e.1 0 < x := by omega
      have := entriesBelow_mono shared tl x y (by omega)
      simp only [h1, hy, if_true, if_false]
      omega
    · have := ih he2
      by_cases h1 : shared.getD e0.1 0 < x
      · have h2 : shared.getD e0.1 0 < y := by omega
        simp only [h1, h2, if_true]
        omega
      · by_cases h2 : shared.getD e0.1 0 < y
        · simp only [h1, h2, if_true, if_false]
          omega
        · simp only [h1, h2, if_false]
          omega

theorem entriesBelow_all (shared : List Nat) (table : List (Nat × Nat)) (x : Nat)
    (h : ∀ e ∈ table, shared.getD e.1 0 < x) :
    entriesBelow shared table x = (table.map Prod.snd).sum := by
  induction table with
  | nil => simp [entriesBelow]
  | cons e tl ih =>
    rw [entriesBelow_cons, ih (fun e2 he2 => h e2 (List.mem_cons_of_mem _ he2))]
    have h0 : shared.getD e.1 0 < x := h e (by simp)
    rw [if_pos h0]
    simp

theorem entriesBelow_succ_of_not_mem (shared : List Nat) (table : List (Nat × Nat)) (x : Nat)
    (h : ∀ e ∈ table, shared.getD e.1 0 ≠ x) :
    entriesBelow shared table (x + 1) = entriesBelow shared table x := by
  induction table with
  | nil => simp [entriesBelow]
  | cons e tl ih =>
    rw [entriesBelow_cons, entriesBelow_cons,
      ih (fun e2 he2 => h e2 (List.mem_cons_of_mem _ he2))]
    have := h e (by simp)
    have e1 : (shared.getD e.1 0 < x + 1) = (shared.getD e.1 0 < x) := by
      apply propext; omega
    simp only [e1]

theorem entriesBelow_succ_of_mem (shared : List Nat) (table : List (Nat × Nat))
    (e : Nat × Nat) (he : e ∈ table)
    (hd : (table.map fun e => shared.getD e.1 0).Nodup) :
    entriesBelow shared table (shared.getD e.1 0 + 1) =
      entriesBelow shared table (shared.getD e.1 0) + e.2 := by
  induction table with
  | nil => simp at he
  | cons e0 tl ih =>
    have hd2 : (tl.map fun e => shared.getD e.1 0).Nodup := (List.nodup_cons.mp hd).2
    have hnotin : shared.getD e0.1 0 ∉ tl.map fun e => shared.getD e.1 0 :=
      (List.nodup_cons.mp hd).1
    rw [entriesBelow_cons, entriesBelow_cons]
    rcases List.mem_cons.mp he with rfl | he2
    · have h1 : ∀ e2 ∈ tl, shared.getD e2.1 0 ≠ shared.getD e.1 0 := by
        intro e2 he2 heq
        apply hnotin
        rw [List.mem_map]
        exact ⟨e2, he2, heq⟩
      rw [entriesBelow_succ_of_not_mem shared tl _ h1]
      simp
      omega
    · rw [ih he2 hd2]
      have hne : shared.getD e0.1 0 ≠ shared.getD e.1 0 := by
        intro heq
        apply hnotin
        rw [List.mem_map]
        exact ⟨e, he2, heq.symm⟩
      have e1 : (shared.getD e0.1 0 < shared.getD e.1 0 + 1) =
          (shared.getD e0.1 0 < shared.getD e.1 0) := by
        apply propext; omega
      simp only [e1]
      omega

/-! ### Interaction: the rows filled by `decode` -/

theorem fillRun_spec {K : Type} (mapCol cols : List Nat) (vals : List K) (len pos m : Nat)
    (ja : List Nat) (a : List K) (h1 : pos + len ≤ ja.length) (h1a : pos + len ≤ a.length)
    (h2 : m + len ≤ cols.length) (h2a : m + len ≤ vals.length) :
    ∃ ja1 a1, fillRun mapCol cols vals len pos m ja a = some (ja1, a1) ∧
      ja1.length = ja.length ∧ a1.length = a.length ∧
      (∀ j, j < len →
        ja1[pos + j]? = (cols[m + j]?).map (fun c => mapCol.indexOf c) ∧
        a1[pos + j]? = vals[m + j]?) ∧
      (∀ y, ¬ (pos ≤ y ∧ y < pos + len) → ja1[y]? = ja[y]? ∧ a1[y]? = a[y]?) := by
  induction len generalizing pos m ja a with
  | zero =>
    exact ⟨ja, a, rfl, rfl, rfl, fun j hj => by omega, fun _ _ => ⟨rfl, rfl⟩⟩
  | succ len ih =>
    have hm1 : m < cols.length := by omega
    have hm2 : m < vals.length := by omega
    have hc : cols[m]? = some cols[m] := List.getElem?_eq_getElem hm1
    have hv : vals[m]? = some vals[m] := List.getElem?_eq_getElem hm2
    have hp1 : pos < ja.length := by omega
    have hp2 : pos < a.length := by omega
    obtain ⟨ja1, a1, hf, hl1, hl2, hin, hout⟩ := ih (pos + 1) (m + 1)
      (ja.set pos (mapCol.indexOf cols[m])) (a.set pos vals[m])
      (by rw [List.length_set]; omega) (by rw [List.length_set]; omega) (by omega) (by omega)
    refine ⟨ja1, a1, ?_, ?_, ?_, ?_, ?_⟩
    · simp only [fillRun, hc, hv, hp1, hp2, and_self, if_true, hf]
    · rw [hl1, List.length_set]
    · rw [hl2, List.length_set]
    · intro j hj
      cases j with
      | zero =>
        have := hout pos (by omega)
        rw [Nat.add_zero, Nat.add_zero, this.1, this.2, List.getElem?_set_self hp1,
          List.getElem?_set_self hp2, hc, hv]
        exact ⟨rfl, rfl⟩
      | succ k =>
        have := hin k (by omega)
        have e1 : pos + (k + 1) = pos + 1 + k := by omega
        have e2 : m + (k + 1) = m + 1 + k := by omega
        rw [e1, e2]
        exact this
    · intro y hy
      have := hout y (by omega)
      rw [this.1, this.2]
      have hne : pos ≠ y := by omega
      exact ⟨List.getElem?_set_ne hne, List.getElem?_set_ne hne⟩

theorem ranges_apart (shared : List Nat) (T : List (Nat × Nat)) (e f : Nat × Nat)
    (he : e ∈ T) (hf : f ∈ T) (hne : shared.getD e.1 0 ≠ shared.getD f.1 0) (y : Nat)
    (h1 : entriesBelow shared T (shared.getD e.1 0) ≤ y ∧
      y < entriesBelow shared T (shared.getD e.1 0) + e.2)
    (h2 : entriesBelow shared T (shared.getD f.1 0) ≤ y ∧
      y < entriesBelow shared T (shared.getD f.1 0) + f.2) : False := by
  rcases Nat.lt_or_gt_of_ne hne with h | h
  · have := entriesBelow_step shared T e he (shared.getD e.1 0) (shared.getD f.1 0)
      (Nat.le_refl _) h
    omega
  · have := entriesBelow_step shared T f hf (shared.getD f.1 0) (shared.getD e.1 0)
      (Nat.le_refl _) h
    omega

theorem runStart_cons_succ (e : Nat × Nat) (tl : List (Nat × Nat)) (i : Nat) :
    runStart (e :: tl) (i + 1) = e.2 + runStart tl i := by
  simp [runStart]

theorem fillRows_spec {K : Type} (shared ia mapCol cols : List Nat) (vals : List K)
    (T rest : List (Nat × Nat)) (m : Nat) (ja : List Nat) (a : List K)
    (hia : ∀ e ∈ rest,
      ia[shared.getD e.1 0]? = some (entriesBelow shared T (shared.getD e.1 0)))
    (hT : ∀ e ∈ rest, e.1 < shared.length) (hsub : ∀ e ∈ rest, e ∈ T)
    (hdr : (rest.map fun e => shared.getD e.1 0).Nodup)
    (hfit : ∀ e ∈ rest, entriesBelow shared T (shared.getD e.1 0) + e.2 ≤ ja.length)
    (hlen : ja.length = a.length)
    (hm : m + (rest.map Prod.snd).sum ≤ cols.length) (hcv : cols.length = vals.length) :
    ∃ ja1 a1, fillRows shared ia mapCol cols vals rest m ja a = some (ja1, a1) ∧
      ja1.length = ja.length ∧ a1.length = a.length ∧
      (∀ i e, rest[i]? = some e → ∀ j, j < e.2 →
        ja1[entriesBelow shared T (shared.getD e.1 0) + j]? =
          (cols[m + runStart rest i + j]?).map (fun c => mapCol.indexOf c) ∧
        a1[entriesBelow shared T (shared.getD e.1 0) + j]? = vals[m + runStart rest i + j]?) ∧
      (∀ y, (∀ e ∈ rest, ¬ (entriesBelow shared T (shared.getD e.1 0) ≤ y ∧
          y < entriesBelow shared T (shared.getD e.1 0) + e.2)) →
        ja1[y]? = ja[y]? ∧ a1[y]? = a[y]?) := by
  induction rest generalizing m ja a with
  | nil =>
    exact ⟨ja, a, rfl, rfl, rfl, fun i e h => by simp at h, fun _ _ => ⟨rfl, rfl⟩⟩
  | cons e0 tl ih =>
    obtain ⟨p, len⟩ := e0
    have hp : p < shared.length := hT (p, len) (by simp)
    have hsp : shared[p]? = some (shared.getD p 0) := by
      rw [List.getD_eq_getElem?_getD, List.getElem?_eq_getElem hp]; rfl
    have hpos := hia (p, len) (by simp)
    have hfit0 := hfit (p, len) (by simp)
    have hsum : ((p, len) :: tl).map Prod.snd = len :: tl.map Prod.snd := rfl
    rw [hsum, List.sum_cons] at hm
    obtain ⟨ja0, a0, hf0, hl0, hl0a, hin0, hout0⟩ := fillRun_spec mapCol cols vals len
      (entriesBelow shared T (shared.getD p 0)) m ja a hfit0 (by rw [← hlen]; exact hfit0)
      (by omega) (by omega)
    have hdr2 : (tl.map fun e => shared.getD e.1 0).Nodup := (List.nodup_cons.mp hdr).2
    have hnotin : shared.getD p 0 ∉ tl.map fun e => shared.getD e.1 0 :=
      (List.nodup_cons.mp hdr).1
    obtain ⟨ja1, a1, hf1, hl1, hl1a, hin1, hout1⟩ := ih (m + len) ja0 a0
      (fun e he => hia e (List.mem_cons_of_mem _ he))
      (fun e he => hT e (List.mem_cons_of_mem _ he))
      (fun e he => hsub e (List.mem_cons_of_mem _ he)) hdr2
      (fun e he => by rw [hl0]; exact hfit e (List.mem_cons_of_mem _ he))
      (by rw [hl0, hl0a]; exact hlen) (by omega)
    have hapart : ∀ e ∈ tl, shared.getD (p, len).1 0 ≠ shared.getD e.1 0 := by
      intro e he heq
      apply hnotin
      rw [List.mem_map]
      exact ⟨e, he, heq.symm⟩
    refine ⟨ja1, a1, ?_, ?_, ?_, ?_, ?_⟩
    · simp only [fillRows, hsp, hpos, hf0, hf1]
    · rw [hl1, hl0]
    · rw [hl1a, hl0a]
    · intro i e hi j hj
      cases i with
      | zero =>
        have he : (p, len) = e := by simpa using hi
        subst he
        have hframe := hout1 (entriesBelow shared T (shared.getD p 0) + j) (by
          intro e he hin
          exact ranges_apart shared T (p, len) e (hsub _ (by simp))
            (hsub e (List.mem_cons_of_mem _ he)) (hapart e he) _
            ⟨Nat.le_add_right _ j, Nat.add_lt_add_left hj _⟩ hin)
        have := hin0 j hj
        simp only [runStart, List.take_zero, List.map_nil, List.sum_nil, Nat.add_zero]
        rw [hframe.1, hframe.2]
        exact this
      | succ k =>
        have hk : tl[k]? = some e := by simpa using hi
        have := hin1 k e hk j hj
        rw [runStart_cons_succ]
        have e1 : m + (len + runStart tl k) + j = m + len + runStart tl k + j := by omega
        simp only at e1
        rw [e1]
        exact this
    · intro y hy
      have h1 := hout1 y (fun e he => hy e (List.mem_cons_of_mem _ he))
      have h0 := hout0 y (hy (p, len) (by simp))
      rw [h1.1, h1.2]
      exact h0

/-! ### Interaction: the header read by `decode` -/

theorem runTable_eq (n : Nat) (rows lens cols : List Nat) (hl : rows.length = lens.length)
    (is : List Nat) (his : ∀ i ∈ is, i < rows.length) :
    runTable (n :: (rows ++ cols)) lens is =
      some (is.map fun i => (rows.getD i 0, lens.getD i 0)) := by
  induction is with
  | nil => rfl
  | cons i rest ih =>
    have hi : i < rows.length := his i (by simp)
    have h1 : (n :: (rows ++ cols))[1 + i]? = some (rows.getD i 0) := by
      rw [Nat.add_comm, List.getElem?_cons_succ, List.getElem?_append_left hi,
        List.getD_eq_getElem?_getD, List.getElem?_eq_getElem hi]
      rfl
    have h2 : lens[i]? = some (lens.getD i 0) := by
      rw [List.getD_eq_getElem?_getD, List.getElem?_eq_getElem (by omega)]
      rfl
    simp only [runTable, h1, h2, ih (fun j hj => his j (List.mem_cons_of_mem _ hj)),
      List.map_cons]

theorem map_range_getD (R : List (Nat × Nat)) :
    ((List.range R.length).map fun i =>
      ((R.map Prod.fst).getD i 0, (R.map fun e => e.2 % 65536).getD i 0)) =
      R.map fun e => (e.1, e.2 % 65536) := by
  apply List.ext_getElem?
  intro i
  by_cases h : i < R.length
  · simp [List.getElem?_range, h, List.getD_eq_getElem?_getD, List.getElem?_eq_getElem h]
  · have h2 : R.length ≤ i := by omega
    rw [List.getElem?_eq_none (by simpa using h2), List.getElem?_eq_none (by simpa using h2)]

theorem map_mod_id (R : List (Nat × Nat)) (h : ∀ e ∈ R, e.2 < 65536) :
    (R.map fun e => (e.1, e.2 % 65536)) = R := by
  induction R with
  | nil => rfl
  | cons e tl ih =>
    have h0 := h e (by simp)
    rw [List.map_cons, ih (fun e2 he2 => h e2 (List.mem_cons_of_mem _ he2)),
      Nat.mod_eq_of_lt h0]

/-! ### Interaction: compact column ids -/

theorem mapColOf_prefix (cols seen : List Nat) : ∃ ext, mapColOf cols seen = seen ++ ext := by
  induction cols generalizing seen with
  | nil => exact ⟨[], by simp [mapColOf]⟩
  | cons c rest ih =>
    by_cases hc : c ∈ seen
    · obtain ⟨ext, h⟩ := ih seen
      exact ⟨ext, by simp [mapColOf, hc, h]⟩
    · obtain ⟨ext, h⟩ := ih (seen ++ [c])
      exact ⟨c :: ext, by simp [mapColOf, hc, h]⟩

theorem mapColOf_nodup (cols seen : List Nat) (hs : seen.Nodup) :
    (mapColOf cols seen).Nodup := by
  induction cols generalizing seen with
  | nil => simpa [mapColOf] using hs
  | cons c rest ih =>
    by_cases hc : c ∈ seen
    · simpa [mapColOf, hc] using ih seen hs
    · have : (seen ++ [c]).Nodup := by
        rw [List.nodup_append]
        refine ⟨hs, by simp, ?_⟩
        intro a ha hb
        have : a = c := by simpa using hb
        exact hc (this ▸ ha)
      simpa [mapColOf, hc] using ih (seen ++ [c]) this

theorem mapColOf_mem (cols seen : List Nat) (c : Nat) :
    c ∈ mapColOf cols seen ↔ c ∈ seen ∨ c ∈ cols := by
  induction cols generalizing seen with
  | nil => simp [mapColOf]
  | cons d rest ih =>
    by_cases hd : d ∈ seen
    · simp only [mapColOf, hd, if_true, ih, List.mem_cons]
      constructor
      · rintro (h | h)
        · exact Or.inl h
        · exact Or.inr (Or.inr h)
      · rintro (h | h | h)
        · exact Or.inl h
        · exact Or.inl (h ▸ hd)
        · exact Or.inr h
    · simp only [mapColOf, hd, if_false, ih, List.mem_append, List.mem_singleton,
        List.mem_cons]
      tauto

theorem mapColOf_order (cols seen : List Nat) (c1 c2 : Nat) (h1 : c1 ∈ cols)
    (h2 : c2 ∈ cols) (n1 : c1 ∉ seen) (n2 : c2 ∉ seen)
    (hlt : cols.indexOf c1 < cols.indexOf c2) :
    (mapColOf cols seen).indexOf c1 < (mapColOf cols seen).indexOf c2 := by
  induction cols generalizing seen with
  | nil => simp at h1
  | cons d rest ih =>
    by_cases hd : d ∈ seen
    · have hd1 : d ≠ c1 := fun e => n1 (e ▸ hd)
      have hd2 : d ≠ c2 := fun e => n2 (e ▸ hd)
      rw [List.indexOf_cons_ne _ hd1, List.indexOf_cons_ne _ hd2] at hlt
      have m1 : c1 ∈ rest := by
        rcases List.mem_cons.mp h1 with h | h
        · exact absurd h.symm hd1
        · exact h
      have m2 : c2 ∈ rest := by
        rcases List.mem_cons.mp h2 with h | h
        · exact absurd h.symm hd2
        · exact h
      simp only [mapColOf, hd, if_true]
      exact ih seen m1 m2 n1 n2 (by omega)
    · simp only [mapColOf, hd, if_false]
      by_cases e1 : d = c1
      · subst e1
        have hd2 : d ≠ c2 := by
          intro e
          subst e
          omega
        obtain ⟨ext, hext⟩ := mapColOf_prefix rest (seen ++ [d])
        rw [hext]
        have i1 : (seen ++ [d] ++ ext).indexOf d = seen.length := by
          rw [List.indexOf_append_of_mem (by simp), List.indexOf_append_of_not_mem hd,
            List.indexOf_cons_self]
          rfl
        have nm2 : c2 ∉ seen ++ [d] := by
          simp only [List.mem_append, List.mem_singleton, not_or]
          exact ⟨n2, fun e => hd2 e.symm⟩
        have i2 : (seen ++ [d] ++ ext).indexOf c2 = (seen ++ [d]).length + ext.indexOf c2 :=
          List.indexOf_append_of_not_mem nm2
        rw [i1, i2, List.length_append]
        simp
        omega
      · have hd2 : d ≠ c2 := by
          intro e
          subst e
          rw [List.indexOf_cons_self] at hlt
          omega
        rw [List.indexOf_cons_ne _ e1, List.indexOf_cons_ne _ hd2] at hlt
        have m1 : c1 ∈ rest := by
          rcases List.mem_cons.mp h1 with h | h
          · exact absurd h.symm e1
          · exact h
        have m2 : c2 ∈ rest := by
          rcases List.mem_cons.mp h2 with h | h
          · exact absurd h.symm hd2
          · exact h
        apply ih (seen ++ [d]) m1 m2
        · simp only [List.mem_append, List.mem_singleton, not_or]
          exact ⟨n1, fun e => e1 e.symm⟩
        · simp only [List.mem_append, List.mem_singleton, not_or]
          exact ⟨n2, fun e => hd2 e.symm⟩
        · omega

theorem runStart_le (R : List (Nat × Nat)) (i : Nat) (e : Nat × Nat) (h : R[i]? = some e) :
    runStart R i + e.2 ≤ (R.map Prod.snd).sum := by
  induction R generalizing i with
  | nil => simp at h
  | cons e0 tl ih =>
    cases i with
    | zero =>
      have : e0 = e := by simpa using h
      subst this
      simp [runStart]
    | succ k =>
      have hk : tl[k]? = some e := by simpa using h
      have := ih k hk
      rw [runStart_cons_succ]
      simp only [List.map_cons, List.sum_cons]
      omega

theorem targets_nodup (shared : List Nat) (R : List (Nat × Nat)) (hs : shared.Nodup)
    (hR : (R.map Prod.fst).Nodup) (hT : ∀ e ∈ R, e.1 < shared.length) :
    (R.map fun e => shared.getD e.1 0).Nodup := by
  have h1 : (R.map fun e => shared.getD e.1 0) =
      (R.map Prod.fst).map (fun p => shared.getD p 0) := by
    rw [List.map_map]; rfl
  rw [h1]
  apply List.Nodup.map_on _ hR
  intro p hp q hq hpq
  rw [List.mem_map] at hp hq
  obtain ⟨e, he, rfl⟩ := hp
  obtain ⟨f, hf, rfl⟩ := hq
  have h1 := hT e he
  have h2 := hT f hf
  rw [List.getD_eq_getElem?_getD, List.getD_eq_getElem?_getD,
    List.getElem?_eq_getElem h1, List.getElem?_eq_getElem h2] at hpq
  exact (List.Nodup.getElem_inj_iff hs).mp hpq

theorem getD_mem_of_lt (shared : List Nat) (p : Nat) (hp : p < shared.length) :
    shared.getD p 0 ∈ shared := by
  rw [List.getD_eq_getElem?_getD, List.getElem?_eq_getElem hp]
  exact List.getElem_mem hp

/-! ### Interaction: decoding what was encoded -/

theorem decode_rows (dof : Nat) (shared : List Nat) (R : List (Nat × Nat))
    (hs : shared.Nodup) (hR : (R.map Prod.fst).Nodup) (hT : ∀ e ∈ R, e.1 < shared.length)
    (hdof : ∀ x ∈ shared, x < dof) :
    ∃ counts, setCounts shared R (List.replicate (dof + 1) 0) = some counts ∧
      partialSum counts 0 = (List.range (dof + 1)).map (entriesBelow shared R) := by
  have hd := targets_nodup shared R hs hR hT
  have hx : ∀ e ∈ R, shared.getD e.1 0 + 1 < (List.replicate (dof + 1) 0).length := by
    intro e he
    have := hdof _ (getD_mem_of_lt shared e.1 (hT e he))
    rw [List.length_replicate]
    omega
  obtain ⟨counts, hc, hlen, _, _⟩ := setCounts_spec shared R _ hT hx hd
  refine ⟨counts, hc, ?_⟩
  rw [List.length_replicate] at hlen
  apply List.ext_getElem?
  intro x
  by_cases hxl : x < dof + 1
  · rw [partialSum_get counts 0 x (by omega)]
    have hz : ∀ e ∈ R, (List.replicate (dof + 1) 0)[shared.getD e.1 0 + 1]? = some 0 := by
      intro e he
      have := hx e he
      rw [List.length_replicate] at this
      rw [List.getElem?_replicate, if_pos this]
    rw [setCounts_sum shared R _ counts hc hz hd x]
    have h0 : ((List.replicate (dof + 1) 0).take (x + 1)).sum = 0 := by
      rw [List.take_replicate]
      simp
    rw [h0, List.getElem?_map, List.getElem?_range hxl]
    simp
  · rw [List.getElem?_eq_none (by rw [partialSum_length]; omega),
      List.getElem?_eq_none (by simp; omega)]

/-- Interaction wire round trip while the regions of the payload stay apart (integer regions
and entry count below 2^24): for a lexicographically sorted stream of triples whose
runs of equal row position are shorter than 65536, received by a process whose shared-index
list for the sender has no repeated index (row positions being positions of that list and
its indices lying below `dof`), decoding the encoded payload succeeds without reporting a
mismatch and gives a block with `dof` rows, one column per distinct column id and as many
entries as the stream; its row pointers are the prefix sums of the run lengths, ending at
the entry count; the row at index `shared[p]` holds the entries of the run of row position
`p` in stream order, with their values and with compact column ids; a row that is no
`shared[p]` of a run is empty; compact ids are below the column count, distinct for distinct
column ids, and increase with the first occurrence in the stream. -/
theorem decode_encode {K : Type} (send : List (Nat × Nat × Nat)) (val : Nat → K) (dof : Nat)
    (shared : List Nat) (junkJ : Nat) (junkA : K)
    (hsorted : send.Sorted tripleLe)
    (hrun : ∀ e ∈ runsOf send, e.2 < 65536)
    (hnodup : shared.Nodup)
    (hpos : ∀ t ∈ send, t.1 < shared.length)
    (hdof : ∀ x ∈ shared, x < dof)
    (_hfit : regionBytes (runCount send) send.length + send.length < 16777216) :
    ∃ b, decode dof shared junkJ junkA (encode send val) = some (b, false) ∧
      b.n = dof ∧ b.m = ((send.map fun t => t.2.1).dedup).length ∧ b.nnz = send.length ∧
      b.ja.length = send.length ∧ b.a.length = send.length ∧
      b.ia = (List.range (dof + 1)).map (entriesBelow shared (runsOf send)) ∧
      b.ia.getD 0 0 = 0 ∧ b.ia.getD dof 0 = send.length ∧
      (∀ i e, (runsOf send)[i]? = some e →
        e.1 < shared.length ∧ shared.getD e.1 0 < dof ∧
        b.ia.getD (shared.getD e.1 0 + 1) 0 = b.ia.getD (shared.getD e.1 0) 0 + e.2 ∧
        blockRow b (shared.getD e.1 0) =
          ((send.drop (runStart (runsOf send) i)).take e.2).map fun t =>
            ((mapColOf (send.map fun t => t.2.1) []).indexOf t.2.1, val t.2.2)) ∧
      (∀ x, x < dof → (∀ e ∈ runsOf send, shared.getD e.1 0 ≠ x) →
        b.ia.getD (x + 1) 0 = b.ia.getD x 0 ∧ blockRow b x = []) ∧
      (∀ c ∈ send.map fun t => t.2.1,
        (mapColOf (send.map fun t => t.2.1) []).indexOf c < b.m) ∧
      (∀ c1 ∈ send.map fun t => t.2.1, ∀ c2 ∈ send.map fun t => t.2.1,
        (mapColOf (send.map fun t => t.2.1) []).indexOf c1 =
          (mapColOf (send.map fun t => t.2.1) []).indexOf c2 → c1 = c2) ∧
      (∀ c1 ∈ send.map fun t => t.2.1, ∀ c2 ∈ send.map fun t => t.2.1,
        (send.map fun t => t.2.1).indexOf c1 < (send.map fun t => t.2.1).indexOf c2 →
        (mapColOf (send.map fun t => t.2.1) []).indexOf c1 <
          (mapColOf (send.map fun t => t.2.1) []).indexOf c2) := by
  -- notation for the parts of the payload
  obtain ⟨hruns, hwia, hints, hwa⟩ := encode_eq send val
  generalize hRdef : runsOf send = R at *
  generalize hcdef : (send.map fun t => t.2.1) = cols at *
  generalize hvdef : (send.map fun u => val u.2.2) = vals at *
  have hclen : cols.length = send.length := by rw [← hcdef, List.length_map]
  have hvlen : vals.length = send.length := by rw [← hvdef, List.length_map]
  have hRsum : (R.map Prod.snd).sum = send.length := by rw [← hRdef]; exact runsOf_sum send
  have hRnodup : (R.map Prod.fst).Nodup := by rw [← hRdef]; exact runsOf_nodup send hsorted
  have hT : ∀ e ∈ R, e.1 < shared.length := by
    intro e he
    have : e.1 ∈ (runsOf send).map Prod.fst := by
      rw [hRdef, List.mem_map]; exact ⟨e, he, rfl⟩
    obtain ⟨t, ht, hte⟩ := runsOf_rows send e.1 this
    rw [← hte]
    exact hpos t ht
  have hxdof : ∀ e ∈ R, shared.getD e.1 0 < dof :=
    fun e he => hdof _ (getD_mem_of_lt shared e.1 (hT e he))
  have hd := targets_nodup shared R hnodup hRnodup hT
  -- the header
  have hnnz : (encode send val).ints[0]? = some send.length := by rw [hints]; simp
  have hcols : ((encode send val).ints.drop (1 + (encode send val).runs)).take send.length =
      cols := by
    rw [hints, hruns, Nat.add_comm, List.drop_succ_cons,
      List.drop_left' (by rw [List.length_map]), ← hclen, List.take_length]
  have htable : runTable (encode send val).ints (encode send val).ia
      (List.range (encode send val).runs) = some R := by
    rw [hints, hwia, hruns,
      runTable_eq send.length (R.map Prod.fst) (R.map fun e => e.2 % 65536) cols (by simp)
        (List.range R.length) (fun i hi => by simpa using hi),
      map_range_getD, map_mod_id R hrun]
  -- the row pointers
  obtain ⟨counts, hcounts, hia⟩ := decode_rows dof shared R hnodup hRnodup hT hdof
  have hiaget : ∀ x, x ≤ dof →
      ((List.range (dof + 1)).map (entriesBelow shared R))[x]? =
        some (entriesBelow shared R x) := by
    intro x hx
    rw [List.getElem?_map, List.getElem?_range (by omega)]
    rfl
  have hiagetD : ∀ x, x ≤ dof →
      ((List.range (dof + 1)).map (entriesBelow shared R)).getD x 0 =
        entriesBelow shared R x := by
    intro x hx
    rw [List.getD_eq_getElem?_getD, hiaget x hx]
    rfl
  have htotal : entriesBelow shared R dof = send.length := by
    rw [entriesBelow_all shared R dof hxdof, hRsum]
  -- the rows
  obtain ⟨ja1, a1, hfill, hl1, hl1a, hin, _⟩ := fillRows_spec shared
    ((List.range (dof + 1)).map (entriesBelow shared R)) (mapColOf cols []) cols vals R R 0
    (List.replicate send.length junkJ) (List.replicate send.length junkA)
    (fun e he => hiaget _ (Nat.le_of_lt (hxdof e he))) hT (fun e he => he) hd
    (fun e he => by
      have := entriesBelow_step shared R e he (shared.getD e.1 0) dof (Nat.le_refl _)
        (hxdof e he)
      rw [List.length_replicate]
      omega)
    (by simp) (by omega) (by omega)
  rw [List.length_replicate] at hl1 hl1a
  have hmc : (mapColOf cols []).Nodup := mapColOf_nodup cols [] List.nodup_nil
  have hmcmem : ∀ c, c ∈ mapColOf cols [] ↔ c ∈ cols := by
    intro c
    rw [mapColOf_mem]
    simp
  have hmclen : (mapColOf cols []).length = cols.dedup.length := by
    apply List.Perm.length_eq
    rw [List.perm_ext_iff_of_nodup hmc (List.nodup_dedup cols)]
    intro c
    rw [hmcmem, List.mem_dedup]
  refine ⟨{ n := dof, m := (mapColOf cols []).length, nnz := send.length,
            ia := (List.range (dof + 1)).map (entriesBelow shared R), ja := ja1, a := a1 },
    ?_, rfl, hmclen, rfl, hl1, hl1a, rfl, ?_, ?_, ?_, ?_, ?_, ?_, ?_⟩
  · have hnot : ¬ (cols.length < send.length) := by omega
    simp only [decode, hnnz, hcols, hnot, if_false, htable, hcounts, hia, hwa, hfill,
      hiagetD dof (Nat.le_refl _), htotal, ne_eq, not_true_eq_false, decide_False]
  · show ((List.range (dof + 1)).map (entriesBelow shared R)).getD 0 0 = 0
    rw [hiagetD 0 (Nat.zero_le _)]
    have : ∀ (T : List (Nat × Nat)), entriesBelow shared T 0 = 0 := by
      intro T
      induction T with
      | nil => rfl
      | cons e tl ih => rw [entriesBelow_cons, ih]; simp
    exact this R
  · show ((List.range (dof + 1)).map (entriesBelow shared R)).getD dof 0 = send.length
    rw [hiagetD dof (Nat.le_refl _), htotal]
  · intro i e hie
    have he : e ∈ R := List.getElem?_mem hie
    have hx := hxdof e he
    have hstep := entriesBelow_succ_of_mem shared R e he hd
    refine ⟨hT e he, hx, ?_, ?_⟩
    · show ((List.range (dof + 1)).map (entriesBelow shared R)).getD (shared.getD e.1 0 + 1) 0 =
        ((List.range (dof + 1)).map (entriesBelow shared R)).getD (shared.getD e.1 0) 0 + e.2
      rw [hiagetD _ (by omega), hiagetD _ (by omega), hstep]
    · show ((ja1.zip a1).drop (((List.range (dof + 1)).map (entriesBelow shared R)).getD
          (shared.getD e.1 0) 0)).take
          (((List.range (dof + 1)).map (entriesBelow shared R)).getD (shared.getD e.1 0 + 1) 0 -
            ((List.range (dof + 1)).map (entriesBelow shared R)).getD (shared.getD e.1 0) 0) = _
      rw [hiagetD _ (by omega), hiagetD _ (by omega), hstep]
      have e0 : entriesBelow shared R (shared.getD e.1 0) + e.2 -
          entriesBelow shared R (shared.getD e.1 0) = e.2 := by omega
      rw [e0]
      have hbound := runStart_le R i e hie
      apply List.ext_getElem?
      intro j
      by_cases hj : j < e.2
      · have hjs : runStart R i + j < send.length := by omega
        rw [List.getElem?_take, if_pos hj, List.getElem?_drop, List.getElem?_map,
          List.getElem?_take, if_pos hj, List.getElem?_drop, List.getElem?_eq_getElem hjs]
        simp only [Option.map_some']
        rw [List.getElem?_zip_eq_some]
        obtain ⟨h1, h2⟩ := hin i e hie j hj
        simp only [Nat.zero_add] at h1 h2
        constructor
        · rw [h1]
          have : cols[runStart R i + j]? = some (send[runStart R i + j]).2.1 := by
            rw [← hcdef, List.getElem?_map, List.getElem?_eq_getElem hjs]
            rfl
          rw [this]
          rfl
        · rw [h2]
          rw [← hvdef, List.getElem?_map, List.getElem?_eq_getElem hjs]
          rfl
      · rw [List.getElem?_take, if_neg hj, List.getElem?_map, List.getElem?_take, if_neg hj]
        rfl
  · intro x hx hne
    have hstep := entriesBelow_succ_of_not_mem shared R x hne
    constructor
    · show ((List.range (dof + 1)).map (entriesBelow shared R)).getD (x + 1) 0 =
        ((List.range (dof + 1)).map (entriesBelow shared R)).getD x 0
      rw [hiagetD _ (by omega), hiagetD _ (by omega), hstep]
    · show ((ja1.zip a1).drop (((List.range (dof + 1)).map (entriesBelow shared R)).getD x 0)).take
          (((List.range (dof + 1)).map (entriesBelow shared R)).getD (x + 1) 0 -
            ((List.range (dof + 1)).map (entriesBelow shared R)).getD x 0) = []
      rw [hiagetD _ (by omega), hiagetD _ (by omega), hstep, Nat.sub_self, List.take_zero]
  · intro c hc
    exact List.indexOf_lt_length.mpr ((hmcmem c).mpr hc)
  · intro c1 h1 c2 h2 heq
    have m1 := (hmcmem c1).mpr h1
    have m2 := (hmcmem c2).mpr h2
    have l1 := List.indexOf_lt_length.mpr m1
    have l2 := List.indexOf_lt_length.mpr m2
    have g1 : (mapColOf cols [])[(mapColOf cols []).indexOf c1] = c1 := List.getElem_indexOf l1
    have g2 : (mapColOf cols [])[(mapColOf cols []).indexOf c2] = c2 := List.getElem_indexOf l2
    rw [← g1, ← g2]
    simp only [heq]
  · intro c1 h1 c2 h2 hlt
    exact mapColOf_order cols [] c1 c2 h1 h2 (by simp) (by simp) hlt

/-- The round trip on `sampleSend`, decoded by a process with 6 unknowns whose shared indices
with the sender are 4, 1, 5, 0. -/
theorem decode_encode_sample :
    ∃ b, decode 6 [4, 1, 5, 0] 0 0 (encode sampleSend sampleValue) = some (b, false) ∧
      b.n = 6 ∧ b.nnz = sampleSend.length ∧
      b.ia = (List.range (6 + 1)).map (entriesBelow [4, 1, 5, 0] (runsOf sampleSend)) := by
  obtain ⟨b, h1, h2, _, h4, _, _, h7, _⟩ :=
    decode_encode sampleSend sampleValue 6 [4, 1, 5, 0] 0 0 (by decide) (by decide)
      (by decide) (by decide) (by decide) (by decide)
  exact ⟨b, h1, h2, h4, h7⟩

/-- The block decoded from `sampleSend`: rows 0, 4 and 5 hold 1, 2 and 3 entries. -/
theorem decode_sample :
    (decode 6 [4, 1, 5, 0] 0 0 (encode sampleSend sampleValue)).map
        (fun r => (blockData [r.1], r.2)) =
      some ([(6, 4, 6, [0, 1, 1, 1, 1, 3, 6], [3, 0, 1, 2, 0, 1],
        [105, 100, 101, 103, 102, 104])], false) := by
  rfl

/-! ### Degenerate and repeated halo exchange, message tags -/

theorem initialise_zero {K : Type} (a : MatrixCSR K) (o : List Nat) (r : List (List Nat))
    (m : vectorNeighbor) (hm : buildMap o r = some m) (h0 : sharedCount m = 0) :
    initialise a o r =
      some { _rbuff := [], _sbuff := [], _dof := a._n, _map := m, _a := a, arena := 0 } := by
  unfold initialise
  rw [hm]
  simp [h0]

theorem exchangeLookups_empty {K : Type} (s : Subdomain K) (hr : s._rbuff = [])
    (hs : s._sbuff = []) :
    exchangeLookups s = List.replicate s._map.length (none, none) := by
  unfold exchangeLookups
  rw [hr, hs]
  apply List.ext_getElem
  · simp
  · intro i h1 h2
    simp

theorem lone_exchange (mem inp : Nat → Int) (recvMsg : Nat → Option (List Int)) :
    initialise pairMatrix [] [] = some loneSub ∧ exchangeLookups loneSub = [] ∧
      exchange loneSub recvMsg [] mem inp = some (mem, inp) :=
  ⟨rfl, rfl, rfl⟩

/-- C11, at two ranks that list each other with an empty set of shared indices: `initialize`
allocates no arena and hands out no slice, and `exchange` returns with the vector as it was,
but the reads `_rbuff[0]` and `_sbuff[0]` of its first loop are past the end of the two empty
vectors. -/
theorem exchange_hollow_lookups :
    initialise pairMatrix [1] [[]] = hollowSubs[0]? ∧
    initialise pairMatrix [0] [[]] = hollowSubs[1]? ∧
    (∀ s ∈ hollowSubs, s.arena = 0 ∧ s._rbuff = [] ∧ s._sbuff = []) ∧
    (∀ mems ins : Nat → Nat → Int, ∀ p, p < 2 →
      exchangeAt hollowSubs mems ins [0] p = some (mems p, ins p)) ∧
    hollowSubs.map exchangeLookups = [[(none, none)], [(none, none)]] := by
  refine ⟨rfl, rfl, ?_, ?_, rfl⟩
  · intro s hs
    simp only [hollowSubs, List.mem_cons, List.mem_singleton, List.not_mem_nil, or_false] at hs
    rcases hs with rfl | rfl <;> exact ⟨rfl, rfl, rfl⟩
  · intro mems ins p hp
    interval_cases p <;> rfl

/-- C14: in the two-process scenario (values 1 and 2 at the shared unknown) a first `exchange`
leaves 3 on both ranks and a second one, applied to that result, leaves 6. -/
theorem exchange_twice :
    ∃ m1 x1 m2 x2,
      exchangeAll [scenarioA, scenarioB] (fun _ _ => 0) scenarioIn (fun _ => [0]) =
        some (m1, x1) ∧
      exchangeAll [scenarioA, scenarioB] m1 x1 (fun _ => [0]) = some (m2, x2) ∧
      scenarioIn 0 3 = 1 ∧ scenarioIn 1 0 = 2 ∧
      x1 0 3 = 3 ∧ x1 1 0 = 3 ∧ x2 0 3 = 6 ∧ x2 1 0 = 6 ∧ x2 ≠ x1 := by
  refine ⟨_, _, _, _, rfl, rfl, rfl, rfl, rfl, rfl, rfl, rfl, ?_⟩
  intro h
  have h2 := congrFun (congrFun h 0) 3
  revert h2
  decide

/-- C13, the collision: the size messages of `interaction` and the messages of
`globalMapping` carry the same tag, so the four tags are not pairwise distinct. -/
theorem tags_collide :
    tagInteractionSize = tagGlobalMapping ∧ ¬ protocolTags.Nodup := by
  constructor
  · rfl
  · decide

/-- C13, amended: the tags are the constants 0, 10, 100 and 10; `exchange` and `recvBuffer`
use the same one, the tags of halo exchange, size negotiation and payload are pairwise
distinct, and the tag of the numbering messages differs from those of halo exchange and
payload. -/
theorem tags_fixed :
    protocolTags = [0, 10, 100, 10] ∧ tagRecvBuffer = tagExchange ∧
    [tagExchange, tagInteractionSize, tagInteractionPayload].Nodup ∧
    [tagExchange, tagInteractionPayload, tagGlobalMapping].Nodup := by
  refine ⟨rfl, rfl, ?_, ?_⟩ <;> decide

/-! ### Global numbering: documented bounds and the counter chain -/

/-- C12, on the two-process scenario with both bases: per rank, the lowest id of the local
unknowns, `start`, the highest id of the local unknowns, `end`, and `global`.  On rank 1
`start` is not the lowest id, and on both ranks `end` is one more than the highest id. -/
theorem globalMapping_documented_bounds :
    (globalMapping scenarioProcs false (fun _ _ => 0)).map
        (fun r => r.map fun m => (m.num.min?, m.start, m.num.max?, m.finish, m.global)) =
      some [(some 0, 0, some 3, 4, 7), (some 3, 4, some 6, 7, 7)] ∧
    (globalMapping scenarioProcs true (fun _ _ => 0)).map
        (fun r => r.map fun m => (m.num.min?, m.start, m.num.max?, m.finish, m.global)) =
      some [(some 1, 1, some 4, 5, 7), (some 4, 5, some 7, 8, 7)] := by
  constructor <;> rfl

/-- C18, the three shapes of neighbour set: with rank `r + 1` among the neighbours
(`scenarioProcs`) and with higher-rank neighbours that skip it (`gapProcs`) every rank starts
where the rank before ended; with no higher-rank neighbour (`chainProcs`, rank 1) line 453
reads `_map[between]` past the end and rank 1 delivers nothing to rank 2. -/
theorem globalMapping_counter_chain :
    (runDown scenarioProcs false (fun _ _ => 0) 2).map
        (fun l => l.map fun st => (st.start, st.finish)) = some [(0, 4), (4, 7)] ∧
    (runDown gapProcs false (fun _ _ => 0) 3).map
        (fun l => l.map fun st => (st.start, st.finish)) = some [(0, 2), (2, 4), (4, 4)] ∧
    (runDown chainProcs false (fun _ _ => 0) 1).map
        (fun l => l.map fun st => (st.start, st.finish)) = some [(0, 2)] ∧
    (chainProcs[1]?).map (fun p => p.sub._map[betweenOf p.sub._map 1]?) = some none ∧
    (runDown chainProcs false (fun _ _ => 0) 2).map
        (fun l => l.map fun st => (st.start, st.finish)) = none := by
  refine ⟨rfl, rfl, rfl, rfl, rfl⟩


/-! ### Global numbering: the local assignment -/

theorem rowLoop_append {K : Type} (isF : Bool) (A : MatrixCSR K) (fast : List (Nat × Nat))
    (r1 r2 : List Nat) (k : Nat) :
    rowLoop isF A fast (r1 ++ r2) k =
      rowLoop isF A fast r1 k ++ rowLoop isF A fast r2 (itRowLoop fast r1 k) := by
  induction r1 generalizing k with
  | nil => rfl
  | cons i rest ih =>
    rw [List.cons_append]
    simp only [rowLoop, itRowLoop]
    split
    · rw [ih, List.append_assoc]
    · split
      · rw [ih, List.append_assoc]
      · rw [ih, List.append_assoc]

theorem rowLoop_range {K : Type} (isF : Bool) (A : MatrixCSR K) (fast : List (Nat × Nat))
    (n : Nat) :
    rowLoop isF A fast (List.range n) 0 = (List.range n).flatMap (rowEmit isF A fast) := by
  induction n with
  | zero => rfl
  | succ n ih =>
    rw [List.range_succ, rowLoop_append, ih, List.flatMap_append]
    simp [rowEmit]

theorem itRowLoop_append (fast : List (Nat × Nat)) (r1 r2 : List Nat) (k : Nat) :
    itRowLoop fast (r1 ++ r2) k = itRowLoop fast r2 (itRowLoop fast r1 k) := by
  induction r1 generalizing k with
  | nil => rfl
  | cons i rest ih =>
    rw [List.cons_append]
    simp only [itRowLoop]
    split
    · rw [ih]
    · split <;> rw [ih]

theorem fastOf_mem (shared : List Nat) (e : Nat × Nat) :
    e ∈ fastOf shared ↔ shared[e.2]? = some e.1 := by
  unfold fastOf
  rw [(List.perm_insertionSort _ _).mem_iff, List.mem_map]
  constructor
  · rintro ⟨x, hx, rfl⟩
    exact List.mem_enum_iff_getElem?.mp hx
  · intro h
    exact ⟨(e.2, e.1), List.mem_enum_iff_getElem?.mpr h, rfl⟩

theorem fastOf_strict (shared : List Nat) (hnd : shared.Nodup) :
    (fastOf shared).Pairwise fun x y => x.1 < y.1 := by
  have hp : (fastOf shared).Perm (shared.enum.map fun e => (e.2, e.1)) :=
    List.perm_insertionSort _ _
  have hfst : ((fastOf shared).map Prod.fst).Nodup := by
    have h1 := hp.map Prod.fst
    rw [List.map_map] at h1
    have h2 : (List.map (Prod.fst ∘ fun e : Nat × Nat => (e.2, e.1)) shared.enum) = shared := by
      have : (Prod.fst ∘ fun e : Nat × Nat => (e.2, e.1)) = Prod.snd := rfl
      rw [this, List.enum_map_snd]
    rw [h2] at h1
    exact h1.nodup_iff.mpr hnd
  have hne : (fastOf shared).Pairwise fun x y => x.1 ≠ y.1 := List.pairwise_map.mp hfst
  have hs : (fastOf shared).Pairwise pairLe := List.sorted_insertionSort pairLe _
  refine List.Pairwise.imp₂ ?_ hs hne
  intro a b hab hn
  unfold pairLe at hab
  rcases hab with h | ⟨h, _⟩
  · exact h
  · exact absurd h hn

theorem fastOf_indexOf (shared : List Nat) (c : Nat) (hc : c ∈ shared) :
    (c, shared.indexOf c) ∈ fastOf shared := by
  rw [fastOf_mem]
  have h := List.indexOf_lt_length.mpr hc
  rw [List.getElem?_eq_getElem h, List.getElem_indexOf h]

theorem fastOf_pos (shared : List Nat) (hnd : shared.Nodup) (e : Nat × Nat)
    (he : e ∈ fastOf shared) : e.1 ∈ shared ∧ e.2 = shared.indexOf e.1 := by
  rw [fastOf_mem] at he
  have hlt := getElem?_some_lt _ _ _ he
  have hv : shared[e.2] = e.1 := by
    rw [List.getElem?_eq_getElem hlt] at he
    exact Option.some.inj he
  constructor
  · rw [← hv]; exact List.getElem_mem _
  · rw [← hv, List.indexOf_getElem hnd]

theorem lowerBound_drop (fast : List (Nat × Nat)) (start c : Nat) :
    fast.drop (lowerBound fast start c) =
      (fast.drop start).dropWhile fun e => decide (e.1 < c) := by
  unfold lowerBound
  rw [← List.drop_drop]
  calc (fast.drop start).drop ((fast.drop start).takeWhile fun e => decide (e.1 < c)).length
      = (((fast.drop start).takeWhile fun e => decide (e.1 < c)) ++
          ((fast.drop start).dropWhile fun e => decide (e.1 < c))).drop
            ((fast.drop start).takeWhile fun e => decide (e.1 < c)).length := by
        rw [List.takeWhile_append_dropWhile]
    _ = (fast.drop start).dropWhile fun e => decide (e.1 < c) := List.drop_left' rfl

theorem lowerBound_take (fast : List (Nat × Nat)) (start c : Nat)
    (hinv : ∀ e ∈ fast.take start, e.1 < c) :
    ∀ e ∈ fast.take (lowerBound fast start c), e.1 < c := by
  intro e he
  unfold lowerBound at he
  rw [List.take_add, List.mem_append] at he
  rcases he with he | he
  · exact hinv e he
  · have hpre := List.takeWhile_prefix (fun e : Nat × Nat => decide (e.1 < c))
      (l := fast.drop start)
    rw [List.prefix_iff_eq_take] at hpre
    rw [← hpre] at he
    have := List.mem_takeWhile_imp he
    simpa using this

theorem lowerBound_get (fast : List (Nat × Nat)) (start c : Nat) :
    fast[lowerBound fast start c]? =
      ((fast.drop start).dropWhile fun e => decide (e.1 < c)).head? := by
  rw [← lowerBound_drop, List.head?_drop]

theorem lowerBound_ge (fast : List (Nat × Nat)) (start c : Nat) (e : Nat × Nat)
    (h : fast[lowerBound fast start c]? = some e) : c ≤ e.1 := by
  rw [lowerBound_get] at h
  have hne : ((fast.drop start).dropWhile fun e => decide (e.1 < c)) ≠ [] := by
    intro h0
    rw [h0] at h
    exact Option.noConfusion h
  have hh := List.head_dropWhile_not (fun e : Nat × Nat => decide (e.1 < c)) (fast.drop start) hne
  rw [List.head?_eq_head hne] at h
  rw [Option.some.inj h] at hh
  have := of_decide_eq_false hh
  omega

theorem lowerBound_found (fast : List (Nat × Nat)) (hs : fast.Pairwise fun x y => x.1 < y.1)
    (start c pos : Nat) (hinv : ∀ e ∈ fast.take start, e.1 < c) (hmem : (c, pos) ∈ fast) :
    fast[lowerBound fast start c]? = some (c, pos) := by
  have hsplit := List.take_append_drop (lowerBound fast start c) fast
  rw [← hsplit, List.mem_append] at hmem
  rcases hmem with hmem | hmem
  · exact absurd (lowerBound_take fast start c hinv _ hmem) (Nat.lt_irrefl c)
  · have hpw : (fast.drop (lowerBound fast start c)).Pairwise fun x y => x.1 < y.1 :=
      List.Pairwise.sublist (List.drop_sublist _ _) hs
    rw [← List.head?_drop]
    cases hd : fast.drop (lowerBound fast start c) with
    | nil => rw [hd] at hmem; exact absurd hmem (List.not_mem_nil _)
    | cons h t =>
      rw [hd] at hmem hpw
      have hge : c ≤ h.1 := by
        apply lowerBound_ge fast start c h
        rw [← List.head?_drop, hd]
        rfl
      rcases List.mem_cons.mp hmem with heq | ht
      · rw [heq]; rfl
      · have := (List.pairwise_cons.mp hpw).1 _ ht
        simp only at this
        omega

theorem lowerBound_absent (fast : List (Nat × Nat)) (start c : Nat) (e : Nat × Nat)
    (hc : ∀ x ∈ fast, x.1 ≠ c) (h : fast[lowerBound fast start c]? = some e) : c < e.1 := by
  have h1 := lowerBound_ge fast start c e h
  have h2 := hc e (List.getElem?_mem h)
  omega


theorem lowerBound_zero (fast : List (Nat × Nat)) (c : Nat) :
    lowerBound fast 0 c = (fast.takeWhile fun e => decide (e.1 < c)).length := by
  simp [lowerBound]

theorem takeWhile_succ (fast : List (Nat × Nat)) (hs : fast.Pairwise fun x y => x.1 < y.1)
    (i : Nat) :
    (fast.takeWhile fun e => decide (e.1 < i + 1)).length =
      match fast[(fast.takeWhile fun e => decide (e.1 < i)).length]? with
      | none => (fast.takeWhile fun e => decide (e.1 < i)).length
      | some e =>
        if e.1 = i then (fast.takeWhile fun e => decide (e.1 < i)).length + 1
        else (fast.takeWhile fun e => decide (e.1 < i)).length := by
  induction fast with
  | nil => rfl
  | cons h t ih =>
    have ht := (List.pairwise_cons.mp hs).2
    have hh := (List.pairwise_cons.mp hs).1
    rcases Nat.lt_trichotomy h.1 i with hlt | heq | hgt
    · have h1 : decide (h.1 < i) = true := decide_eq_true hlt
      have h2 : decide (h.1 < i + 1) = true := decide_eq_true (by omega)
      simp only [List.takeWhile_cons, h1, h2, if_true, List.length_cons,
        List.getElem?_cons_succ]
      rw [ih ht]
      split <;> rename_i hm
      · rfl
      · split <;> rfl
    · have h1 : decide (h.1 < i) = false := decide_eq_false (by omega)
      have h2 : decide (h.1 < i + 1) = true := decide_eq_true (by omega)
      have h3 : (t.takeWhile fun e => decide (e.1 < i + 1)) = [] := by
        cases t with
        | nil => rfl
        | cons u v =>
          have := hh u (List.mem_cons_self _ _)
          have h4 : decide (u.1 < i + 1) = false := decide_eq_false (by omega)
          simp only [List.takeWhile_cons, h4]
          rfl
      simp only [List.takeWhile_cons, h1, h2, ↓reduceIte, Bool.false_eq_true, List.length_cons,
        h3, List.length_nil, List.getElem?_cons_zero]
      rw [if_pos heq]
    · have h1 : decide (h.1 < i) = false := decide_eq_false (by omega)
      have h2 : decide (h.1 < i + 1) = false := decide_eq_false (by omega)
      have hne : h.1 ≠ i := by omega
      simp only [List.takeWhile_cons, h1, h2, ↓reduceIte, Bool.false_eq_true, List.length_nil,
        List.getElem?_cons_zero]
      rw [if_neg hne]

theorem itRowLoop_range (fast : List (Nat × Nat)) (hs : fast.Pairwise fun x y => x.1 < y.1)
    (i : Nat) : itRowLoop fast (List.range i) 0 = lowerBound fast 0 i := by
  induction i with
  | zero =>
    cases fast with
    | nil => rfl
    | cons a l => simp [itRowLoop, lowerBound_zero, List.takeWhile_cons]
  | succ i ih =>
    rw [List.range_succ, itRowLoop_append, ih, lowerBound_zero, lowerBound_zero,
      takeWhile_succ fast hs i]
    simp only [itRowLoop]

theorem rowEmit_shared {K : Type} (isF : Bool) (A : MatrixCSR K) (shared : List Nat)
    (hnd : shared.Nodup) (i : Nat) (hi : i ∈ shared) :
    rowEmit isF A (fastOf shared) i =
      if A._sym then scanShared isF A (fastOf shared) (shared.indexOf i) (rowRange A i) 0
      else [] := by
  unfold rowEmit
  rw [itRowLoop_range _ (fastOf_strict shared hnd)]
  have hf := lowerBound_found (fastOf shared) (fastOf_strict shared hnd) 0 i
    (shared.indexOf i) (by simp) (fastOf_indexOf shared i hi)
  simp only [rowLoop, hf, if_true, List.append_nil]
  rfl

theorem rowEmit_other {K : Type} (isF : Bool) (A : MatrixCSR K) (shared : List Nat)
    (hnd : shared.Nodup) (i : Nat) (hi : i ∉ shared) :
    rowEmit isF A (fastOf shared) i = scanOther isF A (fastOf shared) i (rowRange A i) 0 := by
  unfold rowEmit
  rw [itRowLoop_range _ (fastOf_strict shared hnd)]
  simp only [rowLoop]
  split
  · rw [List.append_nil]; rfl
  · rename_i e he
    have hmem := (fastOf_pos shared hnd e (List.getElem?_mem he)).1
    have hne : e.1 ≠ i := fun h => hi (h ▸ hmem)
    rw [if_neg hne, List.append_nil]
    rfl


theorem scanOther_eq {K : Type} (isF : Bool) (A : MatrixCSR K) (shared : List Nat)
    (hnd : shared.Nodup) (i : Nat) (js : List Nat) (start : Nat)
    (hpw : js.Pairwise fun j j' => A._ja j < A._ja j')
    (hinv : ∀ j ∈ js, ∀ e ∈ (fastOf shared).take start, e.1 < A._ja j) :
    scanOther isF A (fastOf shared) i js start =
      (js.filter fun j => decide (A._ja j ∈ shared)).map fun j =>
        (shared.indexOf (A._ja j), i, usub j (baseOf isF)) := by
  induction js generalizing start with
  | nil => rfl
  | cons j js ih =>
    have hrest := (List.pairwise_cons.mp hpw).2
    have hhead := (List.pairwise_cons.mp hpw).1
    have hkeep : ∀ j' ∈ js, ∀ e ∈ (fastOf shared).take start, e.1 < A._ja j' :=
      fun j' hj' e he => hinv j' (List.mem_cons_of_mem _ hj') e he
    simp only [scanOther]
    by_cases hc : A._ja j ∈ shared
    · have hf := lowerBound_found (fastOf shared) (fastOf_strict shared hnd) start (A._ja j)
        (shared.indexOf (A._ja j)) (hinv j (List.mem_cons_self _ _))
        (fastOf_indexOf shared _ hc)
      rw [hf]
      simp only [Nat.lt_irrefl, not_false_eq_true, if_true]
      rw [List.filter_cons, if_pos (decide_eq_true hc), List.map_cons]
      congr 1
      apply ih _ hrest
      intro j' hj' e he
      have h1 := lowerBound_take (fastOf shared) start (A._ja j)
        (hinv j (List.mem_cons_self _ _)) e he
      have h2 := hhead j' hj'
      omega
    · rw [List.filter_cons, if_neg (by simpa using hc)]
      split
      · exact ih _ hrest hkeep
      · rename_i e he
        have hlt := lowerBound_absent (fastOf shared) start (A._ja j) e
          (fun x hx hxc => hc (hxc ▸ (fastOf_pos shared hnd x hx).1)) he
        rw [if_neg (by simpa using hlt)]
        exact ih _ hrest hkeep

theorem scanShared_eq {K : Type} (isF : Bool) (A : MatrixCSR K) (shared : List Nat)
    (hnd : shared.Nodup) (rowPos : Nat) (js : List Nat) (start : Nat)
    (hpw : js.Pairwise fun j j' => A._ja j < A._ja j')
    (hinv : ∀ j ∈ js, ∀ e ∈ (fastOf shared).take start, e.1 < A._ja j) :
    scanShared isF A (fastOf shared) rowPos js start =
      (js.filter fun j => decide (A._ja j ∉ shared)).map fun j =>
        (rowPos, A._ja j, usub j (baseOf isF)) := by
  induction js generalizing start with
  | nil => rfl
  | cons j js ih =>
    have hrest := (List.pairwise_cons.mp hpw).2
    have hhead := (List.pairwise_cons.mp hpw).1
    have hkeep : ∀ j' ∈ js, ∀ e ∈ (fastOf shared).take start, e.1 < A._ja j' :=
      fun j' hj' e he => hinv j' (List.mem_cons_of_mem _ hj') e he
    simp only [scanShared]
    by_cases hc : A._ja j ∈ shared
    · have hf := lowerBound_found (fastOf shared) (fastOf_strict shared hnd) start (A._ja j)
        (shared.indexOf (A._ja j)) (hinv j (List.mem_cons_self _ _))
        (fastOf_indexOf shared _ hc)
      rw [hf]
      simp only [Nat.lt_irrefl, if_false]
      rw [List.filter_cons, if_neg (by simpa using hc)]
      apply ih _ hrest
      intro j' hj' e he
      have h1 := lowerBound_take (fastOf shared) start (A._ja j)
        (hinv j (List.mem_cons_self _ _)) e he
      have h2 := hhead j' hj'
      omega
    · rw [List.filter_cons, if_pos (by simpa using hc), List.map_cons]
      split
      · congr 1
        exact ih _ hrest hkeep
      · rename_i e he
        have hlt := lowerBound_absent (fastOf shared) start (A._ja j) e
          (fun x hx hxc => hc (hxc ▸ (fastOf_pos shared hnd x hx).1)) he
        rw [if_pos hlt]
        congr 1
        exact ih _ hrest hkeep

theorem scanOther_mem {K : Type} (isF : Bool) (A : MatrixCSR K) (fast : List (Nat × Nat))
    (i : Nat) (js : List Nat) (start : Nat) (t : Nat × Nat × Nat)
    (ht : t ∈ scanOther isF A fast i js start) :
    ∃ j ∈ js, ∃ e ∈ fast, e.1 = A._ja j ∧ t = (e.2, i, usub j (baseOf isF)) := by
  induction js generalizing start with
  | nil => exact absurd ht (List.not_mem_nil _)
  | cons j js ih =>
    simp only [scanOther] at ht
    split at ht
    · obtain ⟨j', hj', r⟩ := ih _ ht
      exact ⟨j', List.mem_cons_of_mem _ hj', r⟩
    · rename_i e he
      split at ht
      · rename_i hnl
        rcases List.mem_cons.mp ht with h | h
        · have hge := lowerBound_ge fast start (A._ja j) e he
          exact ⟨j, List.mem_cons_self _ _, e, List.getElem?_mem he, by omega, h⟩
        · obtain ⟨j', hj', r⟩ := ih _ h
          exact ⟨j', List.mem_cons_of_mem _ hj', r⟩
      · obtain ⟨j', hj', r⟩ := ih _ ht
        exact ⟨j', List.mem_cons_of_mem _ hj', r⟩

theorem scanShared_mem {K : Type} (isF : Bool) (A : MatrixCSR K) (fast : List (Nat × Nat))
    (rowPos : Nat) (js : List Nat) (start : Nat) (t : Nat × Nat × Nat)
    (ht : t ∈ scanShared isF A fast rowPos js start) :
    ∃ j ∈ js, t = (rowPos, A._ja j, usub j (baseOf isF)) := by
  induction js generalizing start with
  | nil => exact absurd ht (List.not_mem_nil _)
  | cons j js ih =>
    simp only [scanShared] at ht
    split at ht
    · rcases List.mem_cons.mp ht with h | h
      · exact ⟨j, List.mem_cons_self _ _, h⟩
      · obtain ⟨j', hj', r⟩ := ih _ h
        exact ⟨j', List.mem_cons_of_mem _ hj', r⟩
    · split at ht
      · rcases List.mem_cons.mp ht with h | h
        · exact ⟨j, List.mem_cons_self _ _, h⟩
        · obtain ⟨j', hj', r⟩ := ih _ h
          exact ⟨j', List.mem_cons_of_mem _ hj', r⟩
      · obtain ⟨j', hj', r⟩ := ih _ ht
        exact ⟨j', List.mem_cons_of_mem _ hj', r⟩

theorem columns_lt {K : Type} (A : MatrixCSR K) (dof : Nat) (h : ColumnsIncreasing A dof)
    (i : Nat) (hi : i < dof) (j d : Nat) (hj : A._ia i ≤ j) (hd : j + d + 1 < A._ia (i + 1)) :
    A._ja j < A._ja (j + d + 1) := by
  induction d with
  | zero => exact h i hi j hj hd
  | succ d ih =>
    have h1 := ih (by omega)
    have h2 := h i hi (j + d + 1) (by omega) hd
    exact Nat.lt_trans h1 h2

theorem columns_pairwise {K : Type} (A : MatrixCSR K) (dof : Nat)
    (h : ColumnsIncreasing A dof) (i : Nat) (hi : i < dof) :
    (rowRange A i).Pairwise fun j j' => A._ja j < A._ja j' := by
  unfold rowRange
  refine List.Pairwise.imp_of_mem ?_ (List.pairwise_lt_range' _ _)
  intro a b ha hb hab
  rw [List.mem_range'_1] at ha hb
  have e : b = a + (b - a - 1) + 1 := by omega
  rw [e]
  exact columns_lt A dof h i hi a (b - a - 1) ha.1 (by omega)

theorem usub_zero (j : Nat) (hj : j < 4294967296) : usub j (baseOf false) = j := by
  unfold usub baseOf
  simp only [Bool.false_eq_true, if_false]
  omega


theorem sendList_perm {K : Type} (isF : Bool) (A : MatrixCSR K) (dof : Nat)
    (shared : List Nat) :
    (sendList isF A dof shared).Perm
      ((List.range dof).flatMap (rowEmit isF A (fastOf shared))) := by
  unfold sendList
  rw [← rowLoop_range]
  exact List.perm_insertionSort _ _

theorem sendList_sorted {K : Type} (isF : Bool) (A : MatrixCSR K) (dof : Nat)
    (shared : List Nat) : (sendList isF A dof shared).Sorted tripleLe :=
  List.sorted_insertionSort _ _

theorem rowEmit_mem {K : Type} (isF : Bool) (A : MatrixCSR K) (shared : List Nat)
    (hnd : shared.Nodup) (i : Nat) (t : Nat × Nat × Nat)
    (ht : t ∈ rowEmit isF A (fastOf shared) i) :
    ∃ j ∈ rowRange A i, t.2.2 = usub j (baseOf isF) ∧
      ((i ∉ shared ∧ t.2.1 = i ∧ shared[t.1]? = some (A._ja j)) ∨
        (A._sym = true ∧ i ∈ shared ∧ shared[t.1]? = some i ∧ t.2.1 = A._ja j)) := by
  by_cases hi : i ∈ shared
  · rw [rowEmit_shared isF A shared hnd i hi] at ht
    by_cases hsym : A._sym = true
    · rw [if_pos hsym] at ht
      obtain ⟨j, hj, rfl⟩ := scanShared_mem isF A _ _ _ _ t ht
      refine ⟨j, hj, rfl, Or.inr ⟨hsym, hi, ?_, rfl⟩⟩
      have h := List.indexOf_lt_length.mpr hi
      show shared[shared.indexOf i]? = some i
      rw [List.getElem?_eq_getElem h, List.getElem_indexOf h]
    · rw [if_neg hsym] at ht
      exact absurd ht (List.not_mem_nil _)
  · rw [rowEmit_other isF A shared hnd i hi] at ht
    obtain ⟨j, hj, e, he, hec, rfl⟩ := scanOther_mem isF A _ _ _ _ t ht
    refine ⟨j, hj, rfl, Or.inl ⟨hi, rfl, ?_⟩⟩
    show shared[e.2]? = some (A._ja j)
    rw [← hec]
    exact (fastOf_mem shared e).mp he

/-- C17: for a 0-based matrix with strictly increasing columns in every row and pairwise
distinct shared indices, the list built for the neighbour is sorted lexicographically and is
a rearrangement of what the rows append one after the other, and a row `i` that is not shared
appends exactly one triple (position of the column in the shared list, `i`, raw index) for
each of its stored entries whose column is a shared index, and nothing else. -/
theorem interaction_other_rows {K : Type} (A : MatrixCSR K) (dof : Nat) (shared : List Nat)
    (hcols : ColumnsIncreasing A dof) (hnd : shared.Nodup)
    (hfit : ∀ i, i < dof → A._ia (i + 1) ≤ 4294967296) :
    (sendList false A dof shared).Sorted tripleLe ∧
    (sendList false A dof shared).Perm
      ((List.range dof).flatMap (rowEmit false A (fastOf shared))) ∧
    ∀ i, i < dof → i ∉ shared →
      rowEmit false A (fastOf shared) i =
        ((rowRange A i).filter fun j => decide (A._ja j ∈ shared)).map fun j =>
          (shared.indexOf (A._ja j), i, j) := by
  refine ⟨sendList_sorted _ _ _ _, sendList_perm _ _ _ _, ?_⟩
  intro i hi hsh
  rw [rowEmit_other false A shared hnd i hsh,
    scanOther_eq false A shared hnd i (rowRange A i) 0 (columns_pairwise A dof hcols i hi)
      (by simp)]
  apply List.map_congr_left
  intro j hj
  have hj2 := (List.mem_filter.mp hj).1
  unfold rowRange at hj2
  rw [List.mem_range'_1] at hj2
  have := hfit i hi
  rw [usub_zero j (by omega)]

theorem fullMatrix_columns : ColumnsIncreasing fullMatrix 2 := by
  intro i hi j h1 h2
  interval_cases i
  · have h3 : j + 1 < 2 := h2
    obtain rfl : j = 0 := by omega
    decide
  · have h3 : 2 ≤ j := h1
    have h4 : j + 1 < 4 := h2
    obtain rfl : j = 2 := by omega
    decide

theorem fullMatrix_fit : ∀ i, i < 2 → fullMatrix._ia (i + 1) ≤ 4294967296 := by
  intro i hi
  interval_cases i <;> decide

/-- Witness for C17: `fullMatrix` with the shared list `[1]`; row 0 is not shared and its
entry in column 1 gives the triple `(0, 0, 1)`. -/
theorem interaction_other_rows_witness :
    (sendList false fullMatrix 2 [1]).Sorted tripleLe ∧
    (sendList false fullMatrix 2 [1]).Perm
      ((List.range 2).flatMap (rowEmit false fullMatrix (fastOf [1]))) ∧
    ∀ i, i < 2 → i ∉ [1] →
      rowEmit false fullMatrix (fastOf [1]) i =
        ((rowRange fullMatrix i).filter fun j => decide (fullMatrix._ja j ∈ [1])).map fun j =>
          (([1] : List Nat).indexOf (fullMatrix._ja j), i, j) :=
  interaction_other_rows fullMatrix 2 [1] fullMatrix_columns (by decide) fullMatrix_fit

/-- C16, a shared row that does not contribute all its stored entries: row 1 of
`lowerMatrix` (flagged symmetric) is shared and stores the columns 0 and 1, but only the
entry in column 0 gives a triple; the diagonal entry, raw index 2, gives none. -/
theorem interaction_shared_row_skips :
    lowerMatrix._sym = true ∧ rowRange lowerMatrix 1 = [1, 2] ∧
    rowEmit false lowerMatrix (fastOf [1]) 1 = [(0, 0, 1)] ∧
    sendList false lowerMatrix 2 [1] = [(0, 0, 1)] ∧
    (0, 1, 2) ∉ sendList false lowerMatrix 2 [1] := by
  refine ⟨rfl, rfl, rfl, rfl, ?_⟩
  decide

/-- C16, amended: for a matrix flagged symmetric with strictly increasing columns in every
row and pairwise distinct shared indices, a row that is a shared index appends exactly one
triple (position of the row, column, raw index minus the base) for each of its stored entries
whose column is not a shared index; the list built for the neighbour is a rearrangement of
what the rows append. -/
theorem interaction_shared_rows {K : Type} (isF : Bool) (A : MatrixCSR K) (dof : Nat)
    (shared : List Nat) (hsym : A._sym = true) (hcols : ColumnsIncreasing A dof)
    (hnd : shared.Nodup) :
    (sendList isF A dof shared).Perm
      ((List.range dof).flatMap (rowEmit isF A (fastOf shared))) ∧
    ∀ i, i < dof → i ∈ shared →
      rowEmit isF A (fastOf shared) i =
        ((rowRange A i).filter fun j => decide (A._ja j ∉ shared)).map fun j =>
          (shared.indexOf i, A._ja j, usub j (baseOf isF)) := by
  refine ⟨sendList_perm _ _ _ _, ?_⟩
  intro i hi hsh
  rw [rowEmit_shared isF A shared hnd i hsh, if_pos hsym]
  exact scanShared_eq isF A shared hnd _ (rowRange A i) 0 (columns_pairwise A dof hcols i hi)
    (by simp)

theorem lowerMatrix_columns : ColumnsIncreasing lowerMatrix 2 := by
  intro i hi j h1 h2
  interval_cases i
  · have h3 : j + 1 < 1 := h2
    omega
  · have h3 : 1 ≤ j := h1
    have h4 : j + 1 < 3 := h2
    obtain rfl : j = 1 := by omega
    decide

/-- Witness for C16 as amended: `lowerMatrix` with the shared list `[1]`. -/
theorem interaction_shared_rows_witness :
    (sendList false lowerMatrix 2 [1]).Perm
      ((List.range 2).flatMap (rowEmit false lowerMatrix (fastOf [1]))) ∧
    ∀ i, i < 2 → i ∈ [1] →
      rowEmit false lowerMatrix (fastOf [1]) i =
        ((rowRange lowerMatrix i).filter fun j => decide (lowerMatrix._ja j ∉ [1])).map
          fun j => (([1] : List Nat).indexOf i, lowerMatrix._ja j, usub j (baseOf false)) :=
  interaction_shared_rows false lowerMatrix 2 [1] rfl lowerMatrix_columns (by decide)


theorem fullSubs_consistent : Consistent (fullSubs.map fun s => s._map) := by
  intro p hp
  have hp2 : p < 2 := by simpa using hp
  interval_cases p
  · refine ⟨by decide, ?_⟩
    intro nb hnb
    have : nb = (1, [1]) := by simpa [fullSubs] using hnb
    subst this
    exact ⟨by decide, by decide, [0], rfl, rfl⟩
  · refine ⟨by decide, ?_⟩
    intro nb hnb
    have : nb = (0, [0]) := by simpa [fullSubs] using hnb
    subst this
    exact ⟨by decide, by decide, [1], rfl, rfl⟩

/-- C15, two neighbouring ranks whose entries are not transposes of each other: with the
symmetric matrix `fullMatrix` on both ranks (and likewise with `lowerMatrix`, flagged
symmetric), rank 0 sends the entry `(0, 0, -1)` toward rank 1, and rank 1 computes the
entry `(0, 1, -1)` for rank 0, whose transpose is `(1, 0, -1)`. -/
theorem interaction_not_transposed :
    Consistent (fullSubs.map fun s => s._map) ∧
    fullSubs.map (fun s => s._map) = lowerSubs.map (fun s => s._map) ∧
    entriesFor fullSubs 0 1 = [(0, 0, -1)] ∧
    transposed (entriesFor fullSubs 1 0) = [(1, 0, -1)] ∧
    entriesFor lowerSubs 0 1 = [(0, 0, -1)] ∧
    transposed (entriesFor lowerSubs 1 0) = [(1, 0, -1)] ∧
    ¬ (entriesFor fullSubs 0 1).Perm (transposed (entriesFor fullSubs 1 0)) ∧
    ¬ (entriesFor lowerSubs 0 1).Perm (transposed (entriesFor lowerSubs 1 0)) := by
  refine ⟨fullSubs_consistent, rfl, rfl, rfl, rfl, rfl, ?_, ?_⟩
  · have h1 : entriesFor fullSubs 0 1 = [(0, 0, -1)] := rfl
    have h2 : transposed (entriesFor fullSubs 1 0) = [(1, 0, -1)] := rfl
    rw [h1, h2, List.perm_singleton]
    decide
  · have h1 : entriesFor lowerSubs 0 1 = [(0, 0, -1)] := rfl
    have h2 : transposed (entriesFor lowerSubs 1 0) = [(1, 0, -1)] := rfl
    rw [h1, h2, List.perm_singleton]
    decide

/-- C15, amended: with pairwise distinct shared indices, every entry (row, column, value)
that a process sends toward a neighbour comes from a stored entry of its own 0-based matrix:
the row is the position of a shared index `s`, and either the column is a local row `i` not
shared with the neighbour and the value is the stored entry `(i, s)`, which is sent
transposed, or the matrix is flagged symmetric, `s` is a shared row and the value is its
stored entry in that column. -/
theorem interaction_sent_entries {K : Type} (A : MatrixCSR K) (dof : Nat) (shared : List Nat)
    (hnd : shared.Nodup) (hfit : ∀ i, i < dof → A._ia (i + 1) ≤ 4294967296)
    (t : Nat × Nat × K) (ht : t ∈ sentEntries false A dof shared) :
    ∃ i j, i < dof ∧ j ∈ rowRange A i ∧ t.2.2 = A._a j ∧
      ((i ∉ shared ∧ t.2.1 = i ∧ shared[t.1]? = some (A._ja j)) ∨
        (A._sym = true ∧ i ∈ shared ∧ shared[t.1]? = some i ∧ t.2.1 = A._ja j)) := by
  unfold sentEntries at ht
  obtain ⟨u, hu, rfl⟩ := List.mem_map.mp ht
  rw [(sendList_perm false A dof shared).mem_iff, List.mem_flatMap] at hu
  obtain ⟨i, hi, hui⟩ := hu
  have hi2 := List.mem_range.mp hi
  obtain ⟨j, hj, hraw, hcase⟩ := rowEmit_mem false A shared hnd i u hui
  have hj2 := hj
  unfold rowRange at hj2
  rw [List.mem_range'_1] at hj2
  have := hfit i hi2
  rw [usub_zero j (by omega)] at hraw
  refine ⟨i, j, hi2, hj, ?_, hcase⟩
  show A._a u.2.2 = A._a j
  rw [hraw]

/-- Witness for C15 as amended: the entry that rank 0 of `fullSubs` sends toward rank 1. -/
theorem interaction_sent_entries_witness :
    ∃ i j, i < 2 ∧ j ∈ rowRange fullMatrix i ∧ ((0, 0, -1) : Nat × Nat × Int).2.2 =
        fullMatrix._a j ∧
      ((i ∉ [1] ∧ ((0, 0, -1) : Nat × Nat × Int).2.1 = i ∧
          ([1] : List Nat)[((0, 0, -1) : Nat × Nat × Int).1]? = some (fullMatrix._ja j)) ∨
        (fullMatrix._sym = true ∧ i ∈ [1] ∧
          ([1] : List Nat)[((0, 0, -1) : Nat × Nat × Int).1]? = some i ∧
          ((0, 0, -1) : Nat × Nat × Int).2.1 = fullMatrix._ja j)) :=
  interaction_sent_entries fullMatrix 2 [1] (by decide) fullMatrix_fit (0, 0, -1)
    (by decide)


/-! ### Global numbering: every step is defined -/

theorem sharedCount_nil : sharedCount [] = 0 := rfl

theorem recvAbove_counts (l : List (Nat × List Nat)) (size : Nat) :
    (recvAbove l size).map (fun rq => rq.2.2) = l.map fun nb => nb.2.length := by
  induction l generalizing size with
  | nil => rfl
  | cons nb rest ih => simp only [recvAbove, List.map_cons, ih]

theorem vecLoop_ok {K : Type} (T : Bool) (num : Nat → Nat) (first last : Nat)
    (cap : Option Nat) (rows : List Nat) (inp out : Nat → K)
    (hcap : ∀ i ∈ rows, inRange (num i) first last = true →
      cap.any (fun d => decide (d ≤ num i - first)) = false) :
    ∃ r, vecLoop T num first last cap rows inp out = some r := by
  induction rows generalizing inp out with
  | nil => exact ⟨(inp, out), rfl⟩
  | cons i rest ih =>
    have hcap2 : ∀ j ∈ rest, inRange (num j) first last = true →
        cap.any (fun d => decide (d ≤ num j - first)) = false :=
      fun j hj => hcap j (List.mem_cons_of_mem _ hj)
    by_cases hr : inRange (num i) first last = true
    · have hc := hcap i (List.mem_cons_self _ _) hr
      cases T with
      | true =>
        obtain ⟨r, h⟩ := ih (Function.update inp i (out (num i - first))) out hcap2
        exact ⟨r, by simp only [vecLoop, hr, hc, if_true, Bool.false_eq_true, if_false, h]⟩
      | false =>
        obtain ⟨r, h⟩ := ih inp (Function.update out (num i - first) (inp i)) hcap2
        exact ⟨r, by simp only [vecLoop, hr, hc, if_true, Bool.false_eq_true, if_false, h]⟩
    · obtain ⟨r, h⟩ := ih inp out hcap2
      exact ⟨r, by simp only [vecLoop, hr, Bool.false_eq_true, if_false, h]⟩

/-- C26: on the repartitioned path, when the number of local indices with an id in
`[first, last)` is `last - first`, the position `num[i] - first` of every such index is below
that number, which is the size of the buffer allocated by `distributedVec` and of the row
table allocated by `distributedCSR`; both calls complete without a position outside the
allocation. -/
theorem target_positions {K : Type} [LinearOrder K] (num : Nat → Nat) (first last n : Nat)
    (hfill : ownedCount num first last n = last - first) (hpath : first ≠ 0 ∨ last ≠ n) :
    (∀ i, i < n → inRange (num i) first last = true →
      num i - first < ownedCount num first last n) ∧
    (∀ (T : Bool) (inp fresh : Nat → K),
      ∃ r, distributedVec T num first last inp none n fresh = some r) ∧
    (∀ (A : MatrixCSR K) (ia0 ja0 : Slot Int) (c0 : Slot K), A._n = n →
      ∃ r, distributedCSR num first last ia0 ja0 c0 A = some r ∧ r.flag = true) := by
  have hpos : ∀ i, i < n → inRange (num i) first last = true →
      num i - first < ownedCount num first last n := by
    intro i _ hr
    have := (inRange_iff _ _ _).mp hr
    rw [hfill]
    omega
  refine ⟨hpos, ?_, ?_⟩
  · intro T inp fresh
    obtain ⟨r, h⟩ := vecLoop_ok T num first last (some (ownedCount num first last n))
      (List.range n) inp fresh
      (fun i hi hr => by
        have := hpos i (List.mem_range.mp hi) hr
        simp only [Option.any_some, decide_eq_false_iff_not, not_le]
        exact this)
    refine ⟨(r.1, some r.2), ?_⟩
    simp only [distributedVec, hpath, if_true, h, Option.map_some']
  · intro A ia0 ja0 c0 hn
    subst hn
    have h1 := reserveLoop_ok num first last (ownedCount num first last A._n)
      (List.range A._n) (fun i hi hr => hpos i (List.mem_range.mp hi) hr)
    obtain ⟨tmp, h2, _⟩ := fillLoop_ok num first last A (List.range A._n)
      (List.replicate (ownedCount num first last A._n) [])
      (fun i hi hr => by
        rw [List.length_replicate]
        exact hpos i (List.mem_range.mp hi) hr)
    refine ⟨Assembled.mk true
      (ia0.write (fun j => (A._ia j : Int)) (0 :: (emitLoop tmp 0).1)).1
      (ja0.write (fun j => (A._ja j : Int)) (emitLoop tmp 0).2.1).1
      (c0.write A._a (emitLoop tmp 0).2.2).1
      (ia0.write (fun j => (A._ia j : Int)) (0 :: (emitLoop tmp 0).1)).2
      (ja0.write (fun j => (A._ja j : Int)) (emitLoop tmp 0).2.1).2
      (c0.write A._a (emitLoop tmp 0).2.2).2, ?_, rfl⟩
    simp only [distributedCSR, hpath, if_true, h1, h2]

/-- Witness for C26: the three rows of `sampleMatrix` with ids 7, 5, 4 and the range
`[4, 6)`, which holds the two ids 5 and 4. -/
theorem target_positions_witness :
    (∀ i, i < 3 → inRange (sampleNum i) 4 6 = true →
      sampleNum i - 4 < ownedCount sampleNum 4 6 3) ∧
    (∀ (T : Bool) (inp fresh : Nat → Int),
      ∃ r, distributedVec T sampleNum 4 6 inp none 3 fresh = some r) ∧
    (∀ (A : MatrixCSR Int) (ia0 ja0 : Slot Int) (c0 : Slot Int), A._n = 3 →
      ∃ r, distributedCSR sampleNum 4 6 ia0 ja0 c0 A = some r ∧ r.flag = true) :=
  target_positions sampleNum 4 6 3 (by decide) (by decide)


/-! ### Interaction: the indexing base -/

/-- C23, two matrices with two rows, row 1 being the shared index.  For `stairMatrix` the
0-based call emits nothing, while the 1-based call on the 1-based representation emits the
diagonal entry `(0, 0)` of value 5 as a coupling with the shared index; for `columnMatrix`
the 0-based call emits the entry `(0, 1)` of value 3 and the 1-based call emits nothing.  In
both 1-based calls every read `ref._ja[j]` is inside the array. -/
theorem interaction_base_differs :
    sentEntries false stairMatrix 2 [1] = [] ∧
    sentEntries true (oneBased stairMatrix) 2 [1] = [(0, 0, 5)] ∧
    sentEntries false columnMatrix 2 [1] = [(0, 0, 3)] ∧
    sentEntries true (oneBased columnMatrix) 2 [1] = [] ∧
    (∀ j ∈ rowRange (oneBased stairMatrix) 0, j < stairMatrix._nnz) ∧
    (∀ j ∈ rowRange (oneBased columnMatrix) 0, j < columnMatrix._nnz) := by
  refine ⟨rfl, rfl, rfl, rfl, ?_, ?_⟩ <;> decide


/-! ### Interaction: the order of the stored entries -/

theorem rowEmit_plain {K : Type} (isF : Bool) (A : MatrixCSR K) (dof : Nat)
    (shared : List Nat) (hcols : ColumnsIncreasing A dof) (hnd : shared.Nodup) (i : Nat)
    (hi : i < dof) : rowEmit isF A (fastOf shared) i = plainEmit isF A shared i := by
  unfold plainEmit
  by_cases hs : i ∈ shared
  · rw [if_pos hs, rowEmit_shared isF A shared hnd i hs]
    by_cases hsym : A._sym = true
    · rw [if_pos hsym, if_pos hsym]
      exact scanShared_eq isF A shared hnd _ (rowRange A i) 0
        (columns_pairwise A dof hcols i hi) (by simp)
    · rw [if_neg hsym, if_neg hsym]
  · rw [if_neg hs, rowEmit_other isF A shared hnd i hs]
    exact scanOther_eq isF A shared hnd i (rowRange A i) 0
      (columns_pairwise A dof hcols i hi) (by simp)

/-- C25, a row stored in two orders: row 1 of `orderedMatrix` and of `swappedMatrix` holds
the same two entries, columns 0 and 2, both shared.  In increasing order both give an entry;
in the other order the search restarted after the match of column 2 misses column 0, which
the plain membership test finds. -/
theorem interaction_order_matters :
    (rowEntries swappedMatrix 1).Perm (rowEntries orderedMatrix 1) ∧
    (∀ i, i < 3 → i ≠ 1 → rowEntries swappedMatrix i = rowEntries orderedMatrix i) ∧
    sentEntries false orderedMatrix 3 [0, 2] = [(0, 1, 10), (1, 1, 12)] ∧
    sentEntries false swappedMatrix 3 [0, 2] = [(1, 1, 12)] ∧
    (plainSendList false swappedMatrix 3 [0, 2]).map
      (fun t => (t.1, t.2.1, swappedMatrix._a t.2.2)) = [(0, 1, 10), (1, 1, 12)] := by
  refine ⟨?_, ?_, rfl, rfl, rfl⟩
  · have h1 : rowEntries swappedMatrix 1 = [(2, 12), (0, 10)] := rfl
    have h2 : rowEntries orderedMatrix 1 = [(0, 10), (2, 12)] := rfl
    rw [h1, h2]
    exact List.Perm.swap _ _ _
  · intro i hi hne
    interval_cases i
    · rfl
    · exact absurd rfl hne
    · rfl

/-- C25, amended: when the columns of every row are stored in strictly increasing order and
the shared indices are pairwise distinct, the list built by the search that restarts from the
last match is the list built with a plain membership test of each stored column. -/
theorem interaction_plain_test {K : Type} (isF : Bool) (A : MatrixCSR K) (dof : Nat)
    (shared : List Nat) (hcols : ColumnsIncreasing A dof) (hnd : shared.Nodup) :
    sendList isF A dof shared = plainSendList isF A dof shared := by
  unfold sendList plainSendList
  rw [rowLoop_range]
  congr 1
  apply List.flatMap_congr
  intro i hi
  exact rowEmit_plain isF A dof shared hcols hnd i (List.mem_range.mp hi)

theorem orderedMatrix_columns : ColumnsIncreasing orderedMatrix 3 := by
  intro i hi j h1 h2
  interval_cases i
  · have h3 : j + 1 < 0 := h2
    omega
  · have h3 : 0 ≤ j := h1
    have h4 : j + 1 < 2 := h2
    obtain rfl : j = 0 := by omega
    decide
  · have h3 : 2 ≤ j := h1
    have h4 : j + 1 < 2 := h2
    omega

/-- Witness for C25 as amended: `orderedMatrix` with the shared indices 0 and 2. -/
theorem interaction_plain_test_witness :
    sendList false orderedMatrix 3 [0, 2] = plainSendList false orderedMatrix 3 [0, 2] :=
  interaction_plain_test false orderedMatrix 3 [0, 2] orderedMatrix_columns (by decide)


/-! ### Interaction: triangular and full storage of a symmetric matrix -/

theorem mem_entriesEmit {K : Type} (A : MatrixCSR K) (shared : List Nat) (i : Nat)
    (x : Nat × Nat × K) :
    x ∈ entriesEmit A shared i ↔
      (i ∉ shared ∧ ∃ e ∈ rowEntries A i, e.1 ∈ shared ∧ x = (shared.indexOf e.1, i, e.2)) ∨
      (i ∈ shared ∧ A._sym = true ∧
        ∃ e ∈ rowEntries A i, e.1 ∉ shared ∧ x = (shared.indexOf i, e.1, e.2)) := by
  unfold entriesEmit
  by_cases hs : i ∈ shared
  · rw [if_pos hs]
    by_cases hsym : A._sym = true
    · rw [if_pos hsym, List.mem_map]
      constructor
      · rintro ⟨e, he, rfl⟩
        obtain ⟨h1, h2⟩ := List.mem_filter.mp he
        exact Or.inr ⟨hs, hsym, e, h1, by simpa using h2, rfl⟩
      · rintro (⟨h, _⟩ | ⟨_, _, e, h1, h2, rfl⟩)
        · exact absurd hs h
        · exact ⟨e, List.mem_filter.mpr ⟨h1, by simpa using h2⟩, rfl⟩
    · rw [if_neg hsym]
      constructor
      · intro h
        exact absurd h (List.not_mem_nil _)
      · rintro (⟨h, _⟩ | ⟨_, h, _⟩)
        · exact absurd hs h
        · exact absurd h hsym
  · rw [if_neg hs, List.mem_map]
    constructor
    · rintro ⟨e, he, rfl⟩
      obtain ⟨h1, h2⟩ := List.mem_filter.mp he
      exact Or.inl ⟨hs, e, h1, by simpa using h2, rfl⟩
    · rintro (⟨_, e, h1, h2, rfl⟩ | ⟨h, _⟩)
      · exact ⟨e, List.mem_filter.mpr ⟨h1, by simpa using h2⟩, rfl⟩
      · exact absurd h hs

theorem plainEmit_entries {K : Type} (A : MatrixCSR K) (shared : List Nat) (i : Nat)
    (hfit : A._ia (i + 1) ≤ 4294967296) :
    (plainEmit false A shared i).map (fun t => (t.1, t.2.1, A._a t.2.2)) =
      entriesEmit A shared i := by
  have hraw : ∀ j ∈ rowRange A i, usub j (baseOf false) = j := by
    intro j hj
    unfold rowRange at hj
    rw [List.mem_range'_1] at hj
    exact usub_zero j (by omega)
  unfold plainEmit entriesEmit rowEntries
  by_cases hs : i ∈ shared
  · rw [if_pos hs, if_pos hs]
    by_cases hsym : A._sym = true
    · rw [if_pos hsym, if_pos hsym, List.filter_map, List.map_map, List.map_map]
      apply List.map_congr_left
      intro j hj
      have := hraw j (List.mem_filter.mp hj).1
      simp only [Function.comp, this]
    · rw [if_neg hsym, if_neg hsym]
      rfl
  · rw [if_neg hs, if_neg hs, List.filter_map, List.map_map, List.map_map]
    apply List.map_congr_left
    intro j hj
    have := hraw j (List.mem_filter.mp hj).1
    simp only [Function.comp, this]

theorem sentEntries_perm {K : Type} (A : MatrixCSR K) (dof : Nat) (shared : List Nat)
    (hcols : ColumnsIncreasing A dof) (hnd : shared.Nodup)
    (hfit : ∀ i, i < dof → A._ia (i + 1) ≤ 4294967296) :
    (sentEntries false A dof shared).Perm ((List.range dof).flatMap (entriesEmit A shared)) := by
  unfold sentEntries
  have h1 := (sendList_perm false A dof shared).map fun t => (t.1, t.2.1, A._a t.2.2)
  rw [List.map_flatMap] at h1
  have h2 : ((List.range dof).flatMap fun i =>
      (rowEmit false A (fastOf shared) i).map fun t => (t.1, t.2.1, A._a t.2.2)) =
      (List.range dof).flatMap (entriesEmit A shared) := by
    apply List.flatMap_congr
    intro i hi
    have hi2 := List.mem_range.mp hi
    rw [rowEmit_plain false A dof shared hcols hnd i hi2, plainEmit_entries A shared i
      (hfit i hi2)]
  rw [h2] at h1
  exact h1


theorem rowEntries_pairwise {K : Type} (A : MatrixCSR K) (dof : Nat)
    (hcols : ColumnsIncreasing A dof) (i : Nat) (hi : i < dof) :
    (rowEntries A i).Pairwise fun e e' => e.1 < e'.1 := by
  unfold rowEntries
  rw [List.pairwise_map]
  exact columns_pairwise A dof hcols i hi

theorem entriesEmit_keys {K : Type} (A : MatrixCSR K) (dof : Nat) (shared : List Nat)
    (hcols : ColumnsIncreasing A dof) (hmir : NoMirror A dof) :
    ((List.range dof).flatMap (entriesEmit A shared)).Pairwise
      fun x y => ¬ (x.1 = y.1 ∧ x.2.1 = y.2.1) := by
  rw [List.pairwise_flatMap]
  constructor
  · intro i hi
    have hpw := rowEntries_pairwise A dof hcols i (List.mem_range.mp hi)
    unfold entriesEmit
    by_cases hs : i ∈ shared
    · rw [if_pos hs]
      by_cases hsym : A._sym = true
      · rw [if_pos hsym, List.pairwise_map]
        refine (hpw.filter _).imp ?_
        intro a b hab h
        simp only at h
        omega
      · rw [if_neg hsym]
        exact List.Pairwise.nil
    · rw [if_neg hs, List.pairwise_map]
      refine List.Pairwise.imp_of_mem ?_ (hpw.filter _)
      intro a b ha hb hab h
      have ha2 : a.1 ∈ shared := by simpa using (List.mem_filter.mp ha).2
      have hb2 : b.1 ∈ shared := by simpa using (List.mem_filter.mp hb).2
      have := (List.indexOf_inj ha2 hb2).mp h.1
      omega
  · refine List.Pairwise.imp_of_mem ?_ (List.pairwise_lt_range dof)
    intro i1 i2 h1 h2 hlt x hx y hy h
    have hd1 := List.mem_range.mp h1
    have hd2 := List.mem_range.mp h2
    rw [mem_entriesEmit] at hx hy
    rcases hx with ⟨hs1, e1, he1, hc1, rfl⟩ | ⟨hs1, hsym, e1, he1, hc1, rfl⟩ <;>
      rcases hy with ⟨hs2, e2, he2, hc2, rfl⟩ | ⟨hs2, hsym2, e2, he2, hc2, rfl⟩
    · simp only at h
      omega
    · simp only at h
      have e12 : e1.1 = i2 := (List.indexOf_inj hc1 hs2).mp h.1
      exact hmir hsym2 i1 i2 hd1 hd2 (by omega) ⟨e1, he1, e12⟩ ⟨e2, he2, h.2.symm⟩
    · simp only at h
      have e21 : i1 = e2.1 := (List.indexOf_inj hs1 hc2).mp h.1
      exact hmir hsym i1 i2 hd1 hd2 (by omega) ⟨e1, he1, h.2⟩ ⟨e2, he2, e21.symm⟩
    · simp only at h
      have := (List.indexOf_inj hs1 hs2).mp h.1
      omega

theorem sentEntries_sorted {K : Type} (A : MatrixCSR K) (dof : Nat) (shared : List Nat)
    (hcols : ColumnsIncreasing A dof) (hnd : shared.Nodup)
    (hfit : ∀ i, i < dof → A._ia (i + 1) ≤ 4294967296) (hmir : NoMirror A dof) :
    (sentEntries false A dof shared).Pairwise keyLt := by
  have hle : (sentEntries false A dof shared).Pairwise
      fun x y => x.1 < y.1 ∨ (x.1 = y.1 ∧ x.2.1 ≤ y.2.1) := by
    unfold sentEntries
    rw [List.pairwise_map]
    refine (sendList_sorted false A dof shared).imp ?_
    intro a b hab
    unfold tripleLe at hab
    simp only
    omega
  have hne : (sentEntries false A dof shared).Pairwise
      fun x y => ¬ (x.1 = y.1 ∧ x.2.1 = y.2.1) :=
    ((sentEntries_perm A dof shared hcols hnd hfit).pairwise_iff
      (fun h1 h2 => h1 ⟨h2.1.symm, h2.2.symm⟩)).mpr (entriesEmit_keys A dof shared hcols hmir)
  refine List.Pairwise.imp₂ ?_ hle hne
  intro a b h1 h2
  unfold keyLt
  omega

theorem mem_sentEntries {K : Type} (A : MatrixCSR K) (dof : Nat) (shared : List Nat)
    (hcols : ColumnsIncreasing A dof) (hnd : shared.Nodup)
    (hfit : ∀ i, i < dof → A._ia (i + 1) ≤ 4294967296) (x : Nat × Nat × K) :
    x ∈ sentEntries false A dof shared ↔ ∃ i, i < dof ∧ x ∈ entriesEmit A shared i := by
  rw [(sentEntries_perm A dof shared hcols hnd hfit).mem_iff, List.mem_flatMap]
  constructor
  · rintro ⟨i, hi, hx⟩
    exact ⟨i, List.mem_range.mp hi, hx⟩
  · rintro ⟨i, hi, hx⟩
    exact ⟨i, List.mem_range.mpr hi, hx⟩

theorem triangle_noMirror {K : Type} (T F : MatrixCSR K) (dof : Nat)
    (keep : Nat → Nat → Bool) (h : TriangleOf T F dof keep) : NoMirror T dof := by
  intro _ i s hi hs hne ⟨e1, he1, hc1⟩ ⟨e2, he2, hc2⟩
  obtain ⟨_, _, hkeep, hrows, _⟩ := h
  rw [hrows i hi] at he1
  rw [hrows s hs] at he2
  have k1 := (List.mem_filter.mp he1).2
  have k2 := (List.mem_filter.mp he2).2
  rw [hc1] at k1
  rw [hc2] at k2
  have := hkeep i s hne
  rw [k1, k2] at this
  exact Bool.noConfusion this

theorem full_noMirror {K : Type} (F : MatrixCSR K) (dof : Nat) (h : F._sym = false) :
    NoMirror F dof := by
  intro hs
  rw [h] at hs
  exact Bool.noConfusion hs


/-- C24: for a symmetric matrix with strictly increasing columns in every row, stored once
as a triangle with the symmetry flag set (`T`) and once in full with the flag cleared (`F`),
and pairwise distinct shared indices, the sorted lists of (row position, column, value)
entries built from the two storages are equal, and every entry has the position of a shared
index as row and an index that is not shared as column. -/
theorem interaction_symmetric_storage {K : Type} (T F : MatrixCSR K) (dof : Nat)
    (shared : List Nat) (keep : Nat → Nat → Bool) (htri : TriangleOf T F dof keep)
    (hT : ColumnsIncreasing T dof) (hF : ColumnsIncreasing F dof) (hnd : shared.Nodup)
    (hfitT : ∀ i, i < dof → T._ia (i + 1) ≤ 4294967296)
    (hfitF : ∀ i, i < dof → F._ia (i + 1) ≤ 4294967296) :
    sentEntries false T dof shared = sentEntries false F dof shared ∧
    ∀ x ∈ sentEntries false F dof shared,
      (∃ s ∈ shared, x.1 = shared.indexOf s) ∧ x.2.1 ∉ shared := by
  haveI : IsAntisymm (Nat × Nat × K) keyLt :=
    ⟨fun a b h1 h2 => by unfold keyLt at h1 h2; exfalso; omega⟩
  haveI : IsIrrefl (Nat × Nat × K) keyLt :=
    ⟨fun a h => by unfold keyLt at h; omega⟩
  have sT := sentEntries_sorted T dof shared hT hnd hfitT (triangle_noMirror T F dof keep htri)
  have sF := sentEntries_sorted F dof shared hF hnd hfitF (full_noMirror F dof htri.2.1)
  obtain ⟨hTs, hFs, hkeep, hrows, hsymm⟩ := htri
  have hmem : ∀ x, x ∈ sentEntries false T dof shared ↔ x ∈ sentEntries false F dof shared := by
    intro x
    rw [mem_sentEntries T dof shared hT hnd hfitT, mem_sentEntries F dof shared hF hnd hfitF]
    constructor
    · rintro ⟨i, hi, hx⟩
      rw [mem_entriesEmit] at hx
      rcases hx with ⟨hs, e, he, hc, rfl⟩ | ⟨hs, _, e, he, hc, rfl⟩
      · rw [hrows i hi] at he
        refine ⟨i, hi, ?_⟩
        rw [mem_entriesEmit]
        exact Or.inl ⟨hs, e, (List.mem_filter.mp he).1, hc, rfl⟩
      · rw [hrows i hi] at he
        obtain ⟨h1, h2⟩ := hsymm i hi e (List.mem_filter.mp he).1
        refine ⟨e.1, h1, ?_⟩
        rw [mem_entriesEmit]
        exact Or.inl ⟨hc, (i, e.2), h2, hs, rfl⟩
    · rintro ⟨i, hi, hx⟩
      rw [mem_entriesEmit] at hx
      rcases hx with ⟨hs, e, he, hc, rfl⟩ | ⟨_, hsym, _⟩
      · have hne : i ≠ e.1 := fun h => hs (h ▸ hc)
        by_cases hk : keep i e.1 = true
        · refine ⟨i, hi, ?_⟩
          rw [mem_entriesEmit]
          refine Or.inl ⟨hs, e, ?_, hc, rfl⟩
          rw [hrows i hi]
          exact List.mem_filter.mpr ⟨he, hk⟩
        · obtain ⟨h1, h2⟩ := hsymm i hi e he
          have hk2 : keep e.1 i = true := by
            have := hkeep i e.1 hne
            cases hv : keep e.1 i with
            | true => rfl
            | false =>
              rw [hv] at this
              exact absurd this hk
          refine ⟨e.1, h1, ?_⟩
          rw [mem_entriesEmit]
          refine Or.inr ⟨hc, hTs, (i, e.2), ?_, hs, rfl⟩
          rw [hrows e.1 h1]
          exact List.mem_filter.mpr ⟨h2, hk2⟩
      · rw [hFs] at hsym
        exact Bool.noConfusion hsym
  refine ⟨List.eq_of_perm_of_sorted
    ((List.perm_ext_iff_of_nodup (List.Sorted.nodup sT) (List.Sorted.nodup sF)).mpr hmem)
    sT sF, ?_⟩
  intro x hx
  rw [mem_sentEntries F dof shared hF hnd hfitF] at hx
  obtain ⟨i, hi, hx⟩ := hx
  rw [mem_entriesEmit] at hx
  rcases hx with ⟨hs, e, he, hc, rfl⟩ | ⟨_, hsym, _⟩
  · exact ⟨⟨e.1, hc, rfl⟩, hs⟩
  · rw [hFs] at hsym
    exact Bool.noConfusion hsym

theorem lower_triangleOf : TriangleOf lowerMatrix fullMatrix 2 fun i c => decide (c ≤ i) := by
  refine ⟨rfl, rfl, ?_, ?_, ?_⟩
  · intro i c hne
    by_cases h : c ≤ i
    · have h2 : ¬ i ≤ c := by omega
      simp [h, h2]
    · have h2 : i ≤ c := by omega
      simp [h, h2]
  · intro i hi
    interval_cases i <;> rfl
  · decide

theorem lowerMatrix_fit : ∀ i, i < 2 → lowerMatrix._ia (i + 1) ≤ 4294967296 := by
  intro i hi
  interval_cases i <;> decide

/-- Witness for C24: `lowerMatrix` is the lower triangle of `fullMatrix`; shared list `[1]`. -/
theorem interaction_symmetric_storage_witness :
    sentEntries false lowerMatrix 2 [1] = sentEntries false fullMatrix 2 [1] ∧
    ∀ x ∈ sentEntries false fullMatrix 2 [1],
      (∃ s ∈ [1], x.1 = ([1] : List Nat).indexOf s) ∧ x.2.1 ∉ [1] :=
  interaction_symmetric_storage lowerMatrix fullMatrix 2 [1] (fun i c => decide (c ≤ i))
    lower_triangleOf lowerMatrix_columns fullMatrix_columns (by decide) lowerMatrix_fit
    fullMatrix_fit



/-! ### Interaction: the announced length and the regions of a payload -/

theorem ulpFrom_small (x : Nat) (h : x < 16777216) : ulpFrom 104 x 1 = 1 := by
  simp only [ulpFrom, Nat.mul_one, if_pos h]

theorem toFloat_small (x : Nat) (h : x < 16777216) : toFloat x = x := by
  simp [toFloat, ulpFrom_small x h, Nat.mod_one]

theorem ceil_le (b sz : Nat) (hsz : 0 < sz) : (b + sz - 1) / sz ≤ b := by
  cases b with
  | zero =>
    rw [Nat.zero_add, Nat.div_eq_of_lt (by omega)]
  | succ c =>
    apply Nat.div_le_of_le_mul
    have h1 : c ≤ sz * c := Nat.le_mul_of_pos_left c hsz
    rw [Nat.mul_succ]
    omega

theorem le_ceil_mul (b sz : Nat) (hsz : 0 < sz) : b ≤ sz * ((b + sz - 1) / sz) := by
  have h1 := Nat.div_add_mod (b + sz - 1) sz
  have h2 := Nat.mod_lt (b + sz - 1) hsz
  omega

/-- Lines 233-235 and 301-304, 332-336 while the payload stays small: when the byte count of
the integer regions plus the entry count is below 2^24 the `float` arithmetic is exact, so the
announced length is the exact one, the integer regions end before the values start, the values
end with the buffer, and the receiver addresses the same regions. -/
theorem announcedLength_small (sz r n : Nat) (hsz : 0 < sz)
    (h : regionBytes r n + n < 16777216) :
    announcedLength sz r n = exactLength sz r n ∧
    (senderRegions sz r n (announcedLength sz r n)).ia + 2 * r =
      (senderRegions sz r n (announcedLength sz r n)).mapRow ∧
    (senderRegions sz r n (announcedLength sz r n)).mapRow + 4 * (r + 1) =
      (senderRegions sz r n (announcedLength sz r n)).ja ∧
    (senderRegions sz r n (announcedLength sz r n)).ja + 4 * n ≤
      (senderRegions sz r n (announcedLength sz r n)).a ∧
    (senderRegions sz r n (announcedLength sz r n)).a + sz * n = sz * announcedLength sz r n ∧
    receiverRegions sz r (announcedLength sz r n) n =
      senderRegions sz r n (announcedLength sz r n) := by
  have hb : regionBytes r n = 2 * r + 4 * (r + 1 + n) := by
    unfold regionBytes at h ⊢
    omega
  have hc := ceil_le (regionBytes r n) sz hsz
  have hl : announcedLength sz r n = exactLength sz r n := by
    unfold announcedLength exactLength
    rw [toFloat_small (regionBytes r n) (by omega), toFloat_small n (by omega),
      toFloat_small ((regionBytes r n + sz - 1) / sz + n) (by omega),
      Nat.mod_eq_of_lt (by omega), hb]
  refine ⟨hl, ?_, ?_, ?_, ?_, rfl⟩
  · simp [senderRegions]
  · simp only [senderRegions]
  · rw [hl]
    simp only [senderRegions, exactLength, Nat.add_sub_cancel]
    have := le_ceil_mul (2 * r + 4 * (r + 1 + n)) sz hsz
    omega
  · rw [hl]
    simp only [senderRegions, exactLength, Nat.add_sub_cancel, Nat.mul_add]

theorem announcedLength_small_witness :
    announcedLength 8 2 3 = exactLength 8 2 3 ∧
    (senderRegions 8 2 3 (announcedLength 8 2 3)).ja + 4 * 3 ≤
      (senderRegions 8 2 3 (announcedLength 8 2 3)).a :=
  ⟨(announcedLength_small 8 2 3 (by decide) (by decide)).1,
    (announcedLength_small 8 2 3 (by decide) (by decide)).2.2.2.1⟩

/-- C21: with `sizeof(K) = 8`, 99999 distinct row positions and 8238609 entries the integer
regions take 33554434 bytes, which `float` rounds to 33554432: the announced length is
12432913 scalars, one less than the exact 12432914, so the values start at byte 33554432,
two bytes before the end of the column ids, on the sender and on the receiver alike. -/
theorem interaction_length_rounded :
    announcedPair 8 (List.replicate 3 (0, 0, 0)) = (1, announcedLength 8 1 3) ∧
    regionBytes 99999 8238609 = 33554434 ∧
    toFloat 33554434 = 33554432 ∧
    exactLength 8 99999 8238609 = 12432914 ∧
    announcedLength 8 99999 8238609 = 12432913 ∧
    (senderRegions 8 99999 8238609 (announcedLength 8 99999 8238609)).ja + 4 * 8238609
      = 33554434 ∧
    (senderRegions 8 99999 8238609 (announcedLength 8 99999 8238609)).a = 33554432 ∧
    receiverRegions 8 99999 (announcedLength 8 99999 8238609) 8238609 =
      senderRegions 8 99999 8238609 (announcedLength 8 99999 8238609) := by
  refine ⟨by decide, by decide, by decide, by decide, by decide, by decide, by decide, rfl⟩


/-- C4, at a payload of 99999 runs and 8238609 entries of 8-byte scalars (83 entries in the
first 38691 runs, 82 in the others: every run is shorter than 65536): the last column id
occupies the four bytes from 33554430 on and the first value the eight bytes from 33554432
on, on the sender and on the receiver, so the value written through `a` and the column id
written through `ja` share two bytes; the payload is outside the range in which the regions
stay apart. -/
theorem interaction_wire_overlap :
    38691 * 83 + (99999 - 38691) * 82 = 8238609 ∧
    (senderRegions 8 99999 8238609 (announcedLength 8 99999 8238609)).ja
      + 4 * (8238609 - 1) = 33554430 ∧
    (senderRegions 8 99999 8238609 (announcedLength 8 99999 8238609)).a = 33554432 ∧
    (receiverRegions 8 99999 (announcedLength 8 99999 8238609) 8238609).ja
      + 4 * (8238609 - 1) = 33554430 ∧
    (receiverRegions 8 99999 (announcedLength 8 99999 8238609) 8238609).a = 33554432 ∧
    ¬ (regionBytes 99999 8238609 + 8238609 < 16777216) := by
  refine ⟨by decide, by decide, by decide, by decide, by decide, by decide⟩

/-! ### Interaction: placement of the payload buffers -/

theorem lengthBefore_zero (recvSize sendSize : Nat → Nat) (n : Nat) :
    lengthBefore recvSize sendSize n 0 = 0 := rfl

theorem lengthBefore_succ (recvSize sendSize : Nat → Nat) (n i : Nat) :
    lengthBefore recvSize sendSize n (i + 1) =
      lengthBefore recvSize sendSize n i + lengthAt recvSize sendSize n i := by
  simp [lengthBefore, List.range_succ]

theorem lengthBefore_mono (recvSize sendSize : Nat → Nat) (n i j : Nat) (h : i ≤ j) :
    lengthBefore recvSize sendSize n i ≤ lengthBefore recvSize sendSize n j := by
  induction j with
  | zero =>
    have : i = 0 := by omega
    rw [this]
  | succ k ih =>
    by_cases hk : i = k + 1
    · rw [hk]
    · have := ih (by omega)
      rw [lengthBefore_succ]
      omega

theorem sumFrom_self (size : Nat → Nat) (k : Nat) : sumFrom size k k = 0 := by
  simp [sumFrom]

theorem sumFrom_succ (size : Nat → Nat) (k n : Nat) (h : k ≤ n) :
    sumFrom size k (n + 1) = sumFrom size k n + size (2 * n + 1) := by
  unfold sumFrom
  have e : n + 1 - k = (n - k) + 1 := by omega
  rw [e, List.range'_concat]
  simp only [List.map_append, List.sum_append, List.map_cons, List.map_nil, List.sum_cons,
    List.sum_nil, Nat.add_zero, Nat.one_mul]
  have e2 : k + (n - k) = n := by omega
  rw [e2]

/-- A sum of announced lengths is a difference of totals: `c` is 0 for the receive lengths
and `n` for the send lengths. -/
theorem sumFrom_eq (recvSize sendSize size : Nat → Nat) (n c a b : Nat) (hab : a ≤ b)
    (hsz : ∀ j, a ≤ j → j < b → size (2 * j + 1) = lengthAt recvSize sendSize n (c + j)) :
    sumFrom size a b + lengthBefore recvSize sendSize n (c + a) =
      lengthBefore recvSize sendSize n (c + b) := by
  induction b with
  | zero =>
    have : a = 0 := by omega
    rw [this, sumFrom_self]
    omega
  | succ k ih =>
    by_cases hk : a = k + 1
    · rw [hk, sumFrom_self]
      omega
    · have h1 := ih (by omega) (fun j h1 h2 => hsz j h1 (by omega))
      have h2 := hsz k (by omega) (by omega)
      rw [sumFrom_succ size a k (by omega), h2, ← Nat.add_assoc c k 1, lengthBefore_succ]
      omega

theorem lengthAt_recv (recvSize sendSize : Nat → Nat) (n j : Nat) (h : j < n) :
    recvSize (2 * j + 1) = lengthAt recvSize sendSize n (0 + j) := by
  simp [lengthAt, h]

theorem lengthAt_send (recvSize sendSize : Nat → Nat) (n j : Nat) :
    sendSize (2 * j + 1) = lengthAt recvSize sendSize n (n + j) := by
  simp [lengthAt]

/-- Lines 241-258: without wrap-around the fitting loop stops at a counter `m2` with
`accumulate` the total length of the buffers before it, below the bound unless nothing was
fitted by this loop. -/
theorem fitLoop_spec (recvSize sendSize size : Nat → Nat) (n c cap : Nat) :
    ∀ (left m : Nat),
      (∀ j, m ≤ j → j < m + left → size (2 * j + 1) = lengthAt recvSize sendSize n (c + j)) →
      lengthBefore recvSize sendSize n (c + (m + left)) < 4294967296 →
      ∃ m2, fitLoop cap size left m (lengthBefore recvSize sendSize n (c + m)) =
          (m2, lengthBefore recvSize sendSize n (c + m2)) ∧ m ≤ m2 ∧ m2 ≤ m + left ∧
        (m2 = m ∨ lengthBefore recvSize sendSize n (c + m2) < cap) := by
  intro left
  induction left with
  | zero =>
    intro m _ _
    exact ⟨m, rfl, Nat.le_refl _, Nat.le_refl _, Or.inl rfl⟩
  | succ l ih =>
    intro m hsz hov
    have h1 := hsz m (Nat.le_refl _) (by omega)
    have h2 : lengthBefore recvSize sendSize n (c + (m + 1)) =
        lengthBefore recvSize sendSize n (c + m) + size (2 * m + 1) := by
      rw [h1, ← Nat.add_assoc, lengthBefore_succ]
    have h3 := lengthBefore_mono recvSize sendSize n (c + (m + 1)) (c + (m + (l + 1)))
      (by omega)
    have h4 : (lengthBefore recvSize sendSize n (c + m) + size (2 * m + 1)) % 4294967296 =
        lengthBefore recvSize sendSize n (c + (m + 1)) := by
      rw [← h2]
      exact Nat.mod_eq_of_lt (by omega)
    simp only [fitLoop, h4]
    by_cases hfit : lengthBefore recvSize sendSize n (c + (m + 1)) < cap
    · rw [if_pos hfit]
      obtain ⟨m2, e, ha, hb, hc⟩ := ih (m + 1) (fun j hj1 hj2 => hsz j (by omega) (by omega))
        (by
          have e : m + 1 + l = m + (l + 1) := by omega
          rw [e]
          exact hov)
      refine ⟨m2, e, by omega, by omega, ?_⟩
      rcases hc with hc | hc
      · right
        rw [hc]
        exact hfit
      · exact Or.inr hc
    · rw [if_neg hfit]
      exact ⟨m, rfl, Nat.le_refl _, by omega, Or.inl rfl⟩


theorem placeAt_snoc (base t : Nat) (P : Nat → Nat) (k : Nat) :
    (List.range k).map (placeAt base t P) ++ [placeAt base t P k] =
      (List.range (k + 1)).map (placeAt base t P) := by
  simp [List.range_succ]

theorem placeAt_last (base t : Nat) (P : Nat → Nat) (k : Nat) :
    ((List.range (k + 1)).map (placeAt base t P)).getLast? = some (placeAt base t P k) := by
  simp [List.range_succ]

theorem placeAt_shift (base t : Nat) (P : Nat → Nat) (k d : Nat) (ht : t ≤ k)
    (hP : P (k + 1) = P k + d) (hm : P t ≤ P k) :
    (placeAt base t P k).shift d = placeAt base t P (k + 1) := by
  have h1 : ¬ k < t := by omega
  have h2 : ¬ k + 1 < t := by omega
  simp only [placeAt, if_neg h1, if_neg h2, Place.shift]
  congr 1
  omega

/-- Lines 262-275 without wrap-around: the receive buffers of the first `q` neighbours sit in
the block of `initialize` at the running totals, the others follow one another in the
allocated block, whose size is the total of the remaining lengths. -/
theorem rbuffLoop_spec (base : Nat) (recvSize sendSize : Nat → Nat) (n q : Nat) (P : Nat → Nat)
    (hq : q ≤ n) (hov : P (2 * n) < 4294967296)
    (hsucc : ∀ j, j < n → P (j + 1) = P j + recvSize (2 * j + 1))
    (hmono : ∀ i j, i ≤ j → P i ≤ P j)
    (hsumR : sumFrom recvSize q n + P q = P n)
    (hsumS : sumFrom sendSize 0 n + P n = P (2 * n)) :
    ∀ (c k : Nat), k + c = n →
      rbuffLoop base recvSize sendSize n q (List.range' k c)
        ((List.range k).map (placeAt base q P))
        (if k ≤ q then P k else P n)
        (if k ≤ q then none else some (P (2 * n) - P q)) =
      some ((List.range n).map (placeAt base q P), P n,
        if n ≤ q then none else some (P (2 * n) - P q)) := by
  intro c
  induction c with
  | zero =>
    intro k hk
    have : k = n := by omega
    subst this
    simp only [List.range'_zero, rbuffLoop, ite_self]
  | succ c ih =>
    intro k hk
    have hkn : k < n := by omega
    have ihk := ih (k + 1) (by omega)
    have h2n := hmono n (2 * n) (by omega)
    rw [List.range'_succ]
    rcases Nat.lt_trichotomy k q with h | h | h
    · have hle : k + 1 ≤ q := h
      have hs := hsucc k hkn
      have hk1 := hmono (k + 1) n (by omega)
      have hP : (P k + recvSize (2 * k + 1)) % 4294967296 = P (k + 1) := by
        rw [← hs]
        exact Nat.mod_eq_of_lt (by omega)
      have hpl : Place.arena (base + P k) = placeAt base q P k := by
        simp only [placeAt, if_pos h]
      simp only [if_pos hle] at ihk
      simp only [rbuffLoop, if_pos h, if_pos (Nat.le_of_lt h), hP, hpl, placeAt_snoc]
      exact ihk
    · subst h
      have hne : ¬ k + 1 ≤ k := by omega
      have hpl : Place.scratch 0 = placeAt base k P k := by
        simp [placeAt]
      have hacc : (P k + sumFrom recvSize k n % 4294967296) % 4294967296 = P n := by
        omega
      have hblk : (sumFrom recvSize k n % 4294967296 + sumFrom sendSize 0 n) % 4294967296 =
          P (2 * n) - P k := by
        omega
      simp only [if_neg hne] at ihk
      simp only [rbuffLoop, Nat.lt_irrefl, if_false, if_true, Nat.le_refl, hacc, hblk, hpl,
        placeAt_snoc]
      exact ihk
    · have hne : ¬ k + 1 ≤ q := by omega
      have hnlt : ¬ k < q := by omega
      have hneq : ¬ k = q := by omega
      have hnle : ¬ k ≤ q := by omega
      obtain ⟨j, rfl⟩ : ∃ j, k = j + 1 := ⟨k - 1, by omega⟩
      have e : 2 * (j + 1) - 1 = 2 * j + 1 := by omega
      have hsh := placeAt_shift base q P j (recvSize (2 * j + 1)) (by omega)
        (hsucc j (by omega)) (hmono q j (by omega))
      simp only [if_neg hne] at ihk
      simp only [rbuffLoop, if_neg hnlt, if_neg hneq, if_neg hnle, placeAt_last, e, hsh,
        placeAt_snoc]
      exact ihk


theorem map_range_snoc {α : Type} (f : Nat → α) (k : Nat) :
    (List.range k).map f ++ [f k] = (List.range (k + 1)).map f := by
  simp [List.range_succ]

theorem map_range_last {α : Type} (f : Nat → α) (k : Nat) :
    ((List.range (k + 1)).map f).getLast? = some (f k) := by
  simp [List.range_succ]

/-- Lines 281-288 and 299 (some receive buffer did not fit): the send buffers follow the last
receive buffer and one another in the allocated block. -/
theorem sbuffLoop_spill (base : Nat) (recvSize sendSize : Nat → Nat) (n q m : Nat)
    (P : Nat → Nat) (rbuff : List Place) (hq : q < n + 1)
    (hrb : rbuff.getLast? = some (placeAt base q P n))
    (hlast : P (n + 1) = P n + recvSize (2 * (n + 1) - 1))
    (hsuccS : ∀ j, j < n + 1 → P (n + 1 + j + 1) = P (n + 1 + j) + sendSize (2 * j + 1))
    (hmono : ∀ i j, i ≤ j → P i ≤ P j) :
    ∀ (c k : Nat), k + c = n + 1 → ∀ (acc : Nat) (blk : Option Nat),
      sbuffLoop recvSize sendSize (n + 1) q m rbuff (List.range' k c)
        ((List.range k).map fun j => placeAt base q P (n + 1 + j)) acc blk =
      some ((List.range (n + 1)).map (fun j => placeAt base q P (n + 1 + j)), blk) := by
  intro c
  induction c with
  | zero =>
    intro k hk acc blk
    have : k = n + 1 := by omega
    subst this
    simp only [List.range'_zero, sbuffLoop]
  | succ c ih =>
    intro k hk acc blk
    rw [List.range'_succ]
    cases k with
    | zero =>
      have hsh := placeAt_shift base q P n (recvSize (2 * (n + 1) - 1)) (by omega) hlast
        (hmono q n (by omega))
      have ihk := ih 1 (by omega) acc blk
      simp only [sbuffLoop, if_pos hq, if_true, hrb, hsh, List.range_zero, List.map_nil,
        List.nil_append]
      exact ihk
    | succ j =>
      have e : 2 * (j + 1) - 1 = 2 * j + 1 := by omega
      have hne : ¬ j + 1 = 0 := by omega
      have hsh := placeAt_shift base q P (n + 1 + j) (sendSize (2 * j + 1)) (by omega)
        (hsuccS j (by omega)) (hmono q (n + 1 + j) (by omega))
      have ihk := ih (j + 1 + 1) (by omega) acc blk
      have hl := map_range_last (fun j => placeAt base q P (n + 1 + j)) j
      have hs := map_range_snoc (fun j => placeAt base q P (n + 1 + j)) (j + 1)
      simp only [sbuffLoop, if_pos hq, if_neg hne, hl, e, hsh]
      rw [← hs] at ihk
      exact ihk

/-- Lines 289-299 (every receive buffer fitted): the first `m` send buffers sit in the block of
`initialize` after the receive buffers, the others follow one another in the allocated
block. -/
theorem sbuffLoop_fit (base : Nat) (recvSize sendSize : Nat → Nat) (n m : Nat)
    (P : Nat → Nat) (rbuff : List Place) (hm : m ≤ n) (hov : P (2 * n) < 4294967296)
    (hrb : rbuff[0]? = some (Place.arena base))
    (hsuccS : ∀ j, j < n → P (n + j + 1) = P (n + j) + sendSize (2 * j + 1))
    (hmono : ∀ i j, i ≤ j → P i ≤ P j)
    (hsumS : sumFrom sendSize m n + P (n + m) = P (2 * n)) :
    ∀ (c k : Nat), k + c = n →
      sbuffLoop recvSize sendSize n n m rbuff (List.range' k c)
        ((List.range k).map fun j => placeAt base (n + m) P (n + j))
        (if k ≤ m then P (n + k) else P (n + m))
        (if k ≤ m then none else some (P (2 * n))) =
      some ((List.range n).map (fun j => placeAt base (n + m) P (n + j)),
        if n ≤ m then none else some (P (2 * n))) := by
  intro c
  induction c with
  | zero =>
    intro k hk
    have : k = n := by omega
    subst this
    simp only [List.range'_zero, sbuffLoop]
  | succ c ih =>
    intro k hk
    have hkn : k < n := by omega
    have ihk := ih (k + 1) (by omega)
    have hs := map_range_snoc (fun j => placeAt base (n + m) P (n + j)) k
    rw [List.range'_succ]
    rw [← hs] at ihk
    rcases Nat.lt_trichotomy k m with h | h | h
    · have hle : k + 1 ≤ m := h
      have hsu := hsuccS k hkn
      have hk1 := hmono (n + k + 1) (2 * n) (by omega)
      have hP : (P (n + k) + sendSize (2 * k + 1)) % 4294967296 = P (n + (k + 1)) := by
        rw [← hsu]
        exact Nat.mod_eq_of_lt (by omega)
      have hpl : (Place.arena base).shift (P (n + k)) = placeAt base (n + m) P (n + k) := by
        have : n + k < n + m := by omega
        simp only [placeAt, if_pos this, Place.shift]
      simp only [if_pos hle] at ihk
      simp only [sbuffLoop, Nat.lt_irrefl, if_false, if_pos h, if_pos (Nat.le_of_lt h), hrb,
        hP, hpl]
      exact ihk
    · subst h
      have hne : ¬ k + 1 ≤ k := by omega
      have hpl : Place.scratch 0 = placeAt base (n + k) P (n + k) := by
        simp [placeAt]
      have hblk : (P (n + k) + sumFrom sendSize k n) % 4294967296 = P (2 * n) := by
        omega
      simp only [if_neg hne] at ihk
      simp only [sbuffLoop, Nat.lt_irrefl, if_false, if_true, Nat.le_refl, hblk, hpl]
      exact ihk
    · have hne : ¬ k + 1 ≤ m := by omega
      have hnlt : ¬ k < m := by omega
      have hneq : ¬ k = m := by omega
      have hnle : ¬ k ≤ m := by omega
      obtain ⟨j, rfl⟩ : ∃ j, k = j + 1 := ⟨k - 1, by omega⟩
      have e : 2 * (j + 1) - 1 = 2 * j + 1 := by omega
      have hsh := placeAt_shift base (n + m) P (n + j) (sendSize (2 * j + 1)) (by omega)
        (hsuccS j (by omega)) (hmono (n + m) (n + j) (by omega))
      have hl := map_range_last (fun j => placeAt base (n + m) P (n + j)) j
      simp only [if_neg hne] at ihk
      simp only [sbuffLoop, Nat.lt_irrefl, if_false, if_neg hnlt, if_neg hneq, if_neg hnle, hl,
        e, hsh]
      exact ihk


/-- Lines 239-300 without wrap-around: the first `t` of the `2n` buffers (receives, then
sends) sit in the block of `initialize` at the running totals of the lengths, which stay below
the bound; the others follow one another in the block allocated in the call, which holds
them. -/
theorem placeLoops_spec (cap base n : Nat) (recvSize sendSize : Nat → Nat) (hn : 0 < n)
    (hov : lengthBefore recvSize sendSize n (2 * n) < 4294967296) :
    ∃ (t : Nat) (blk : Option Nat),
      placeLoops cap base n recvSize sendSize =
        some (Placement.mk
          ((List.range n).map (placeAt base t (lengthBefore recvSize sendSize n)))
          ((List.range n).map fun j => placeAt base t (lengthBefore recvSize sendSize n) (n + j))
          blk) ∧
      (t = 0 ∨ lengthBefore recvSize sendSize n t < cap) ∧ t ≤ 2 * n ∧
      (t < 2 * n → ∃ sz, blk = some sz ∧
        lengthBefore recvSize sendSize n (2 * n) - lengthBefore recvSize sendSize n t ≤ sz) := by
  have hmono := lengthBefore_mono recvSize sendSize n
  have hsucc : ∀ j, j < n → lengthBefore recvSize sendSize n (j + 1) =
      lengthBefore recvSize sendSize n j + recvSize (2 * j + 1) := by
    intro j hj
    rw [lengthBefore_succ, lengthAt_recv recvSize sendSize n j hj, Nat.zero_add]
  have hsuccS : ∀ j, j < n → lengthBefore recvSize sendSize n (n + j + 1) =
      lengthBefore recvSize sendSize n (n + j) + sendSize (2 * j + 1) := by
    intro j _
    rw [lengthBefore_succ, lengthAt_send recvSize sendSize n j]
  have hsumS : ∀ m, m ≤ n → sumFrom sendSize m n + lengthBefore recvSize sendSize n (n + m) =
      lengthBefore recvSize sendSize n (2 * n) := by
    intro m hm
    have := sumFrom_eq recvSize sendSize sendSize n n m n hm
      (fun j _ _ => lengthAt_send recvSize sendSize n j)
    rw [this]
    congr 1
    omega
  have hsumR : ∀ q, q ≤ n → sumFrom recvSize q n + lengthBefore recvSize sendSize n q =
      lengthBefore recvSize sendSize n n := by
    intro q hq
    have := sumFrom_eq recvSize sendSize recvSize n 0 q n hq
      (fun j _ h => lengthAt_recv recvSize sendSize n j h)
    simpa using this
  obtain ⟨q, hfR, _, hqn, hqfit⟩ := fitLoop_spec recvSize sendSize recvSize n 0 cap n 0
    (fun j _ h => lengthAt_recv recvSize sendSize n j (by omega))
    (by
      have := hmono (0 + (0 + n)) (2 * n) (by omega)
      omega)
  simp only [Nat.zero_add, lengthBefore_zero] at hfR hqn hqfit
  have hR := rbuffLoop_spec base recvSize sendSize n q (lengthBefore recvSize sendSize n)
    hqn hov hsucc hmono (hsumR q hqn) (by simpa using hsumS 0 (Nat.zero_le n)) n 0
    (Nat.zero_add n)
  simp only [Nat.zero_le, if_true, List.range_zero, List.map_nil, lengthBefore_zero,
    ← List.range_eq_range'] at hR
  by_cases hq : q < n
  · obtain ⟨k, rfl⟩ : ∃ k, n = k + 1 := ⟨n - 1, by omega⟩
    have hS := sbuffLoop_spill base recvSize sendSize k q 0 (lengthBefore recvSize sendSize (k + 1))
      ((List.range (k + 1)).map (placeAt base q (lengthBefore recvSize sendSize (k + 1))))
      hq (placeAt_last base q _ k)
      (by
        have := hsucc k (by omega)
        have e : 2 * (k + 1) - 1 = 2 * k + 1 := by omega
        rw [e]
        exact this)
      hsuccS hmono (k + 1) 0 (Nat.zero_add _)
      (lengthBefore recvSize sendSize (k + 1) (k + 1))
      (if k + 1 ≤ q then none
        else some (lengthBefore recvSize sendSize (k + 1) (2 * (k + 1)) -
          lengthBefore recvSize sendSize (k + 1) q))
    simp only [List.range_zero, List.map_nil, ← List.range_eq_range'] at hS
    have hnq : ¬ q = k + 1 := by omega
    have hnle : ¬ k + 1 ≤ q := by omega
    refine ⟨q, some (lengthBefore recvSize sendSize (k + 1) (2 * (k + 1)) -
      lengthBefore recvSize sendSize (k + 1) q), ?_, hqfit, by omega,
      fun _ => ⟨_, rfl, Nat.le_refl _⟩⟩
    simp only [if_neg hnle] at hR hS
    simp only [placeLoops, hfR, if_neg hnq, hR, hS]
  · have hqe : q = n := by omega
    subst hqe
    obtain ⟨m, hfS, _, hmn, hmfit⟩ := fitLoop_spec recvSize sendSize sendSize q q cap q 0
      (fun j _ _ => lengthAt_send recvSize sendSize q j)
      (by
        have e : q + (0 + q) = 2 * q := by omega
        rw [e]
        exact hov)
    simp only [Nat.zero_add, Nat.add_zero] at hfS hmn hmfit
    have hrb : (List.range q).map (placeAt base q (lengthBefore recvSize sendSize q)) =
        (List.range q).map (placeAt base (q + m) (lengthBefore recvSize sendSize q)) := by
      apply List.map_congr_left
      intro a ha
      have h1 : a < q := List.mem_range.mp ha
      have h2 : a < q + m := by omega
      simp only [placeAt, if_pos h1, if_pos h2]
    have hrb0 : ((List.range q).map (placeAt base q (lengthBefore recvSize sendSize q)))[0]? =
        some (Place.arena base) := by
      obtain ⟨k, rfl⟩ : ∃ k, q = k + 1 := ⟨q - 1, by omega⟩
      simp [List.range_succ_eq_map, placeAt, lengthBefore_zero]
    have hS := sbuffLoop_fit base recvSize sendSize q m (lengthBefore recvSize sendSize q)
      ((List.range q).map (placeAt base q (lengthBefore recvSize sendSize q)))
      hmn hov hrb0 hsuccS hmono (hsumS m hmn) q 0 (Nat.zero_add q)
    simp only [Nat.zero_le, if_true, List.range_zero, List.map_nil, Nat.add_zero,
      ← List.range_eq_range'] at hS
    refine ⟨q + m, if q ≤ m then none else some (lengthBefore recvSize sendSize q (2 * q)),
      ?_, ?_, by omega, ?_⟩
    · simp only [placeLoops, hfR, if_true, hfS, hR, Nat.le_refl, hS]
      rw [hrb]
    · right
      rcases hmfit with h0 | hlt
      · rw [h0, Nat.add_zero]
        rcases hqfit with h | h
        · omega
        · exact h
      · exact hlt
    · intro hlt
      have hnle : ¬ q ≤ m := by omega
      rw [if_neg hnle]
      exact ⟨_, rfl, Nat.sub_le _ _⟩


theorem placedBuffers_eq (base t n : Nat) (recvSize sendSize : Nat → Nat) (P : Nat → Nat)
    (blk : Option Nat) :
    placedBuffers (Placement.mk ((List.range n).map (placeAt base t P))
      ((List.range n).map fun j => placeAt base t P (n + j)) blk) recvSize sendSize =
      (List.range (2 * n)).map fun i => (placeAt base t P i, lengthAt recvSize sendSize n i) := by
  have e1 : (List.range n).map (fun k => (placeAt base t P k, recvSize (2 * k + 1))) =
      (List.range n).map fun i => (placeAt base t P i, lengthAt recvSize sendSize n i) := by
    apply List.map_congr_left
    intro a ha
    have h := lengthAt_recv recvSize sendSize n a (List.mem_range.mp ha)
    rw [Nat.zero_add] at h
    rw [h]
  have e2 : (List.range n).map (fun k => (placeAt base t P (n + k), sendSize (2 * k + 1))) =
      (List.range n).map
        ((fun i => (placeAt base t P i, lengthAt recvSize sendSize n i)) ∘ fun k => n + k) := by
    apply List.map_congr_left
    intro a _
    simp only [Function.comp, lengthAt_send recvSize sendSize n a]
  simp only [placedBuffers, List.length_map, List.length_range, List.zip_map']
  rw [e1, e2, Nat.two_mul, List.range_add, List.map_append, List.map_map]

theorem placed_apart (base t n : Nat) (recvSize sendSize : Nat → Nat) (m : Nat) :
    ((List.range m).map fun i =>
      (placeAt base t (lengthBefore recvSize sendSize n) i,
        lengthAt recvSize sendSize n i)).Pairwise Apart := by
  rw [List.pairwise_map]
  refine (List.pairwise_lt_range m).imp ?_
  intro i j hij
  have h1 := lengthBefore_succ recvSize sendSize n i
  have h2 := lengthBefore_mono recvSize sendSize n (i + 1) j hij
  by_cases hi : i < t
  · by_cases hj : j < t
    · simp only [Apart, placeAt, if_pos hi, if_pos hj]
      left
      omega
    · simp only [Apart, placeAt, if_pos hi, if_neg hj]
  · have hj : ¬ j < t := by omega
    have h3 := lengthBefore_mono recvSize sendSize n t i (by omega)
    simp only [Apart, placeAt, if_neg hi, if_neg hj]
    left
    omega

theorem placed_inside (base t n cap arena : Nat) (recvSize sendSize : Nat → Nat)
    (blk : Option Nat) (ht : t = 0 ∨ lengthBefore recvSize sendSize n t < cap)
    (harena : base + cap ≤ arena)
    (hblk : t < 2 * n → ∃ sz, blk = some sz ∧
      lengthBefore recvSize sendSize n (2 * n) - lengthBefore recvSize sendSize n t ≤ sz) :
    ∀ b ∈ (List.range (2 * n)).map fun i =>
      (placeAt base t (lengthBefore recvSize sendSize n) i, lengthAt recvSize sendSize n i),
      Inside arena blk b := by
  intro b hb
  obtain ⟨i, hi, rfl⟩ := List.mem_map.mp hb
  have hi2 : i < 2 * n := List.mem_range.mp hi
  have h1 := lengthBefore_succ recvSize sendSize n i
  by_cases hit : i < t
  · have h2 := lengthBefore_mono recvSize sendSize n (i + 1) t hit
    simp only [Inside, placeAt, if_pos hit]
    omega
  · obtain ⟨sz, e, hsz⟩ := hblk (by omega)
    have h2 := lengthBefore_mono recvSize sendSize n (i + 1) (2 * n) hi2
    have h3 := lengthBefore_mono recvSize sendSize n t i (by omega)
    simp only [Inside, placeAt, if_neg hit]
    exact ⟨sz, e, by omega⟩

/-- Lines 239-300 on a subdomain whose pointer vectors are filled, as long as the announced
lengths add up to less than 2^32 (no wrap-around of `accumulate`): the call yields one receive
and one send buffer per neighbour, pairwise apart, each inside the block of `initialize` or
inside the block allocated in the call. -/
theorem interactionPlaces_fit {K : Type} (s : Subdomain K) (recvSize sendSize : Nat → Nat)
    (base cap : Nat) (hn : 0 < s._map.length) (hbase : s._rbuff[0]? = some base)
    (hcap : haloCapacity s = some cap) (harena : base + cap ≤ s.arena)
    (hov : lengthBefore recvSize sendSize s._map.length (2 * s._map.length) < 4294967296) :
    ∃ p, interactionPlaces s recvSize sendSize = some p ∧
      p.rbuff.length = s._map.length ∧ p.sbuff.length = s._map.length ∧
      (placedBuffers p recvSize sendSize).Pairwise Apart ∧
      ∀ b ∈ placedBuffers p recvSize sendSize, Inside s.arena p.block b := by
  obtain ⟨t, blk, hp, ht, _, hblk⟩ :=
    placeLoops_spec cap base s._map.length recvSize sendSize hn hov
  have hne : ¬ s._map.length = 0 := by omega
  refine ⟨Placement.mk
    ((List.range s._map.length).map
      (placeAt base t (lengthBefore recvSize sendSize s._map.length)))
    ((List.range s._map.length).map fun j =>
      placeAt base t (lengthBefore recvSize sendSize s._map.length) (s._map.length + j))
    blk, ?_, ?_, ?_, ?_, ?_⟩
  · simp only [interactionPlaces, if_neg hne, hcap, hbase]
    exact hp
  · simp
  · simp
  · rw [placedBuffers_eq]
    exact placed_apart base t _ recvSize sendSize _
  · rw [placedBuffers_eq]
    exact placed_inside base t _ cap s.arena recvSize sendSize blk ht harena hblk

theorem sharedCount_concat (l : vectorNeighbor) (x : Nat × List Nat) :
    sharedCount (l ++ [x]) = sharedCount l + x.2.length := by
  simp [sharedCount]

theorem countBefore_concat (l : vectorNeighbor) (x : Nat × List Nat) :
    countBefore (l ++ [x]) l.length = sharedCount l := by
  simp [countBefore]

/-- When the buffers are arranged as `initialize` leaves them and there is a neighbour, the
bound of lines 243 and 252 is the size of the block, twice the number of shared indices, and
`_rbuff[0]` is its head. -/
theorem arranged_capacity {K : Type} (s : Subdomain K) (h : Arranged s) (hne : s._map ≠ []) :
    0 < s._map.length ∧ s._rbuff[0]? = some 0 ∧ haloCapacity s = some s.arena ∧
      s.arena = 2 * sharedCount s._map := by
  obtain ⟨_, h1, h2, h3, _⟩ := h
  rcases List.eq_nil_or_concat s._map with hm | ⟨l, x, hm⟩
  · exact absurd hm hne
  · rw [List.concat_eq_append] at hm
    have hlen : s._map.length = l.length + 1 := by rw [hm]; simp
    have hcb : countBefore s._map l.length = sharedCount l := by
      rw [hm]
      exact countBefore_concat l x
    have hsc : sharedCount s._map = sharedCount l + x.2.length := by
      rw [hm]
      exact sharedCount_concat l x
    have e1 : s._rbuff[0]? = some 0 := by
      rw [h1, hlen]
      simp [List.range_succ_eq_map, countBefore_zero]
    have e2 : s._sbuff.getLast? = some (sharedCount s._map + countBefore s._map l.length) := by
      rw [h2, hlen]
      exact map_range_last _ _
    have e3 : s._map.getLast? = some x := by
      rw [hm]
      simp
    refine ⟨by omega, e1, ?_, h3⟩
    simp only [haloCapacity, e1, e2, e3, h3]
    congr 1
    omega

/-- Lines 239-300 after `initialize` with at least one shared index and counters that did
not wrap, as long as the announced lengths add up to less than 2^32: the `2n` payload buffers
are pairwise apart and each lies inside the block of `initialize` (of `2 * S` scalars) or
inside the block allocated in the call. -/
theorem interaction_places_initialised {K : Type} (a : MatrixCSR K) (o : List Nat)
    (r : List (List Nat)) (s : Subdomain K) (recvSize sendSize : Nat → Nat)
    (h : initialise a o r = some s) (hn : s._map.length < 65536)
    (hS : 0 < sharedCount s._map) (hfit : 2 * sharedCount s._map < 4294967296)
    (hov : lengthBefore recvSize sendSize s._map.length (2 * s._map.length) < 4294967296) :
    s.arena = 2 * sharedCount s._map ∧
    ∃ p, interactionPlaces s recvSize sendSize = some p ∧
      p.rbuff.length = s._map.length ∧ p.sbuff.length = s._map.length ∧
      (placedBuffers p recvSize sendSize).Pairwise Apart ∧
      ∀ b ∈ placedBuffers p recvSize sendSize, Inside s.arena p.block b := by
  have hne : s._map ≠ [] := by
    intro e
    rw [e] at hS
    exact absurd hS (by decide)
  obtain ⟨hl, hb, hc, ha⟩ := arranged_capacity s (initialise_arranged a o r s h hn hS hfit) hne
  exact ⟨ha, interactionPlaces_fit s recvSize sendSize 0 s.arena hl hb hc (by omega) hov⟩

theorem interaction_places_initialised_witness :
    ∃ p, interactionPlaces trioSub (fun _ => 2) (fun _ => 1) = some p ∧
      (placedBuffers p (fun _ => 2) (fun _ => 1)).Pairwise Apart :=
  have h := (interaction_places_initialised scenarioMatrix [1, 2] [[3], [2, 3]] trioSub
    (fun _ => 2) (fun _ => 1) rfl (by decide) (by decide) (by decide) (by decide)).2
  h.elim fun p hp => ⟨p, hp.1, hp.2.2.2.1⟩

/-- C22, at two ranks that list each other with an empty set of shared indices: each side
still announces and transfers one scalar (the entry count), `_rbuff` and `_sbuff` are empty,
so the bound of line 243 reads `_rbuff[0]` and `_sbuff.back()` from empty vectors and no
placement is defined, whatever the lengths received. -/
theorem interaction_hollow_placement :
    initialise pairMatrix [1] [[]] = hollowSubs[0]? ∧
    initialise pairMatrix [0] [[]] = hollowSubs[1]? ∧
    hollowSubs.map (fun s => s._map.map fun nb => announcedPair 8 (sendList false s._a s._dof nb.2))
      = [[(0, 1)], [(0, 1)]] ∧
    hollowSubs.map (fun s => (s._map.length, s._rbuff, s._sbuff, haloCapacity s)) =
      [(1, [], [], none), (1, [], [], none)] ∧
    ∀ (recvSize sendSize : Nat → Nat),
      hollowSubs.map (fun s => interactionPlaces s recvSize sendSize) = [none, none] := by
  refine ⟨rfl, rfl, by decide, rfl, fun _ _ => rfl⟩

end HPDDM
